import Mathlib

/-!
Verification development for the curl-filter repository.

The definitions below are a shallow embedding of the TypeScript sources:

* `src/utils/curlParser.ts` — preprocessing, tokenizer, `parseCurl`, `buildCurl`;
* `src/utils/filterEngine.ts` — `FilterEngine.applyFilters` and its helpers;
* `src/utils/ruleValidation.ts` — `validateRule`, `validateRules`;
* `src/components/CurlFilter.tsx` — `buildCurlFromContext`;
* the JavaScript platform primitives the sources call
  (`JSON.parse` / `JSON.stringify`, `decodeURIComponent`, `encodeURIComponent`,
  `RegExp`, `URL.searchParams`), modelled explicitly where noted.

Strings are processed as `List Char`; machine strings appear as `String` in the
record types, built with `String.mk`.  All recursion is structural or fuelled so
every definition evaluates inside the kernel.
-/

namespace CurlFilter

/-- JS whitespace (the regexp class backslash-s, ASCII part); the sources only
ever meet ASCII whitespace. -/
def jsWs (c : Char) : Bool :=
  c == ' ' || c == '\t' || c == '\n' || c == '\r' || c == '\x0b' || c == '\x0c'

/-- Model of `String.prototype.trim` on a character list. -/
def trimL (cs : List Char) : List Char :=
  ((cs.dropWhile (jsWs ·)).reverse.dropWhile (jsWs ·)).reverse

/-- Is the character a single or double quote? -/
def isQuote (c : Char) : Bool := c == '"' || c == '\''

/-- Does the list start with the given pattern? -/
def lcStartsWith : List Char → List Char → Bool
  | _, [] => true
  | [], _ :: _ => false
  | c :: cs, p :: ps => c == p && lcStartsWith cs ps

/-- Does the list contain the pattern as a contiguous sublist?  Models
`String.prototype.includes` with a string argument. -/
def lcContainsSub : List Char → List Char → Bool
  | [], pat => pat.isEmpty
  | c :: cs, pat => lcStartsWith (c :: cs) pat || lcContainsSub cs pat

/-- ASCII-adequate model of `String.prototype.toLowerCase`. -/
def lcToLower (cs : List Char) : List Char := cs.map Char.toLower

/-- Model of `token.replace(/^["']|["']$/g, '')`: one leading and one trailing
quote character (of either kind, independently) are removed. -/
def stripEdgeQuotes (cs : List Char) : List Char :=
  let a := match cs with
    | c :: rest => if isQuote c then rest else c :: rest
    | [] => []
  match a.getLast? with
  | some c => if isQuote c then a.dropLast else a
  | none => a

/-- Model of `.replace(/["']/g, '')`: every quote character is removed. -/
def stripAllQuotes (cs : List Char) : List Char := cs.filter (fun c => !(isQuote c))

/-!
### Preprocessing (curlParser.ts line 98)

`curlCommand.replace(/\\\s*\n/g, ' ').replace(/\s+/g, ' ').trim()`.
-/

/-- Split a maximal whitespace run off the front of the list. -/
def wsRunSplit : List Char → List Char × List Char
  | [] => ([], [])
  | c :: cs =>
    if jsWs c then
      let (run, rest) := wsRunSplit cs
      (c :: run, rest)
    else ([], c :: cs)

/-- Split `run = a ++ ['\n'] ++ b` at the LAST newline of `run` (so `b` is
newline-free), if `run` holds a newline at all.  This is where the greedy
backslash-whitespace-star-newline regexp ends its match. -/
def lastNlSplit : List Char → Option (List Char × List Char)
  | [] => none
  | c :: cs =>
    match lastNlSplit cs with
    | some (a, b) => some (c :: a, b)
    | none => if c = '\n' then some ([], cs) else none

/-- Fuelled worker for the global replace of `/\\\s*\n/` by a single space. -/
def replaceBNLAux : Nat → List Char → List Char
  | 0, cs => cs
  | _ + 1, [] => []
  | fuel + 1, c :: cs =>
    if c = '\\' then
      let (run, rest) := wsRunSplit cs
      match lastNlSplit run with
      | some (_, b) => ' ' :: replaceBNLAux fuel (b ++ rest)
      | none => c :: replaceBNLAux fuel cs
    else c :: replaceBNLAux fuel cs

/-- Global replace of backslash-whitespace-newline sequences by one space. -/
def replaceBNL (cs : List Char) : List Char := replaceBNLAux cs.length cs

mutual

/-- Global replace of whitespace runs by a single space (regexp `\s+`). -/
def collapseWs : List Char → List Char
  | [] => []
  | c :: cs => if jsWs c then ' ' :: collapseAfterWs cs else c :: collapseWs cs

/-- Inside a whitespace run: skip the rest of the run. -/
def collapseAfterWs : List Char → List Char
  | [] => []
  | c :: cs => if jsWs c then collapseAfterWs cs else c :: collapseWs cs

end

/-- The cleaned command of curlParser.ts line 98. -/
def preprocess (cs : List Char) : List Char := trimL (collapseWs (replaceBNL cs))

/-!
### Tokenizer (curlParser.ts lines 100-129)

A character walk with an `inQuotes`/`quoteChar` state; quote characters are kept
inside the token; a space outside quotes ends the token; an unmatched quote runs
to the end of the input; tokens are pushed trimmed and only when nonempty.
-/

/-- The tokenizer loop.  `inq` is `some q` when inside a span opened by quote
character `q`; `current` is the accumulated token text. -/
def tokenizeAux : List Char → Option Char → List Char → List (List Char)
  | [], _, current => if trimL current = [] then [] else [trimL current]
  | c :: cs, none, current =>
    if isQuote c then tokenizeAux cs (some c) (current ++ [c])
    else if c = ' ' then
      if trimL current = [] then tokenizeAux cs none current
      else trimL current :: tokenizeAux cs none []
    else tokenizeAux cs none (current ++ [c])
  | c :: cs, some q, current =>
    if c = q then tokenizeAux cs none (current ++ [c])
    else tokenizeAux cs (some q) (current ++ [c])

/-- Tokens of a raw command string, after preprocessing. -/
def tokenize (cs : List Char) : List (List Char) := tokenizeAux (preprocess cs) none []

/-!
### JSON values

The JavaScript values flowing through the engine.  Numbers keep their JSON
source literal verbatim (JS float formatting is irrelevant to every claim
settled here and the literal survives the engine's stringify/parse deep copy
unchanged).  `undef` models the hole a JS `delete` leaves behind in an array;
it never occurs in parsed JSON.
-/

inductive Json where
  | null
  | bool (b : Bool)
  | num (lit : String)
  | str (s : String)
  | undef
  | arr (elems : List Json)
  | obj (kvs : List (String × Json))

/-- Decimal digits of a natural number (own fuelled version so the kernel
reduces it). -/
def natDigitsAux : Nat → Nat → List Char → List Char
  | 0, _, acc => acc
  | fuel + 1, n, acc =>
    let d := Char.ofNat ('0'.toNat + n % 10)
    if n < 10 then d :: acc else natDigitsAux fuel (n / 10) (d :: acc)

/-- Decimal representation of a natural number, as JS stringifies array
indices. -/
def natToStr (n : Nat) : String := ⟨natDigitsAux (n + 1) n []⟩

/-- Is this JSON number literal numerically zero?  A literal is zero exactly
when every digit of its integer and fractional parts is 0 (the exponent is
irrelevant). -/
def numLitZero (cs : List Char) : Bool :=
  let cs1 := match cs with
    | '-' :: t => t
    | t => t
  let ds := cs1.takeWhile (·.isDigit)
  let rest := cs1.drop ds.length
  let fs := match rest with
    | '.' :: t => t.takeWhile (·.isDigit)
    | _ => []
  (ds ++ fs).all (· == '0')

/-- JS truthiness of a JSON value (`null`, `false`, `0`, `""` and `undefined`
are falsy; every object and array is truthy). -/
def jsTruthy : Json → Bool
  | .null => false
  | .bool b => b
  | .num lit => !(numLitZero lit.data)
  | .str s => !(s.data.isEmpty)
  | .undef => false
  | .arr _ => true
  | .obj _ => true

/-- Does `typeof v === 'object'` hold?  Note that in JS `typeof null` and
`typeof` of any array are both `'object'`. -/
def jsTypeofObject : Json → Bool
  | .null => true
  | .arr _ => true
  | .obj _ => true
  | _ => false

/-- Keys of a JS array, skipping holes, as decimal strings. -/
def arrKeysAux : Nat → List Json → List String
  | _, [] => []
  | i, .undef :: es => arrKeysAux (i + 1) es
  | i, _ :: es => natToStr i :: arrKeysAux (i + 1) es

/-- Model of `Object.keys`: own enumerable keys.  For arrays these are the
indices of the non-hole elements; for strings the character indices; for other
primitives the empty list. -/
def jsObjectKeys : Json → List String
  | .obj ms => ms.map (·.1)
  | .arr es => arrKeysAux 0 es
  | .str s => (List.range s.data.length).map natToStr
  | _ => []

/-- Update an association list at a key, JS-object style: an existing key keeps
its position and gets the new value; a new key is appended. -/
def setAssoc {α : Type} (m : List (String × α)) (k : String) (v : α) : List (String × α) :=
  if m.any (·.1 == k) then m.map (fun kv => if kv.1 == k then (k, v) else kv)
  else m ++ [(k, v)]

/-- Parse a canonical array index ("0", or digits without a leading zero), the
only key shape `Object.keys` produces for array elements. -/
def canonIndex (s : String) : Option Nat :=
  match s.data with
  | [] => none
  | ['0'] => some 0
  | c :: cs =>
    if c.isDigit && c != '0' && cs.all (·.isDigit) then
      some ((c :: cs).foldl (fun acc d => acc * 10 + (d.toNat - '0'.toNat)) 0)
    else none

/-- Model of reading `v[key]` for the engine's bodies (a missing member or a
hole reads as `undefined`). -/
def jsGetMember (j : Json) (k : String) : Json :=
  match j with
  | .obj ms => ((ms.find? (·.1 == k)).map (·.2)).getD .undef
  | .arr es =>
    match canonIndex k with
    | some i => es.getD i .undef
    | none => .undef
  | _ => (.undef)

/-- Model of the assignment `v[key] = x` on an object or array (assigning past
the end of an array extends it with holes; on primitives the engine never does
this because of its typeof guard). -/
def jsSetMember (j : Json) (k : String) (x : Json) : Json :=
  match j with
  | .obj ms => .obj (setAssoc ms k x)
  | .arr es =>
    match canonIndex k with
    | some i =>
      if i < es.length then .arr (es.set i x)
      else .arr (es ++ List.replicate (i - es.length) .undef ++ [x])
    | none => .arr es
  | other => other

/-- Model of `delete v[key]`: an object loses the key; an array keeps its
length and gets a hole. -/
def jsDeleteMember (j : Json) (k : String) : Json :=
  match j with
  | .obj ms => .obj (ms.filter (fun kv => !(kv.1 == k)))
  | .arr es =>
    match canonIndex k with
    | some i => if i < es.length then .arr (es.set i .undef) else .arr es
    | none => .arr es
  | other => other

/-!
### JSON.stringify

Compact rendering with the standard JS escapes; `undefined` inside an array
renders as `null` and an `undefined`-valued object member is skipped, exactly
as `JSON.stringify` does.
-/

/-- Lowercase hex digit. -/
def hexDigitLower (n : Nat) : Char :=
  if n < 10 then Char.ofNat ('0'.toNat + n) else Char.ofNat ('a'.toNat + (n - 10))

/-- One character of a JSON string, escaped as JSON.stringify escapes it. -/
def escChar (c : Char) : List Char :=
  if c = '"' then ['\\', '"']
  else if c = '\\' then ['\\', '\\']
  else if c = '\x08' then ['\\', 'b']
  else if c = '\x0c' then ['\\', 'f']
  else if c = '\n' then ['\\', 'n']
  else if c = '\r' then ['\\', 'r']
  else if c = '\t' then ['\\', 't']
  else if c.toNat < 0x20 then
    ['\\', 'u', '0', '0', hexDigitLower (c.toNat / 16), hexDigitLower (c.toNat % 16)]
  else [c]

/-- A whole character list, escaped. -/
def escList : List Char → List Char
  | [] => []
  | c :: cs => escChar c ++ escList cs

/-- A JSON string literal with its quotes. -/
def renderStr (s : String) : List Char := '"' :: (escList s.data ++ ['"'])

mutual

/-- JSON.stringify of a value, as characters. -/
def renderVal : Json → List Char
  | .null => "null".data
  | .bool true => "true".data
  | .bool false => "false".data
  | .num lit => lit.data
  | .str s => renderStr s
  | .undef => "null".data
  | .arr es => '[' :: (renderElems es ++ [']'])
  | .obj ms => '\x7b' :: (renderMembers ms ++ ['\x7d'])

/-- Array elements, comma separated (holes render as null). -/
def renderElems : List Json → List Char
  | [] => []
  | [e] => renderVal e
  | e :: e2 :: es => renderVal e ++ ',' :: renderElems (e2 :: es)

/-- Object members, comma separated; an undefined-valued member is skipped. -/
def renderMembers : List (String × Json) → List Char
  | [] => []
  | (k, v) :: ms =>
    match v with
    | .undef => renderMembers ms
    | _ => renderStr k ++ ':' :: renderVal v ++ renderMembersRest ms

/-- Members after the first rendered one: each preceded by a comma. -/
def renderMembersRest : List (String × Json) → List Char
  | [] => []
  | (k, v) :: ms =>
    match v with
    | .undef => renderMembersRest ms
    | _ => ',' :: (renderStr k ++ ':' :: renderVal v) ++ renderMembersRest ms

end

/-- JSON.stringify as a string-to-string function. -/
def jsonStringify (j : Json) : String := ⟨renderVal j⟩

/-!
### JSON.parse

A model of the strict JSON grammar: fuelled on nesting, structural elsewhere.
Duplicate object keys follow JS semantics (value of the last occurrence,
position of the first).  Limitation kept from the embedding of strings as
unicode scalar sequences: a lone UTF-16 surrogate escape is rejected instead of
producing a lone surrogate.
-/

/-- JSON whitespace (only these four characters). -/
def jsonWsC (c : Char) : Bool := c == ' ' || c == '\t' || c == '\n' || c == '\r'

/-- Skip JSON whitespace. -/
def skipWsJ (cs : List Char) : List Char := cs.dropWhile (jsonWsC ·)

/-- Value of a hex digit. -/
def hexVal? (c : Char) : Option Nat :=
  if '0' ≤ c ∧ c ≤ '9' then some (c.toNat - '0'.toNat)
  else if 'a' ≤ c ∧ c ≤ 'f' then some (c.toNat - 'a'.toNat + 10)
  else if 'A' ≤ c ∧ c ≤ 'F' then some (c.toNat - 'A'.toNat + 10)
  else none

/-- Four hex digits combined. -/
def hex4 (a b c d : Char) : Option Nat := do
  let va ← hexVal? a
  let vb ← hexVal? b
  let vc ← hexVal? c
  let vd ← hexVal? d
  pure (va * 4096 + vb * 256 + vc * 16 + vd)

/-- The single character a shorthand escape stands for, if the letter is one
of the eight JSON shorthands. -/
def jsonEscChar? (e : Char) : Option Char :=
  if e = '"' then some '"'
  else if e = '\\' then some '\\'
  else if e = '/' then some '/'
  else if e = 'b' then some '\x08'
  else if e = 'f' then some '\x0c'
  else if e = 'n' then some '\n'
  else if e = 'r' then some '\r'
  else if e = 't' then some '\t'
  else none

mutual

/-- String body after the opening quote; returns the content and the input
after the closing quote.  The fuel is a model artifact: every call site
supplies at least the remaining input length plus one, which the consumption
lemmas below show is always enough. -/
def parseJStrAux : Nat → List Char → List Char → Option (List Char × List Char)
  | 0, _, _ => none
  | _ + 1, _, [] => none
  | fuel + 1, acc, c :: rest =>
    if c = '"' then some (acc.reverse, rest)
    else if c = '\\' then parseJStrEscape fuel acc rest
    else if c.toNat < 0x20 then none
    else parseJStrAux fuel (c :: acc) rest
termination_by structural fuel => fuel

def parseJStrEscape : Nat → List Char → List Char → Option (List Char × List Char)
  | 0, _, _ => none
  | _ + 1, _, [] => none
  | fuel + 1, acc, e :: rest2 =>
    if e = 'u' then parseJStrUnicode fuel acc rest2
    else
      match jsonEscChar? e with
      | some c2 => parseJStrAux fuel (c2 :: acc) rest2
      | none => none
termination_by structural fuel => fuel

def parseJStrUnicode : Nat → List Char → List Char → Option (List Char × List Char)
  | 0, _, _ => none
  | fuel + 1, acc, a :: b :: c2 :: d :: rest3 =>
    (match hex4 a b c2 d with
     | none => none
     | some n =>
       if n < 0xD800 ∨ 0xE000 ≤ n then parseJStrAux fuel (Char.ofNat n :: acc) rest3
       else if n < 0xDC00 then parseJStrLowSur fuel acc n rest3
       else none)
  | _ + 1, _, _ => none
termination_by structural fuel => fuel

def parseJStrLowSur : Nat → List Char → Nat → List Char → Option (List Char × List Char)
  | 0, _, _, _ => none
  | fuel + 1, acc, n, e1 :: e2 :: a2 :: b2 :: c3 :: d2 :: rest4 =>
    if e1 = '\\' ∧ e2 = 'u' then
      match hex4 a2 b2 c3 d2 with
      | some m =>
        if 0xDC00 ≤ m ∧ m < 0xE000 then
          parseJStrAux fuel (Char.ofNat (0x10000 + (n - 0xD800) * 0x400 + (m - 0xDC00)) :: acc) rest4
        else none
      | none => none
    else none
  | _ + 1, _, _, _ => none
termination_by structural fuel => fuel

end

/-- One or more digits. -/
def digitsRun (cs : List Char) : Option (List Char × List Char) :=
  let ds := cs.takeWhile (·.isDigit)
  if ds.isEmpty then none else some (ds, cs.drop ds.length)

/-- A JSON number literal; returns the consumed literal and the rest. -/
def parseNumLit (cs : List Char) : Option (List Char × List Char) := do
  let (sgn, cs1) := match cs with
    | '-' :: t => (['-'], t)
    | t => (([] : List Char), t)
  let (ip, cs2) ← match cs1 with
    | '0' :: t => some ((['0'] : List Char), t)
    | c :: _ =>
      if c.isDigit then digitsRun cs1 else none
    | [] => none
  let (fp, cs3) ← match cs2 with
    | '.' :: t => (digitsRun t).map (fun (ds, r) => ('.' :: ds, r))
    | _ => some (([] : List Char), cs2)
  let (ep, cs4) ← match cs3 with
    | 'e' :: t | 'E' :: t =>
      let (es, t1) := match t with
        | '+' :: u => ((['+'] : List Char), u)
        | '-' :: u => ((['-'] : List Char), u)
        | u => ([], u)
      (digitsRun t1).map (fun (ds, r) => ((cs3.head?.getD 'e') :: es ++ ds, r))
    | _ => some (([] : List Char), cs3)
  pure (sgn ++ ip ++ fp ++ ep, cs4)

mutual

/-- A JSON value (after skipping leading whitespace). -/
def parseJVal : Nat → List Char → Option (Json × List Char)
  | 0, _ => none
  | fuel + 1, cs =>
    match skipWsJ cs with
    | [] => none
    | c :: rest =>
      if c = '"' then (parseJStrAux (rest.length + 1) [] rest).map (fun (content, r) => (.str ⟨content⟩, r))
      else if c = 't' then
        match rest with
        | r1 :: r2 :: r3 :: rr =>
          if r1 = 'r' ∧ r2 = 'u' ∧ r3 = 'e' then some (.bool true, rr) else none
        | _ => none
      else if c = 'f' then
        match rest with
        | r1 :: r2 :: r3 :: r4 :: rr =>
          if r1 = 'a' ∧ r2 = 'l' ∧ r3 = 's' ∧ r4 = 'e' then some (.bool false, rr) else none
        | _ => none
      else if c = 'n' then
        match rest with
        | r1 :: r2 :: r3 :: rr =>
          if r1 = 'u' ∧ r2 = 'l' ∧ r3 = 'l' then some (.null, rr) else none
        | _ => none
      else if c = '[' then
        match skipWsJ rest with
        | d :: rest2 =>
          if d = ']' then some (.arr [], rest2)
          else (parseJElems fuel rest).map (fun (es, r) => (.arr es, r))
        | [] => (parseJElems fuel rest).map (fun (es, r) => (.arr es, r))
      else if c = '\x7b' then
        match skipWsJ rest with
        | d :: rest2 =>
          if d = '\x7d' then some (.obj [], rest2)
          else
            (parseJMembers fuel rest).map (fun (ms, r) =>
              (.obj (ms.foldl (fun acc kv => setAssoc acc kv.1 kv.2) []), r))
        | [] =>
          (parseJMembers fuel rest).map (fun (ms, r) =>
            (.obj (ms.foldl (fun acc kv => setAssoc acc kv.1 kv.2) []), r))
      else if c = '-' ∨ c.isDigit then
        (parseNumLit (c :: rest)).map (fun (lit, r) => (.num ⟨lit⟩, r))
      else none

/-- Array elements up to and including the closing bracket. -/
def parseJElems : Nat → List Char → Option (List Json × List Char)
  | 0, _ => none
  | fuel + 1, cs => do
    let (e, rest) ← parseJVal fuel cs
    match skipWsJ rest with
    | d :: rest1 =>
      if d = ',' then (parseJElems fuel rest1).map (fun (es, r) => (e :: es, r))
      else if d = ']' then some ([e], rest1)
      else none
    | [] => none

/-- Object members up to and including the closing brace, in source order,
duplicates included (the caller folds them with `setAssoc`, which is the JS
property-definition rule: value of the last occurrence at the position of the
first). -/
def parseJMembers : Nat → List Char → Option (List (String × Json) × List Char)
  | 0, _ => none
  | fuel + 1, cs =>
    match skipWsJ cs with
    | [] => none
    | c :: rest =>
      if c = '"' then do
        let (k, rest1) ← parseJStrAux (rest.length + 1) [] rest
        match skipWsJ rest1 with
        | d :: rest2 =>
          if d = ':' then do
            let (v, rest3) ← parseJVal fuel rest2
            match skipWsJ rest3 with
            | d2 :: rest4 =>
              if d2 = ',' then (parseJMembers fuel rest4).map (fun (ms, r) => ((⟨k⟩, v) :: ms, r))
              else if d2 = '\x7d' then some ([(⟨k⟩, v)], rest4)
              else none
            | [] => none
          else none
        | [] => none
      else none

end

/-- Full JSON.parse: the whole input must be consumed (modulo trailing
whitespace). -/
def jsonParseFull (s : String) : Option Json :=
  match parseJVal (s.data.length + 1) s.data with
  | some (j, rest) => if (skipWsJ rest).isEmpty then some j else none
  | none => none

/-!
### Percent-encoding primitives

Models of `decodeURIComponent` (strict: malformed percent sequences and
malformed UTF-8 throw a URIError, rendered here as `none`),
`encodeURIComponent`, and the lenient application/x-www-form-urlencoded
decoding used by `URLSearchParams` (never fails; bad sequences become
replacement characters or stay literal).
-/

/-- UTF-8 bytes of one character. -/
def utf8Bytes (c : Char) : List Nat :=
  let n := c.toNat
  if n < 0x80 then [n]
  else if n < 0x800 then [0xC0 + n / 64, 0x80 + n % 64]
  else if n < 0x10000 then [0xE0 + n / 4096, 0x80 + (n / 64) % 64, 0x80 + n % 64]
  else [0xF0 + n / 262144, 0x80 + (n / 4096) % 64, 0x80 + (n / 64) % 64, 0x80 + n % 64]

/-- Uppercase hex digit (percent-encoding uses uppercase). -/
def hexDigitUpper (n : Nat) : Char :=
  if n < 10 then Char.ofNat ('0'.toNat + n) else Char.ofNat ('A'.toNat + (n - 10))

/-- Characters `encodeURIComponent` leaves unescaped. -/
def uriUnreserved (c : Char) : Bool :=
  c.isAlphanum || c == '-' || c == '_' || c == '.' || c == '!' ||
    c == '~' || c == '*' || c == '\'' || c == '(' || c == ')'

/-- Model of `encodeURIComponent`. -/
def encodeURIComponentL : List Char → List Char
  | [] => []
  | c :: cs =>
    (if uriUnreserved c then [c]
     else (utf8Bytes c).foldr
       (fun b acc => '%' :: hexDigitUpper (b / 16) :: hexDigitUpper (b % 16) :: acc) [])
      ++ encodeURIComponentL cs

/-- Is the byte a UTF-8 continuation byte? -/
def isCont (b : Nat) : Bool := 0x80 ≤ b && b < 0xC0

/-- Model of `decodeURIComponent`: strict percent decoding with strict UTF-8
validation (overlong forms, surrogates, out-of-range and truncated sequences
all throw, i.e. return `none`).  Bytes must come from percent escapes;
non-escape characters pass through unchanged. -/
def decodeURIStrict : List Char → Option (List Char)
  | [] => some []
  | '%' :: a :: b :: rest =>
    (match hexVal? a, hexVal? b with
     | some ha, some hb =>
       let byte := ha * 16 + hb
       if byte < 0x80 then (decodeURIStrict rest).map (Char.ofNat byte :: ·)
       else if 0xC2 ≤ byte ∧ byte ≤ 0xDF then
         match rest with
         | '%' :: a2 :: b2 :: rest2 =>
           (match hexVal? a2, hexVal? b2 with
            | some h2, some l2 =>
              let b2v := h2 * 16 + l2
              if isCont b2v then
                (decodeURIStrict rest2).map (Char.ofNat ((byte - 0xC0) * 64 + (b2v - 0x80)) :: ·)
              else none
            | _, _ => none)
         | _ => none
       else if 0xE0 ≤ byte ∧ byte ≤ 0xEF then
         match rest with
         | '%' :: a2 :: b2 :: '%' :: a3 :: b3 :: rest2 =>
           (match hexVal? a2, hexVal? b2, hexVal? a3, hexVal? b3 with
            | some h2, some l2, some h3, some l3 =>
              let v2 := h2 * 16 + l2
              let v3 := h3 * 16 + l3
              if isCont v2 ∧ isCont v3 then
                let n := (byte - 0xE0) * 4096 + (v2 - 0x80) * 64 + (v3 - 0x80)
                if 0x800 ≤ n ∧ (n < 0xD800 ∨ 0xE000 ≤ n) then
                  (decodeURIStrict rest2).map (Char.ofNat n :: ·)
                else none
              else none
            | _, _, _, _ => none)
         | _ => none
       else if 0xF0 ≤ byte ∧ byte ≤ 0xF4 then
         match rest with
         | '%' :: a2 :: b2 :: '%' :: a3 :: b3 :: '%' :: a4 :: b4 :: rest2 =>
           (match hexVal? a2, hexVal? b2, hexVal? a3, hexVal? b3, hexVal? a4, hexVal? b4 with
            | some h2, some l2, some h3, some l3, some h4, some l4 =>
              let v2 := h2 * 16 + l2
              let v3 := h3 * 16 + l3
              let v4 := h4 * 16 + l4
              if isCont v2 ∧ isCont v3 ∧ isCont v4 then
                let n := (byte - 0xF0) * 262144 + (v2 - 0x80) * 4096 + (v3 - 0x80) * 64 + (v4 - 0x80)
                if 0x10000 ≤ n ∧ n ≤ 0x10FFFF then
                  (decodeURIStrict rest2).map (Char.ofNat n :: ·)
                else none
              else none
            | _, _, _, _, _, _ => none)
         | _ => none
       else none
     | _, _ => none)
  | '%' :: _ => none
  | c :: rest => (decodeURIStrict rest).map (c :: ·)

/-- String-level strict decode. -/
def decodeURIComponentS (s : String) : Option String :=
  (decodeURIStrict s.data).map (⟨·⟩)

/-- First pass of lenient form decoding: plus becomes space, a valid percent
pair becomes a byte, an invalid one leaves the percent sign literal. -/
def pctLexAux : Nat → List Char → List (Sum Char Nat)
  | 0, cs => cs.map .inl
  | _ + 1, [] => []
  | fuel + 1, '+' :: rest => .inl ' ' :: pctLexAux fuel rest
  | fuel + 1, '%' :: a :: b :: rest =>
    (match hexVal? a, hexVal? b with
     | some ha, some hb => .inr (ha * 16 + hb) :: pctLexAux fuel rest
     | _, _ => .inl '%' :: pctLexAux fuel (a :: b :: rest))
  | fuel + 1, c :: rest => .inl c :: pctLexAux fuel rest

/-- Second pass: lenient UTF-8 decoding of the byte runs, with U+FFFD on
malformed sequences (approximate resynchronisation; nothing in this
development relies on its fine structure). -/
def utf8LenientAux : Nat → List (Sum Char Nat) → List Char
  | 0, _ => []
  | _ + 1, [] => []
  | fuel + 1, .inl c :: rest => c :: utf8LenientAux fuel rest
  | fuel + 1, .inr b :: rest =>
    if b < 0x80 then Char.ofNat b :: utf8LenientAux fuel rest
    else if 0xC2 ≤ b ∧ b ≤ 0xDF then
      match rest with
      | .inr b2 :: rest2 =>
        if isCont b2 then Char.ofNat ((b - 0xC0) * 64 + (b2 - 0x80)) :: utf8LenientAux fuel rest2
        else '�' :: utf8LenientAux fuel rest
      | _ => '�' :: utf8LenientAux fuel rest
    else if 0xE0 ≤ b ∧ b ≤ 0xEF then
      match rest with
      | .inr b2 :: .inr b3 :: rest2 =>
        if isCont b2 ∧ isCont b3 ∧
            (let n := (b - 0xE0) * 4096 + (b2 - 0x80) * 64 + (b3 - 0x80)
             0x800 ≤ n ∧ (n < 0xD800 ∨ 0xE000 ≤ n)) then
          Char.ofNat ((b - 0xE0) * 4096 + (b2 - 0x80) * 64 + (b3 - 0x80)) ::
            utf8LenientAux fuel rest2
        else '�' :: utf8LenientAux fuel rest
      | _ => '�' :: utf8LenientAux fuel rest
    else if 0xF0 ≤ b ∧ b ≤ 0xF4 then
      match rest with
      | .inr b2 :: .inr b3 :: .inr b4 :: rest2 =>
        if isCont b2 ∧ isCont b3 ∧ isCont b4 ∧
            (let n := (b - 0xF0) * 262144 + (b2 - 0x80) * 4096 + (b3 - 0x80) * 64 + (b4 - 0x80)
             0x10000 ≤ n ∧ n ≤ 0x10FFFF) then
          Char.ofNat ((b - 0xF0) * 262144 + (b2 - 0x80) * 4096 + (b3 - 0x80) * 64 + (b4 - 0x80)) ::
            utf8LenientAux fuel rest2
        else '�' :: utf8LenientAux fuel rest
      | _ => '�' :: utf8LenientAux fuel rest
    else '�' :: utf8LenientAux fuel rest

/-- Lenient form decoding as URLSearchParams performs it; never fails. -/
def formDecodeLenient (cs : List Char) : List Char :=
  let lexed := pctLexAux cs.length cs
  utf8LenientAux lexed.length lexed

/-!
### The URL constructor and its searchParams (platform model)

Only what `parseQueryParams` in curlParser.ts needs: whether `new URL(url)`
succeeds (scheme shaped like letter, then letters/digits/plus/minus/dot, then a
colon; special schemes additionally need a nonempty host after the slashes),
and the decoded query pairs.  `parseCurl` wraps the call in try/catch, so the
model only has to be right about success versus failure at the inputs the
claims touch.
-/

/-- Scheme characters after the first. -/
def schemeTailChar (c : Char) : Bool :=
  c.isAlphanum || c == '+' || c == '-' || c == '.'

/-- Does the candidate URL parse, i.e. does `new URL(url)` succeed? -/
def urlParseOk (cs : List Char) : Bool :=
  match cs.findIdx? (· = ':') with
  | none => false
  | some i =>
    let scheme := cs.take i
    match scheme with
    | [] => false
    | c :: rest =>
      c.isAlpha && rest.all schemeTailChar &&
        (let low := lcToLower scheme
         if low = "http".data ∨ low = "https".data ∨ low = "ws".data ∨
             low = "wss".data ∨ low = "ftp".data then
           match cs.drop (i + 1) with
           | '/' :: '/' :: h :: _ => !(h = '/' ∨ h = '?' ∨ h = '#')
           | _ => false
         else true)

/-- The raw query of a URL: after the first question mark, before the first
subsequent hash. -/
def rawQueryOf (cs : List Char) : List Char :=
  match cs.dropWhile (· ≠ '?') with
  | _ :: t => t.takeWhile (· ≠ '#')
  | [] => []

/-- Decoded query pairs, in order, as URLSearchParams enumerates them (empty
pieces skipped; split at the first equals sign). -/
def searchPairs (q : List Char) : List (String × String) :=
  (q.splitOn '&').filterMap (fun piece =>
    match piece with
    | [] => none
    | _ =>
      let k := piece.takeWhile (· ≠ '=')
      let rest := piece.drop k.length
      let v := match rest with
        | _ :: t => t
        | [] => []
      some (⟨formDecodeLenient k⟩, ⟨formDecodeLenient v⟩))

/-- Model of curlParser.ts `parseQueryParams`: `none` when the URL constructor
throws, otherwise the forEach-built record. -/
def parseQueryParams (url : List Char) : Option (List (String × String)) :=
  if urlParseOk url then
    some ((searchPairs (rawQueryOf url)).foldl (fun acc kv => setAssoc acc kv.1 kv.2) [])
  else none

/-!
### The command parser (curlParser.ts `parseCurl` and helpers)
-/

/-- The ParsedCurl interface of curlParser.ts. -/
structure ParsedCurl where
  url : String
  method : String
  headers : List (String × String)
  queryParams : List (String × String)
  formData : List (String × String)
  jsonBody : Json
  data : Option String
  otherOptions : List String

/-- Initial result record of `parseCurl`. -/
def initParsed : ParsedCurl :=
  { url := "", method := "GET", headers := [], queryParams := [], formData := [],
    jsonBody := .null, data := none, otherOptions := [] }

/-- The token walk of curlParser.ts lines 132-186, translated branch for
branch.  Flag tokens consume their following token with the same guards as the
source; the URL branch tests the raw token (quotes included) and overwrites an
earlier URL; the fallback branch fires only while the URL is still empty. -/
def walkTokens : List (List Char) → ParsedCurl → ParsedCurl
  | [], st => st
  | t :: rest, st =>
    if t = "curl".data then walkTokens rest st
    else if t = "-X".data ∨ t = "--request".data then
      match rest with
      | m :: rest2 => walkTokens rest2 { st with method := ⟨stripAllQuotes m⟩ }
      | [] => st
    else if t = "-H".data ∨ t = "--header".data then
      match rest with
      | hv :: rest2 =>
        let s := stripEdgeQuotes hv
        (match s.findIdx? (· = ':') with
         | some ci =>
           if 0 < ci then
             walkTokens rest2
               { st with
                 headers := setAssoc st.headers ⟨lcToLower (trimL (s.take ci))⟩
                   ⟨trimL (s.drop (ci + 1))⟩ }
           else walkTokens rest2 st
         | none => walkTokens rest2 st)
      | [] => st
    else if t = "-d".data ∨ t = "--data".data ∨ t = "--data-raw".data then
      match rest with
      | d :: rest2 => walkTokens rest2 { st with data := some ⟨stripEdgeQuotes d⟩ }
      | [] => st
    else if lcStartsWith t "http://".data ∨ lcStartsWith t "https://".data then
      walkTokens rest { st with url := ⟨stripEdgeQuotes t⟩ }
    else if lcStartsWith t "-".data then
      let st1 := { st with otherOptions := st.otherOptions ++ [⟨t⟩] }
      match rest with
      | nxt :: rest2 =>
        if !(lcStartsWith nxt "-".data) && !(lcStartsWith nxt "http".data) then
          walkTokens rest2 { st1 with otherOptions := st1.otherOptions ++ [⟨nxt⟩] }
        else walkTokens (nxt :: rest2) st1
      | [] => st1
    else if st.url = "" && (t.contains '.' || t.contains '/') then
      walkTokens rest { st with url := ⟨stripEdgeQuotes t⟩ }
    else walkTokens rest st

/-- Form-data parsing (curlParser.ts `parseFormData`), with the unguarded
`decodeURIComponent` calls made explicit: `none` is the URIError the source
lets escape. -/
def formPairsE : List (List Char) → List (String × String) → Option (List (String × String))
  | [], acc => some acc
  | pair :: rest, acc =>
    let k := pair.takeWhile (· ≠ '=')
    if k.isEmpty then formPairsE rest acc
    else
      match pair.drop k.length with
      | '=' :: tail =>
        let v := tail.takeWhile (· ≠ '=')
        (match decodeURIStrict k with
         | none => none
         | some dk =>
           if v.isEmpty then formPairsE rest (setAssoc acc ⟨dk⟩ "")
           else
             match decodeURIStrict v with
             | none => none
             | some dv => formPairsE rest (setAssoc acc ⟨dk⟩ ⟨dv⟩))
      | _ =>
        match decodeURIStrict k with
        | none => none
        | some dk => formPairsE rest (setAssoc acc ⟨dk⟩ "")

/-- curlParser.ts `parseFormData` on a raw body. -/
def parseFormDataE (data : List Char) : Option (List (String × String)) :=
  if data.isEmpty then some [] else formPairsE (data.splitOn '&') []

/-- curlParser.ts `parseJsonBody`: failed JSON parses collapse to null. -/
def parseJsonBody (data : List Char) : Json :=
  if data.isEmpty then .null else (jsonParseFull ⟨data⟩).getD .null

/-- The token walk applied to a raw command string. -/
def walkOf (s : String) : ParsedCurl := walkTokens (tokenize s.data) initParsed

/-- curlParser.ts `parseCurl`.  The only operation in its body that can throw
is `decodeURIComponent` inside `parseFormData` (URL parsing and JSON parsing
are wrapped in try/catch); an `Except.error` here is exactly that URIError. -/
def parseCurl (s : String) : Except String ParsedCurl :=
  let st := walkOf s
  let st1 :=
    if st.url ≠ "" then
      match parseQueryParams st.url.data with
      | some qp => { st with queryParams := qp }
      | none => { st with queryParams := [] }
    else st
  match st1.data with
  | none => .ok st1
  | some d =>
    if d.data.isEmpty then .ok st1
    else
      let ct := (((st1.headers.find? (·.1 == "content-type")).map (·.2)).getD "")
      if lcContainsSub ct.data "application/json".data then
        .ok { st1 with jsonBody := parseJsonBody d.data }
      else if lcContainsSub ct.data "application/x-www-form-urlencoded".data then
        match parseFormDataE d.data with
        | some fd => .ok { st1 with formData := fd }
        | none => .error "URIError: URI malformed"
      else
        match parseJsonBody d.data with
        | .null =>
          (match parseFormDataE d.data with
           | some fd => .ok { st1 with formData := fd }
           | none => .error "URIError: URI malformed")
        | jb => .ok { st1 with jsonBody := jb }

/-!
### The command builder (curlParser.ts `buildCurl`)
-/

/-- curlParser.ts `buildCurl`: method flag unless GET, one -H per header of the
override map, the raw body behind -d when present, the option tokens that do
not mention user-agent, referer or origin, then the quoted URL. -/
def buildCurl (parsed : ParsedCurl) (filteredHeaders : List (String × String)) : String :=
  let cmd := "curl"
  let cmd := if parsed.method ≠ "GET" then cmd ++ " -X " ++ parsed.method else cmd
  let cmd := filteredHeaders.foldl
    (fun acc kv => acc ++ " -H \"" ++ kv.1 ++ ": " ++ kv.2 ++ "\"") cmd
  let cmd := match parsed.data with
    | some d => if d ≠ "" then cmd ++ " -d \"" ++ d ++ "\"" else cmd
    | none => cmd
  let safeOpts := parsed.otherOptions.filter (fun o =>
    !(lcContainsSub o.data "user-agent".data) && !(lcContainsSub o.data "referer".data) &&
      !(lcContainsSub o.data "origin".data))
  let cmd := if safeOpts ≠ [] then cmd ++ " " ++ String.intercalate " " safeOpts else cmd
  cmd ++ " \"" ++ parsed.url ++ "\""

/-!
### Regular expressions (platform model)

A model of the `RegExp` constructor and `test` for the common fragment of the
JS grammar: literals, escapes, character classes with ranges and the perl
classes, groups, alternation, the star/plus/question quantifiers (with lazy
markers), the dot, and the caret/dollar anchors.  Exotic features (lookaround,
braced quantifiers, backreferences, word boundaries) are either treated as
literals where JS does the same or approximated; compilation success is what
the claims depend on, and for that the model agrees with JS on every pattern
mentioned in this development.  The matcher is fuelled; exhausted fuel reads as
no match.
-/

inductive ClsItem where
  | single (c : Char)
  | range (lo hi : Char)
  | pd
  | pD
  | pw
  | pW
  | ps
  | pS
deriving DecidableEq

inductive Regex where
  | eps
  | chr (c : Char)
  | anyC
  | cls (neg : Bool) (items : List ClsItem)
  | alt (a b : Regex)
  | seq (a b : Regex)
  | star (a : Regex)
  | bol
  | eol
deriving DecidableEq

/-- A perl class escape, as a class item. -/
def perlItem (c : Char) : Option ClsItem :=
  if c = 'd' then some .pd
  else if c = 'D' then some .pD
  else if c = 'w' then some .pw
  else if c = 'W' then some .pW
  else if c = 's' then some .ps
  else if c = 'S' then some .pS
  else none

/-- Translate an escape that stands for a single character. -/
def escAtomChar (c : Char) : Char :=
  if c = 'n' then '\n'
  else if c = 't' then '\t'
  else if c = 'r' then '\r'
  else if c = 'f' then '\x0c'
  else if c = 'v' then '\x0b'
  else if c = '0' then '\x00'
  else c

/-- Items of a character class, up to the closing bracket; `none` when the
class never closes or a range is inverted.  Fuelled so the kernel reduces it. -/
def parseClsItems : Nat → List Char → List ClsItem → Option (List ClsItem × List Char)
  | 0, _, _ => none
  | _ + 1, [], _ => none
  | _ + 1, ']' :: rest, acc => some (acc.reverse, rest)
  | fuel + 1, '\\' :: e :: rest, acc =>
    (match perlItem e with
     | some it => parseClsItems fuel rest (it :: acc)
     | none => parseClsItems fuel rest (.single (escAtomChar e) :: acc))
  | _ + 1, '\\' :: [], _ => none
  | fuel + 1, c :: '-' :: d :: rest, acc =>
    if d = ']' then parseClsItems fuel (d :: rest) (.single '-' :: .single c :: acc)
    else if d = '\\' then parseClsItems fuel ('\\' :: rest) (.single '-' :: .single c :: acc)
    else if c ≤ d then parseClsItems fuel rest (.range c d :: acc)
    else none
  | fuel + 1, c :: rest, acc => parseClsItems fuel rest (.single c :: acc)

/-- A character class starting after the opening bracket. -/
def parseCls (cs : List Char) : Option (Regex × List Char) :=
  let (neg, cs1) := match cs with
    | '^' :: t => (true, t)
    | t => (false, t)
  (parseClsItems (cs1.length + 1) cs1 []).map (fun (items, rest) => (.cls neg items, rest))

/-- Skip a lazy-quantifier question mark. -/
def lazySkip : List Char → List Char
  | '?' :: r => r
  | r => r

mutual

/-- Alternation. -/
def parseRAlt : Nat → List Char → Option (Regex × List Char)
  | 0, _ => none
  | fuel + 1, cs => do
    let (a, rest) ← parseRSeq fuel cs
    match rest with
    | '|' :: rest2 => (parseRAlt fuel rest2).map (fun (b, r) => (Regex.alt a b, r))
    | _ => some (a, rest)
  termination_by structural fuel => fuel

/-- A possibly empty sequence of quantified atoms. -/
def parseRSeq : Nat → List Char → Option (Regex × List Char)
  | 0, _ => none
  | fuel + 1, cs =>
    match cs with
    | [] => some (.eps, [])
    | c :: _ =>
      if c = '|' ∨ c = ')' then some (.eps, cs)
      else do
        let (a, rest) ← parseRAtomQ fuel cs
        let (b, rest2) ← parseRSeq fuel rest
        pure (.seq a b, rest2)
  termination_by structural fuel => fuel

/-- An atom with an optional quantifier. -/
def parseRAtomQ : Nat → List Char → Option (Regex × List Char)
  | 0, _ => none
  | fuel + 1, cs => do
    let (a, rest) ← parseRAtom fuel cs
    match rest with
    | '*' :: r => pure (.star a, lazySkip r)
    | '+' :: r => pure (.seq a (.star a), lazySkip r)
    | '?' :: r => pure (.alt a .eps, lazySkip r)
    | _ => pure (a, rest)
  termination_by structural fuel => fuel

/-- One atom. -/
def parseRAtom : Nat → List Char → Option (Regex × List Char)
  | 0, _ => none
  | fuel + 1, cs =>
    match cs with
    | '(' :: rest =>
      let rest1 := match rest with
        | '?' :: ':' :: r => r
        | r => r
      (do
        let (a, r) ← parseRAlt fuel rest1
        match r with
        | ')' :: r2 => some (a, r2)
        | _ => none)
    | '[' :: rest => parseCls rest
    | '.' :: rest => some (.anyC, rest)
    | '^' :: rest => some (.bol, rest)
    | '$' :: rest => some (.eol, rest)
    | '\\' :: e :: rest =>
      (match perlItem e with
       | some it => some (.cls false [it], rest)
       | none =>
         if e = 'b' ∨ e = 'B' then some (.eps, rest)
         else some (.chr (escAtomChar e), rest))
    | '\\' :: [] => none
    | c :: rest =>
      if c = '*' ∨ c = '+' ∨ c = '?' ∨ c = ')' ∨ c = '|' then none
      else some (.chr c, rest)
    | [] => none
  termination_by structural fuel => fuel

end

/-- Model of RegExp compilation: `none` is the SyntaxError of an invalid
pattern (flags do not affect validity). -/
def regexCompile (pattern : String) : Option Regex :=
  match parseRAlt (4 * pattern.data.length + 8) pattern.data with
  | some (re, []) => some re
  | _ => none

/-- Case-insensitive character comparison (the engine compiles with the i
flag). -/
def eqCI (a b : Char) : Bool := a.toLower == b.toLower

/-- Is the character a word character? -/
def isWordC (c : Char) : Bool := c.isAlphanum || c == '_'

/-- Does one character satisfy one class item (case-insensitively: the
character matches if it, its lowercase or its uppercase form falls in the
item)? -/
def clsItemHit (it : ClsItem) (c : Char) : Bool :=
  let forms := [c, c.toLower, c.toUpper]
  match it with
  | .single d => forms.any (· == d)
  | .range lo hi => forms.any (fun f => lo ≤ f && f ≤ hi)
  | .pd => c.isDigit
  | .pD => !c.isDigit
  | .pw => isWordC c
  | .pW => !(isWordC c)
  | .ps => jsWs c
  | .pS => !(jsWs c)

/-- Class membership with negation. -/
def clsHit (neg : Bool) (items : List ClsItem) (c : Char) : Bool :=
  let hit := items.any (fun it => clsItemHit it c)
  if neg then !hit else hit

/-- Fuelled backtracking matcher in continuation style.  `s` is the remaining
input, `pos` the absolute position (for the caret anchor). -/
def rmatch : Nat → Regex → List Char → Nat → (List Char → Nat → Bool) → Bool
  | 0, _, _, _, _ => false
  | _ + 1, .eps, s, pos, k => k s pos
  | _ + 1, .chr c, s, pos, k =>
    (match s with
     | d :: rest => eqCI c d && k rest (pos + 1)
     | [] => false)
  | _ + 1, .anyC, s, pos, k =>
    (match s with
     | d :: rest => !(d == '\n' || d == '\r') && k rest (pos + 1)
     | [] => false)
  | _ + 1, .cls neg items, s, pos, k =>
    (match s with
     | d :: rest => clsHit neg items d && k rest (pos + 1)
     | [] => false)
  | fuel + 1, .alt a b, s, pos, k => rmatch fuel a s pos k || rmatch fuel b s pos k
  | fuel + 1, .seq a b, s, pos, k =>
    rmatch fuel a s pos (fun s1 p1 => rmatch fuel b s1 p1 k)
  | fuel + 1, .star a, s, pos, k =>
    k s pos ||
      rmatch fuel a s pos (fun s1 p1 =>
        if pos < p1 then rmatch fuel (.star a) s1 p1 k else false)
  | _ + 1, .bol, s, pos, k => pos == 0 && k s pos
  | _ + 1, .eol, s, pos, k => s.isEmpty && k s pos

/-- Size of a regex, to budget the matcher's fuel. -/
def reSize : Regex → Nat
  | .eps | .chr _ | .anyC | .bol | .eol => 1
  | .cls _ _ => 1
  | .alt a b => 1 + reSize a + reSize b
  | .seq a b => 1 + reSize a + reSize b
  | .star a => 1 + reSize a

/-- Model of `regex.test(value)`: a match may start at any position. -/
def rtest (re : Regex) (input : List Char) : Bool :=
  let fuel := (reSize re + 2) * (input.length + 2) * (input.length + 2) + 64
  (List.range (input.length + 1)).any (fun i =>
    rmatch fuel re (input.drop i) i (fun _ _ => true))

/-!
### Filter rules (types/filterRules.ts)

The string enumerations become proper sum types; `priority` is an `Int` (the
validator's `Number.isInteger` test is therefore vacuous here, and the range
test remains).
-/

inductive FilterAction where
  | delete
  | delete_all
  | keep
  | keep_all
deriving DecidableEq

inductive FilterTarget where
  | headers
  | query_params
  | form_data
  | json_body
deriving DecidableEq

inductive MatchMode where
  | exact
  | contains
  | regex
  | starts_with
  | ends_with
deriving DecidableEq

structure FilterRule where
  id : String
  name : String
  action : FilterAction
  target : FilterTarget
  matchMode : MatchMode
  matchValue : String
  priority : Int
  enabled : Bool
  description : Option String
  createdAt : String
  updatedAt : String
deriving DecidableEq

structure FilterContext where
  headers : List (String × String)
  queryParams : List (String × String)
  formData : List (String × String)
  jsonBody : Json
  url : String
  method : String

structure FilterResult where
  headers : List (String × String)
  queryParams : List (String × String)
  formData : List (String × String)
  jsonBody : Json
  appliedRules : List String
  warnings : List String

/-!
### The field matcher and the engine (filterEngine.ts)
-/

/-- FilterEngine.isMatch: empty patterns never match; exact is case-sensitive;
contains, starts_with and ends_with are case-insensitive; regex compiles with
the i flag and an invalid pattern matches nothing. -/
def isMatch (value pattern : String) (mode : MatchMode) : Bool :=
  if pattern = "" then false
  else
    match mode with
    | .exact => value == pattern
    | .contains => lcContainsSub (lcToLower value.data) (lcToLower pattern.data)
    | .starts_with => lcStartsWith (lcToLower value.data) (lcToLower pattern.data)
    | .ends_with => lcStartsWith (lcToLower value.data).reverse (lcToLower pattern.data).reverse
    | .regex =>
      match regexCompile pattern with
      | some re => rtest re value.data
      | none => false

/-- FilterEngine.findMatchingKeys. -/
def findMatchingKeys (keys : List String) (r : FilterRule) : List String :=
  if r.matchValue = "" ∧ (r.action = .delete ∨ r.action = .keep) then []
  else keys.filter (fun k => isMatch k r.matchValue r.matchMode)

/-- Stable insertion of a rule into a priority-descending list: the rule goes
after every strictly higher priority and after earlier rules of equal
priority. -/
def insRule (r : FilterRule) : List FilterRule → List FilterRule
  | [] => [r]
  | x :: xs => if r.priority < x.priority then x :: insRule r xs else r :: x :: xs

/-- Stable sort by priority descending, the behaviour of the engine's
`sort((a, b) => b.priority - a.priority)` (Array.prototype.sort is stable). -/
def sortByPriorityDesc (l : List FilterRule) : List FilterRule := l.foldr insRule []

/-- The enabled rules in application order (filterEngine.ts lines 45-47). -/
def enabledSorted (rules : List FilterRule) : List FilterRule :=
  sortByPriorityDesc (rules.filter (·.enabled))

/-- Does the rule have a global action? -/
def isGlobalRule (r : FilterRule) : Bool :=
  r.action == .delete_all || r.action == .keep_all

/-- Does the rule have a specific action? -/
def isSpecificRule (r : FilterRule) : Bool :=
  r.action == .delete || r.action == .keep

/-- Value lookup in a string record (a key produced by Object.keys is always
present, so the default is never read). -/
def getS (m : List (String × String)) (k : String) : String :=
  (((m.find? (·.1 == k)).map (·.2)).getD "")

/-- The global phase on one string collection: only the first (highest
priority) global rule acts; delete_all empties the collection, keep_all keeps
it, either records its id. -/
def globalPhase (orig : List (String × String)) (globals : List FilterRule) :
    List (String × String) × List String :=
  match globals with
  | [] => (orig, [])
  | g :: _ => if g.action == .delete_all then ([], [g.id]) else (orig, [g.id])

/-- One specific rule applied to the working collection: keys are matched
against the phase-entry collection `orig`; delete removes the key, keep writes
the original value back; the id is recorded only when something matched. -/
def specificStep (orig : List (String × String)) (acc : List (String × String) × List String)
    (r : FilterRule) : List (String × String) × List String :=
  let mk := findMatchingKeys (orig.map (·.1)) r
  if mk ≠ [] then
    (mk.foldl (fun cur k =>
      if r.action == .delete then cur.filter (fun kv => !(kv.1 == k))
      else setAssoc cur k (getS orig k)) acc.1,
     acc.2 ++ [r.id])
  else acc

/-- The shared body of FilterEngine.applyHeaderRules, applyQueryParamRules and
applyFormDataRules (the three source methods are textually identical up to the
field they touch): snapshot the collection, run the global phase, then the
specific rules in order. -/
def applyCollectionRules (orig : List (String × String)) (rules : List FilterRule) :
    List (String × String) × List String :=
  (rules.filter isSpecificRule).foldl (specificStep orig)
    (globalPhase orig (rules.filter isGlobalRule))

/-- The engine's deep copy `JSON.parse(JSON.stringify(v))`.  The fallback is
unreachable for wellformed values (theorem `json_roundtrip` below). -/
def jsonRoundTrip (j : Json) : Json := (jsonParseFull (jsonStringify j)).getD .null

/-- One specific rule applied to the JSON body. -/
def jsonSpecificStep (orig : Json) (acc : Json × List String) (r : FilterRule) :
    Json × List String :=
  let mk := findMatchingKeys (jsObjectKeys orig) r
  if mk ≠ [] then
    (mk.foldl (fun cur k =>
      if r.action == .delete then jsDeleteMember cur k
      else jsSetMember cur k (jsGetMember orig k)) acc.1,
     acc.2 ++ [r.id])
  else acc

/-- The global phase on the JSON body: delete_all replaces it by an empty
object. -/
def jsonGlobalPhase (j : Json) (globals : List FilterRule) : Json × List String :=
  match globals with
  | [] => (j, ([] : List String))
  | g :: _ => if g.action == .delete_all then (Json.obj [], [g.id]) else (j, [g.id])

/-- FilterEngine.applyJsonBodyRules: nothing happens unless the body is truthy
and of object type; otherwise a deep-copied snapshot provides the keys and the
original values, delete_all replaces the body by an empty object, and the
specific rules run as for the string collections. -/
def applyJsonBodyRules (j : Json) (rules : List FilterRule) : Json × List String :=
  if !(jsTruthy j) || !(jsTypeofObject j) then (j, [])
  else
    (rules.filter isSpecificRule).foldl (jsonSpecificStep (jsonRoundTrip j))
      (jsonGlobalPhase j (rules.filter isGlobalRule))

/-- The rules of one target, in order (the source's groupRulesByTarget pushes
per rule, which is a filter). -/
def groupFor (t : FilterTarget) (rules : List FilterRule) : List FilterRule :=
  rules.filter (·.target == t)

/-- FilterEngine.applyFilters: copy the context (the body through a JSON round
trip when truthy, else null), then process the four targets in the fixed
order of the grouped record — headers, query params, form data, JSON body —
accumulating applied rule ids; warnings are never produced. -/
def applyFilters (rules : List FilterRule) (ctx : FilterContext) : FilterResult :=
  let jsonStart := if jsTruthy ctx.jsonBody then jsonRoundTrip ctx.jsonBody else .null
  let er := enabledSorted rules
  let hr := applyCollectionRules ctx.headers (groupFor .headers er)
  let qr := applyCollectionRules ctx.queryParams (groupFor .query_params er)
  let fr := applyCollectionRules ctx.formData (groupFor .form_data er)
  let jr := applyJsonBodyRules jsonStart (groupFor .json_body er)
  { headers := hr.1, queryParams := qr.1, formData := fr.1, jsonBody := jr.1,
    appliedRules := hr.2 ++ qr.2 ++ fr.2 ++ jr.2, warnings := [] }

/-!
### The rule validator and conflict detector (ruleValidation.ts)

The typed embedding makes the presence/enumeration guards of the source
(`!rule.action`, `isValidFilterAction` and friends) vacuous — a `FilterRule`
always carries valid enumeration members — and `Number.isInteger` is vacuous
on `Int`; every other check is translated literally, in source order.  The
message text of the JS regex SyntaxError is abstracted to a fixed word.
-/

structure RuleValidationResult where
  isValid : Bool
  errors : List String
  warnings : List String
deriving DecidableEq

/-- ruleValidation.ts `validateRule` on a full rule. -/
def validateRule (rule : FilterRule) : RuleValidationResult :=
  let nameErr : List String :=
    if (trimL rule.name.data).isEmpty then ["规则名称不能为空"] else []
  let prioErr : List String :=
    if rule.priority < 0 ∨ 100 < rule.priority then ["优先级必须在 0 到 100 之间"] else []
  let needsMatchValue := rule.action = .delete ∨ rule.action = .keep
  let hasMatchValue := !(trimL rule.matchValue.data).isEmpty
  let mvErr : List String :=
    if needsMatchValue ∧ !hasMatchValue then ["该动作类型需要指定匹配值"] else []
  let mvWarn : List String :=
    if ¬needsMatchValue ∧ hasMatchValue then ["该动作类型不需要匹配值，将被忽略"] else []
  let reErr : List String :=
    if rule.matchMode = .regex ∧ rule.matchValue ≠ "" ∧ (regexCompile rule.matchValue).isNone
    then ["无效的正则表达式: SyntaxError"] else []
  let nameWarn : List String :=
    if rule.name ≠ "" ∧ 50 < rule.name.data.length then ["规则名称过长，建议不超过50个字符"] else []
  let descWarn : List String :=
    match rule.description with
    | some d => if d ≠ "" ∧ 200 < d.data.length then ["规则描述过长，建议不超过200个字符"] else []
    | none => []
  let errors := nameErr ++ prioErr ++ mvErr ++ reErr
  { isValid := errors.isEmpty, errors := errors, warnings := mvWarn ++ nameWarn ++ descWarn }

/-- Duplicate-id scan in source order (JS Set semantics: a duplicate is
recorded once, at its first rediscovery). -/
def dupScan : List FilterRule → List String → List String → List String
  | [], _, dups => dups
  | r :: rest, seen, dups =>
    if r.id ∈ seen then
      if r.id ∈ dups then dupScan rest seen dups
      else dupScan rest seen (dups ++ [r.id])
    else dupScan rest (seen ++ [r.id]) dups

/-- The duplicated ids of a rule set, each once, in discovery order. -/
def dupIdsOf (rules : List FilterRule) : List String := dupScan rules [] []

/-- Display name of a target (ruleValidation.ts getTargetDisplayName). -/
def targetDisplayName : FilterTarget → String
  | .headers => "请求头"
  | .query_params => "查询参数"
  | .form_data => "表单数据"
  | .json_body => "JSON请求体"

/-- The targets of the enabled rules, in first-appearance order (JS Map key
order). -/
def targetsInOrder : List FilterRule → List FilterTarget → List FilterTarget
  | [], acc => acc
  | r :: rest, acc =>
    if acc.contains r.target then targetsInOrder rest acc
    else targetsInOrder rest (acc ++ [r.target])

/-- Conflict warnings for one target's enabled rules. -/
def conflictsForTarget (t : FilterTarget) (enabledRules : List FilterRule) : List String :=
  let sorted := sortByPriorityDesc (enabledRules.filter (·.target == t))
  let deleteAllRules := sorted.filter (·.action == .delete_all)
  let keepAllRules := sorted.filter (·.action == .keep_all)
  let disp := targetDisplayName t
  let w1 : List String :=
    if 1 < deleteAllRules.length then [disp ++ "存在多个\"删除全部\"规则，只有优先级最高的会生效"] else []
  let w2 : List String :=
    if 1 < keepAllRules.length then [disp ++ "存在多个\"保留全部\"规则，只有优先级最高的会生效"] else []
  let w3 : List String :=
    match deleteAllRules, keepAllRules with
    | hd :: _, hk :: _ =>
      if hk.priority < hd.priority then
        [disp ++ "的\"删除全部\"规则优先级高于\"保留全部\"规则，所有项目都会被删除"]
      else if hd.priority < hk.priority then
        [disp ++ "的\"保留全部\"规则优先级高于\"删除全部\"规则，所有项目都会被保留"]
      else [disp ++ "的\"删除全部\"和\"保留全部\"规则优先级相同，可能产生不可预期的结果"]
    | _, _ => []
  let w4 : List String :=
    match sorted.filter isGlobalRule, sorted.filter isSpecificRule with
    | hg :: _, specs@(_ :: _) =>
      let affected := specs.filter (·.priority ≤ hg.priority)
      if affected ≠ [] then
        [disp ++ "的" ++ natToStr affected.length ++ "个具体规则会被全局规则\"" ++ hg.name ++ "\"覆盖"]
      else []
    | _, _ => []
  w1 ++ w2 ++ w3 ++ w4

/-- ruleValidation.ts `detectRuleConflicts`. -/
def detectRuleConflicts (rules : List FilterRule) : List String :=
  let enabledRules := rules.filter (·.enabled)
  (targetsInOrder enabledRules []).foldl (fun acc t => acc ++ conflictsForTarget t enabledRules) []

/-- The combined per-rule report line of `validateRules`. -/
def ruleLine (i : Nat) (r : FilterRule) (parts : List String) : String :=
  "规则 " ++ natToStr (i + 1) ++ " (" ++ (if r.name = "" then "未命名" else r.name) ++ "): " ++
    String.intercalate ", " parts

/-- The duplicate-id error line. -/
def dupMessage (dups : List String) : String :=
  "发现重复的规则ID: " ++ String.intercalate ", " dups

/-- ruleValidation.ts `validateRules`: per-rule reports in index order, then
the duplicate-id error, then the conflict warnings. -/
def validateRules (rules : List FilterRule) : RuleValidationResult :=
  let perRuleErrors := rules.enum.foldl (fun acc (iv : Nat × FilterRule) =>
    let v := validateRule iv.2
    if v.isValid then acc else acc ++ [ruleLine iv.1 iv.2 v.errors]) []
  let perRuleWarnings := rules.enum.foldl (fun acc (iv : Nat × FilterRule) =>
    let v := validateRule iv.2
    if v.warnings.isEmpty then acc else acc ++ [ruleLine iv.1 iv.2 v.warnings]) []
  let dups := dupIdsOf rules
  let errors := perRuleErrors ++ (if dups ≠ [] then [dupMessage dups] else [])
  let warnings := perRuleWarnings ++ detectRuleConflicts rules
  { isValid := errors.isEmpty, errors := errors, warnings := warnings }

/-!
### The pipeline's command builder (CurlFilter.tsx `buildCurlFromContext` and
`handleFilter`)
-/

/-- Form-encoded rendering of a record, as the builder emits it. -/
def formEncode (m : List (String × String)) : String :=
  String.intercalate "&" (m.map (fun kv =>
    (⟨encodeURIComponentL kv.1.data⟩ : String) ++ "=" ++ (⟨encodeURIComponentL kv.2.data⟩ : String)))

/-- The rebuilt query string of the filtered context. -/
def bcfcQueryString (p : ParsedCurl) : String := formEncode p.queryParams

/-- The final URL: the rebuilt query string is appended with a question mark,
or an ampersand when the URL already contains one. -/
def bcfcUrl (p : ParsedCurl) : String :=
  if bcfcQueryString p ≠ "" then
    p.url ++ (if p.url.data.contains '?' then "&" else "?") ++ bcfcQueryString p
  else p.url

/-- The body flag of the rebuilt command: a truthy JSON body with at least one
own key wins and is stringified in single quotes; else a nonempty form record
is re-encoded; else a captured raw body is replayed verbatim. -/
def bcfcBody (p : ParsedCurl) : String :=
  if jsTruthy p.jsonBody && !(jsObjectKeys p.jsonBody).isEmpty then
    " -d '" ++ jsonStringify p.jsonBody ++ "'"
  else if !p.formData.isEmpty then " -d \"" ++ formEncode p.formData ++ "\""
  else
    match p.data with
    | some d => if d ≠ "" then " -d \"" ++ d ++ "\"" else ""
    | none => ""

/-- The method and header flags of the rebuilt command. -/
def bcfcHead (p : ParsedCurl) : String :=
  let cmd := "curl"
  let cmd := if p.method ≠ "GET" then cmd ++ " -X " ++ p.method else cmd
  p.headers.foldl (fun acc kv => acc ++ " -H \"" ++ kv.1 ++ ": " ++ kv.2 ++ "\"") cmd

/-- CurlFilter.tsx `buildCurlFromContext`. -/
def buildCurlFromContext (p : ParsedCurl) : String :=
  bcfcHead p ++ bcfcBody p ++ " \"" ++ bcfcUrl p ++ "\""

/-- CurlFilter.tsx `handleFilter` as a function: parse, refuse an empty URL,
filter, rebuild from the filtered fields with the parser's raw body retained.
`none` covers the caught-error and unparsable paths. -/
def pipelineFilter (rules : List FilterRule) (input : String) : Option String :=
  match parseCurl input with
  | .error _ => none
  | .ok parsed =>
    if parsed.url = "" then none
    else
      let ctx : FilterContext :=
        { headers := parsed.headers, queryParams := parsed.queryParams,
          formData := parsed.formData, jsonBody := parsed.jsonBody,
          url := parsed.url, method := parsed.method }
      let result := applyFilters rules ctx
      let filteredParsed : ParsedCurl :=
        { parsed with
          headers := result.headers
          queryParams := result.queryParams
          formData := result.formData
          jsonBody := result.jsonBody }
      some (buildCurlFromContext filteredParsed)

/-!
### Heap-explicit rendering of the engine (for the no-mutation contract)

The pure `applyFilters` above cannot even express mutation of the caller's
objects, so the defensive-copy discipline of filterEngine.ts is verified on a
second translation that makes the JS object graph explicit: the four
collections live in heap cells addressed by index, every JS mutation is a
read-modify-write on a cell, every object literal/spread is an allocation, and
`result.headers = {}` style rebinding allocates a fresh cell.  Nested JSON
structure stays a pure value inside a single cell, which is adequate because
the engine only ever addresses the top level of the body.
-/

inductive HCell where
  | scell (m : List (String × String))
  | jcell (j : Json)

/-- The object heap: cell index is the object reference. -/
abbrev Heap := List HCell

/-- A primitive JS value (never carried by reference). -/
inductive PrimJs where
  | pnull
  | pbool (b : Bool)
  | pnum (lit : String)
  | pstr (s : String)

/-- A JS value position that may hold a primitive or an object reference. -/
inductive HJVal where
  | hprim (p : PrimJs)
  | href (r : Nat)

/-- The FilterContext with its collections as references into the heap. -/
structure HeapCtx where
  headers : Nat
  queryParams : Nat
  formData : Nat
  jsonBody : HJVal
  url : String
  method : String

/-- The FilterResult produced by the heap engine. -/
structure HeapResult where
  headers : Nat
  queryParams : Nat
  formData : Nat
  jsonBody : HJVal
  appliedRules : List String
  warnings : List String

/-- Read a string-record cell. -/
def readS (h : Heap) (r : Nat) : List (String × String) :=
  match h.getD r (.scell []) with
  | .scell m => m
  | .jcell _ => []

/-- Read a JSON cell. -/
def readJ (h : Heap) (r : Nat) : Json :=
  match h.getD r (.jcell .null) with
  | .jcell j => j
  | .scell _ => .null

/-- Allocate a fresh cell; the reference is the old heap length. -/
def halloc (h : Heap) (c : HCell) : Heap × Nat := (h ++ [c], h.length)

/-- Overwrite a cell in place. -/
def hwrite (h : Heap) (r : Nat) (c : HCell) : Heap := h.set r c

/-- Truthiness of a primitive. -/
def primTruthy : PrimJs → Bool
  | .pnull => false
  | .pbool b => b
  | .pnum lit => !(numLitZero lit.data)
  | .pstr s => !(s.data.isEmpty)

/-- A primitive as a JSON value. -/
def primToJson : PrimJs → Json
  | .pnull => .null
  | .pbool b => .bool b
  | .pnum l => .num l
  | .pstr s => .str s

/-- A non-object JSON value as a primitive (object cases are unreachable at
the call sites). -/
def jsonToPrim : Json → PrimJs
  | .null => .pnull
  | .bool b => .pbool b
  | .num l => .pnum l
  | .str s => .pstr s
  | _ => .pnull

/-- The body initialisation of applyFilters, heap style:
`context.jsonBody ? JSON.parse(JSON.stringify(context.jsonBody)) : null`.
An object reference is always truthy; the copy of an object allocates a fresh
cell. -/
def heapDeepCopyBody (h : Heap) (v : HJVal) : Heap × HJVal :=
  match v with
  | .hprim p =>
    if primTruthy p then (h, .hprim (jsonToPrim (jsonRoundTrip (primToJson p))))
    else (h, .hprim .pnull)
  | .href r =>
    match jsonRoundTrip (readJ h r) with
    | .obj ms =>
      let (h1, r2) := halloc h (.jcell (.obj ms))
      (h1, .href r2)
    | .arr es =>
      let (h1, r2) := halloc h (.jcell (.arr es))
      (h1, .href r2)
    | j => (h, .hprim (jsonToPrim j))

/-- The specific phase on one string-record cell: each mutation of the source
(`delete result.x[key]`, `result.x[key] = originalX[key]`) is a
read-modify-write of the result cell. -/
def heapSpecificFold (h : Heap) (ref : Nat) (orig : List (String × String))
    (rules : List FilterRule) (applied : List String) : Heap × List String :=
  rules.foldl (fun (acc : Heap × List String) r =>
    let mk := findMatchingKeys (orig.map (·.1)) r
    if mk ≠ [] then
      (mk.foldl (fun hh k =>
        if r.action == .delete then
          hwrite hh ref (.scell ((readS hh ref).filter (fun kv => !(kv.1 == k))))
        else hwrite hh ref (.scell (setAssoc (readS hh ref) k (getS orig k)))) acc.1,
       acc.2 ++ [r.id])
    else acc) (h, applied)

/-- One collection's rules, heap style: snapshot the cell, run the global
phase (`result.x = {}` allocates a fresh empty cell and rebinds the result
field), then the specific phase against the snapshot. -/
def applyCollectionRulesHeap (h : Heap) (ref : Nat) (rules : List FilterRule)
    (applied : List String) : Heap × Nat × List String :=
  let orig := readS h ref
  let (h1, ref1, applied1) :=
    match rules.filter isGlobalRule with
    | [] => (h, ref, applied)
    | g :: _ =>
      if g.action == .delete_all then
        let (ha, r2) := halloc h (.scell [])
        (ha, r2, applied ++ [g.id])
      else (h, ref, applied ++ [g.id])
  let res := heapSpecificFold h1 ref1 orig (rules.filter isSpecificRule) applied1
  (res.1, ref1, res.2)

/-- The specific phase on the JSON body cell. -/
def heapJsonSpecificFold (h : Heap) (ref : Nat) (orig : Json)
    (rules : List FilterRule) (applied : List String) : Heap × List String :=
  rules.foldl (fun (acc : Heap × List String) r =>
    let mk := findMatchingKeys (jsObjectKeys orig) r
    if mk ≠ [] then
      (mk.foldl (fun hh k =>
        if r.action == .delete then
          hwrite hh ref (.jcell (jsDeleteMember (readJ hh ref) k))
        else hwrite hh ref (.jcell (jsSetMember (readJ hh ref) k (jsGetMember orig k)))) acc.1,
       acc.2 ++ [r.id])
    else acc) (h, applied)

/-- applyJsonBodyRules, heap style.  A primitive body fails the
truthy-and-typeof-object guard and is left alone; an object body is
snapshotted through the stringify/parse round trip, `delete_all` rebinds the
result to a freshly allocated empty object, and the specific phase mutates the
(fresh) result cell. -/
def applyJsonBodyRulesHeap (h : Heap) (v : HJVal) (rules : List FilterRule)
    (applied : List String) : Heap × HJVal × List String :=
  match v with
  | .hprim _ => (h, v, applied)
  | .href ref =>
    let orig := jsonRoundTrip (readJ h ref)
    let (h1, ref1, applied1) :=
      match rules.filter isGlobalRule with
      | [] => (h, ref, applied)
      | g :: _ =>
        if g.action == .delete_all then
          let (ha, r2) := halloc h (.jcell (.obj []))
          (ha, r2, applied ++ [g.id])
        else (h, ref, applied ++ [g.id])
    let res := heapJsonSpecificFold h1 ref1 orig (rules.filter isSpecificRule) applied1
    (res.1, .href ref1, res.2)

/-- FilterEngine.applyFilters, heap style: the result record is built from
freshly allocated copies of the context's collections, then each target's
rules run on the result's cells. -/
def applyFiltersHeap (rules : List FilterRule) (ctx : HeapCtx) (h : Heap) :
    Heap × HeapResult :=
  let a1 := halloc h (.scell (readS h ctx.headers))
  let a2 := halloc a1.1 (.scell (readS a1.1 ctx.queryParams))
  let a3 := halloc a2.1 (.scell (readS a2.1 ctx.formData))
  let a4 := heapDeepCopyBody a3.1 ctx.jsonBody
  let er := enabledSorted rules
  let s1 := applyCollectionRulesHeap a4.1 a1.2 (groupFor .headers er) []
  let s2 := applyCollectionRulesHeap s1.1 a2.2 (groupFor .query_params er) s1.2.2
  let s3 := applyCollectionRulesHeap s2.1 a3.2 (groupFor .form_data er) s2.2.2
  let s4 := applyJsonBodyRulesHeap s3.1 a4.2 (groupFor .json_body er) s3.2.2
  (s4.1,
   { headers := s1.2.1, queryParams := s2.2.1, formData := s3.2.1, jsonBody := s4.2.1,
     appliedRules := s4.2.2, warnings := [] })

/-- The successive heap states of applyFiltersHeap, named for the frame
theorems: the three collection copies, the body copy, and the four filtering
stages. -/
def afhA1 (ctx : HeapCtx) (h : Heap) : Heap × Nat :=
  halloc h (HCell.scell (readS h ctx.headers))

def afhA2 (ctx : HeapCtx) (h : Heap) : Heap × Nat :=
  halloc (afhA1 ctx h).1 (HCell.scell (readS (afhA1 ctx h).1 ctx.queryParams))

def afhA3 (ctx : HeapCtx) (h : Heap) : Heap × Nat :=
  halloc (afhA2 ctx h).1 (HCell.scell (readS (afhA2 ctx h).1 ctx.formData))

def afhA4 (ctx : HeapCtx) (h : Heap) : Heap × HJVal :=
  heapDeepCopyBody (afhA3 ctx h).1 ctx.jsonBody

def afhS1 (rules : List FilterRule) (ctx : HeapCtx) (h : Heap) : Heap × Nat × List String :=
  applyCollectionRulesHeap (afhA4 ctx h).1 (afhA1 ctx h).2
    (groupFor .headers (enabledSorted rules)) []

def afhS2 (rules : List FilterRule) (ctx : HeapCtx) (h : Heap) : Heap × Nat × List String :=
  applyCollectionRulesHeap (afhS1 rules ctx h).1 (afhA2 ctx h).2
    (groupFor .query_params (enabledSorted rules)) (afhS1 rules ctx h).2.2

def afhS3 (rules : List FilterRule) (ctx : HeapCtx) (h : Heap) : Heap × Nat × List String :=
  applyCollectionRulesHeap (afhS2 rules ctx h).1 (afhA3 ctx h).2
    (groupFor .form_data (enabledSorted rules)) (afhS2 rules ctx h).2.2

def afhS4 (rules : List FilterRule) (ctx : HeapCtx) (h : Heap) :
    Heap × HJVal × List String :=
  applyJsonBodyRulesHeap (afhS3 rules ctx h).1 (afhA4 ctx h).2
    (groupFor .json_body (enabledSorted rules)) (afhS3 rules ctx h).2.2

/-!
### Support definitions for the theorems
-/

/-- The URL selection of the token walk, as a standalone scan (used to state
what `parseCurl` actually does with URL-shaped tokens): tokens consumed by
recognised flags are skipped exactly as in the walk; every raw token starting
with http:// or https:// overwrites the URL (so the last one wins); an
unrecognised non-flag token containing a dot or slash is taken (quote
stripped) only while the URL is still empty. -/
def urlScan : List (List Char) → String → String
  | [], u => u
  | t :: rest, u =>
    if t = "curl".data then urlScan rest u
    else if t = "-X".data ∨ t = "--request".data ∨ t = "-H".data ∨ t = "--header".data ∨
        t = "-d".data ∨ t = "--data".data ∨ t = "--data-raw".data then
      match rest with
      | _ :: rest2 => urlScan rest2 u
      | [] => u
    else if lcStartsWith t "http://".data ∨ lcStartsWith t "https://".data then
      urlScan rest ⟨stripEdgeQuotes t⟩
    else if lcStartsWith t "-".data then
      match rest with
      | nxt :: rest2 =>
        if !(lcStartsWith nxt "-".data) && !(lcStartsWith nxt "http".data) then urlScan rest2 u
        else urlScan (nxt :: rest2) u
      | [] => u
    else if u = "" && (t.contains '.' || t.contains '/') then urlScan rest ⟨stripEdgeQuotes t⟩
    else urlScan rest u

/-- No duplicates among strings. -/
def strNodup : List String → Bool
  | [] => true
  | s :: t => !(t.contains s) && strNodup t

/-- Is the string exactly one JSON number literal?  (The consumed prefix must
be the whole string, with nothing left.) -/
def numLitOK (lit : String) : Bool :=
  match parseNumLit lit.data with
  | some (l, r) => l == lit.data && r.isEmpty
  | none => false

mutual

/-- Wellformed JSON values: no holes, valid number literals, no duplicate
object keys — precisely the values `JSON.parse` can produce. -/
def jsonWF : Json → Bool
  | .null => true
  | .bool _ => true
  | .num lit => numLitOK lit
  | .str _ => true
  | .undef => false
  | .arr es => jsonWFL es
  | .obj ms => strNodup (ms.map (·.1)) && jsonWFM ms

def jsonWFL : List Json → Bool
  | [] => true
  | e :: es => jsonWF e && jsonWFL es

def jsonWFM : List (String × Json) → Bool
  | [] => true
  | (_, v) :: ms => jsonWF v && jsonWFM ms

end

/-- No quote characters. -/
def quoteFree (cs : List Char) : Bool := cs.all (fun c => !(isQuote c))

/-- One position of the collapsed-whitespace check: a whitespace character
must be a plain space not followed by more whitespace. -/
def okPair (c : Char) (cs : List Char) : Bool :=
  if jsWs c then
    c == ' ' &&
      (match cs with
       | d :: _ => !(jsWs d)
       | [] => true)
  else true

/-- Whitespace already collapsed: every whitespace character is a plain space
and no two are adjacent. -/
def spaceNormal : List Char → Bool
  | [] => true
  | c :: cs => okPair c cs && spaceNormal cs

/-- A string that survives the builder and the tokenizer as one bare token:
nonempty, no whitespace, no quotes. -/
def tokenish (cs : List Char) : Bool :=
  !cs.isEmpty && cs.all (fun c => !(jsWs c) && !(isQuote c))

/-- A string fit to travel inside a double-quoted emitted argument: no quotes
of either kind, collapsed whitespace, no leading or trailing whitespace. -/
def quotable (cs : List Char) : Bool :=
  quoteFree cs && spaceNormal cs &&
    (match cs with
     | c :: _ => !(jsWs c)
     | [] => true) &&
    (match cs.getLast? with
     | some c => !(jsWs c)
     | none => true)

/-- The body of a double-quoted emitted argument with its quotes. -/
def quotedChunk (inner : List Char) : List Char := '"' :: inner ++ ['"']

/-- Space-prefixed flattening of emitted chunks (every chunk of the builder
output is preceded by one space). -/
def sepFlat (ws : List (List Char)) : List Char := ws.flatMap (fun w => ' ' :: w)

/-- A chunk the tokenizer consumes as one token: either a bare word without
quotes or whitespace, or a double-quoted span whose inside has no quotes, no
newline and collapsed whitespace. -/
def chunkP (w : List Char) : Prop :=
  (w ≠ [] ∧ ∀ c ∈ w, isQuote c = false ∧ jsWs c = false ∧ c ≠ '\n') ∨
  (∃ inner, w = quotedChunk inner ∧ spaceNormal inner = true ∧
     ∀ c ∈ inner, isQuote c = false ∧ c ≠ '\n')

/-- The quoted header argument `"key: value"` of one emitted -H flag. -/
def hdrChunk (kv : String × String) : List Char :=
  quotedChunk (kv.1.data ++ ": ".data ++ kv.2.data)

/-- The chunks the builder emits after `curl` for a clean parse with no extra
options: the optional -X pair, one -H pair per header, the optional -d pair,
and the quoted URL. -/
def chunkTail (p : ParsedCurl) : List (List Char) :=
  (if p.method = "GET" then [] else ["-X".data, p.method.data]) ++
  (p.headers.flatMap fun kv => ["-H".data, hdrChunk kv]) ++
  (match p.data with
   | some d => if d = "" then [] else ["-d".data, quotedChunk d.data]
   | none => []) ++
  [quotedChunk p.url.data]

/-- A parse whose fields survive the build-tokenize-walk round trip verbatim:
no extra options, a bare-word method (or the un-emitted GET), quote-free
trimmed collapsed headers with nonempty lowercase colon-free keys, a nonempty
quote-free collapsed body (or none), and a quote-free collapsed URL that
contains a dot or slash. -/
def cleanParsed (p : ParsedCurl) : Bool :=
  (p.method == "GET" || tokenish p.method.data) &&
  p.headers.all (fun kv =>
    !kv.1.data.isEmpty && quotable kv.1.data && !(kv.1.data.contains ':') &&
      (lcToLower kv.1.data == kv.1.data) && quotable kv.2.data) &&
  (match p.data with
   | some d => !d.data.isEmpty && quotable d.data
   | none => true) &&
  quotable p.url.data && (p.url.data.contains '.' || p.url.data.contains '/') &&
  p.otherOptions.isEmpty &&
  strNodup (p.headers.map (·.1))

/-- A concrete clean parse record for the C7 witness. -/
def c7p : ParsedCurl :=
  { url := "https://x.com", method := "POST",
    headers := [("content-type", "application/json")],
    queryParams := [], formData := [], jsonBody := .null,
    data := some "a=1", otherOptions := [] }

/-!
## Theorems

First the generic lemmas, then one theorem per claim (with its witness or
counterexample where required).
-/

theorem dupScan_step (r : FilterRule) (rest : List FilterRule) (seen dups : List String) :
    dupScan (r :: rest) seen dups =
      if r.id ∈ seen then
        (if r.id ∈ dups then dupScan rest seen dups else dupScan rest seen (dups ++ [r.id]))
      else dupScan rest (seen ++ [r.id]) dups := rfl

theorem dupScan_mono :
    ∀ (l : List FilterRule) (seen dups : List String) (x : String),
      x ∈ dups → x ∈ dupScan l seen dups := by
  intro l
  induction l with
  | nil => intro seen dups x hx; exact hx
  | cons r rest ih =>
    intro seen dups x hx
    rw [dupScan_step]
    split
    · split
      · exact ih _ _ _ hx
      · exact ih _ _ _ (List.mem_append_left _ hx)
    · exact ih _ _ _ hx

theorem dupScan_complete :
    ∀ (l : List FilterRule) (seen dups : List String) (x : String),
      ((x ∈ seen ∧ ∃ r ∈ l, r.id = x) ∨
        (∃ l₁ a l₂ b l₃, l = l₁ ++ a :: l₂ ++ b :: l₃ ∧ a.id = x ∧ b.id = x)) →
      x ∈ dupScan l seen dups := by
  intro l
  induction l with
  | nil =>
    intro seen dups x h
    rcases h with ⟨_, r, hr, _⟩ | ⟨l₁, a, l₂, b, l₃, h, _, _⟩
    · simp at hr
    · simp at h
  | cons r rest ih =>
    intro seen dups x h
    rw [dupScan_step]
    rcases h with ⟨hx, r', hr', hid⟩ | ⟨l₁, a, l₂, b, l₃, hl, ha, hb⟩
    · rcases List.mem_cons.mp hr' with rfl | hr'
      · rw [if_pos (by rw [hid]; exact hx)]
        by_cases hdup : r'.id ∈ dups
        · rw [if_pos hdup]
          exact dupScan_mono _ _ _ _ (hid ▸ hdup)
        · rw [if_neg hdup]
          exact dupScan_mono _ _ _ _ (by rw [← hid]; simp)
      · split
        · split
          · exact ih _ _ _ (Or.inl ⟨hx, r', hr', hid⟩)
          · exact ih _ _ _ (Or.inl ⟨hx, r', hr', hid⟩)
        · exact ih _ _ _ (Or.inl ⟨List.mem_append_left _ hx, r', hr', hid⟩)
    · cases l₁ with
      | nil =>
        rw [List.nil_append] at hl
        injection hl with h1 h2
        subst h1
        have hbmem : b ∈ rest := by
          rw [h2]; exact List.mem_append_right _ (List.mem_cons_self _ _)
        by_cases hseen : r.id ∈ seen
        · rw [if_pos hseen]
          have hxs : x ∈ seen := by rw [← ha]; exact hseen
          split
          · exact ih _ _ _ (Or.inl ⟨hxs, b, hbmem, hb⟩)
          · exact ih _ _ _ (Or.inl ⟨hxs, b, hbmem, hb⟩)
        · rw [if_neg hseen]
          refine ih _ _ _ (Or.inl ⟨?_, b, hbmem, hb⟩)
          rw [← ha]
          exact List.mem_append_right _ (List.mem_singleton.mpr rfl)
      | cons c l₁ =>
        rw [List.cons_append] at hl
        injection hl with h1 h2
        split
        · split
          · exact ih _ _ _ (Or.inr ⟨l₁, a, l₂, b, l₃, h2, ha, hb⟩)
          · exact ih _ _ _ (Or.inr ⟨l₁, a, l₂, b, l₃, h2, ha, hb⟩)
        · exact ih _ _ _ (Or.inr ⟨l₁, a, l₂, b, l₃, h2, ha, hb⟩)

theorem dupScan_nil_of_nodup :
    ∀ (l : List FilterRule) (seen dups : List String), (l.map (·.id)).Nodup →
      (∀ r ∈ l, r.id ∉ seen) → dupScan l seen dups = dups := by
  intro l
  induction l with
  | nil => intro seen dups _ _; rfl
  | cons r rest ih =>
    intro seen dups hnd hdis
    rw [dupScan_step, if_neg (hdis r (List.mem_cons_self r rest))]
    simp only [List.map_cons, List.nodup_cons] at hnd
    refine ih _ dups hnd.2 ?_
    intro r' hr' hc
    rcases List.mem_append.mp hc with hs | hone
    · exact hdis r' (List.mem_cons_of_mem r hr') hs
    · have : r'.id = r.id := List.mem_singleton.mp hone
      exact hnd.1 (this ▸ List.mem_map_of_mem (·.id) hr')

/-- The first character of a per-rule report line. -/
theorem ruleLine_head (i : Nat) (r : FilterRule) (parts : List String) :
    (ruleLine i r parts).data.head? = some '规' := by
  simp [ruleLine, String.data_append]

/-- The first character of the duplicate-id error line. -/
theorem dupMessage_head (ds : List String) :
    (dupMessage ds).data.head? = some '发' := by
  simp [dupMessage, String.data_append]

theorem perRuleErrors_head (rules : List FilterRule) :
    ∀ acc, (∀ e ∈ acc, e.data.head? = some '规') →
      ∀ e ∈ rules.enum.foldl (fun acc (iv : Nat × FilterRule) =>
        let v := validateRule iv.2
        if v.isValid then acc else acc ++ [ruleLine iv.1 iv.2 v.errors]) acc,
        e.data.head? = some '规' := by
  have main : ∀ (l : List (Nat × FilterRule)) (acc : List String),
      (∀ e ∈ acc, e.data.head? = some '规') →
      ∀ e ∈ l.foldl (fun acc (iv : Nat × FilterRule) =>
        let v := validateRule iv.2
        if v.isValid then acc else acc ++ [ruleLine iv.1 iv.2 v.errors]) acc,
        e.data.head? = some '规' := by
    intro l
    induction l with
    | nil => intro acc hacc e he; exact hacc e he
    | cons iv rest ih =>
      intro acc hacc e he
      simp only [List.foldl_cons] at he
      refine ih _ ?_ e he
      intro e' he'
      by_cases hv : (validateRule iv.2).isValid
      · simp only [hv, if_true] at he'; exact hacc e' he'
      · simp only [hv, if_false] at he'
        rcases List.mem_append.mp he' with h | h
        · exact hacc e' h
        · rw [List.mem_singleton.mp h]; exact ruleLine_head iv.1 iv.2 _
  exact main rules.enum

theorem validateRules_isValid_eq (rules : List FilterRule) :
    (validateRules rules).isValid = (validateRules rules).errors.isEmpty := rfl

/-- C8: a rule set with two rules sharing an id is rejected: `isValid` is
false and the error list carries the duplicate-id message, whose id list names
the duplicated id; a set with pairwise distinct ids never receives a
duplicate-id error (duplicates are reported, not silently dropped). -/
theorem c8_duplicate_ids :
    (∀ (l₁ l₂ l₃ : List FilterRule) (a b : FilterRule),
      a.id = b.id →
      (validateRules (l₁ ++ a :: l₂ ++ b :: l₃)).isValid = false ∧
        dupMessage (dupIdsOf (l₁ ++ a :: l₂ ++ b :: l₃)) ∈
          (validateRules (l₁ ++ a :: l₂ ++ b :: l₃)).errors ∧
        b.id ∈ dupIdsOf (l₁ ++ a :: l₂ ++ b :: l₃)) ∧
    (∀ rules : List FilterRule, (rules.map (·.id)).Nodup →
      ∀ ds : List String, dupMessage ds ∉ (validateRules rules).errors) := by
  constructor
  · intro l₁ l₂ l₃ a b hab
    have hmem : b.id ∈ dupIdsOf (l₁ ++ a :: l₂ ++ b :: l₃) :=
      dupScan_complete _ [] [] b.id (Or.inr ⟨l₁, a, l₂, b, l₃, rfl, hab, rfl⟩)
    have hne : dupIdsOf (l₁ ++ a :: l₂ ++ b :: l₃) ≠ [] := by
      intro h; rw [h] at hmem; exact List.not_mem_nil _ hmem
    have herr : dupMessage (dupIdsOf (l₁ ++ a :: l₂ ++ b :: l₃)) ∈
        (validateRules (l₁ ++ a :: l₂ ++ b :: l₃)).errors := by
      show _ ∈ _ ++ (if dupIdsOf (l₁ ++ a :: l₂ ++ b :: l₃) ≠ [] then
        [dupMessage (dupIdsOf (l₁ ++ a :: l₂ ++ b :: l₃))] else [])
      rw [if_pos hne]
      exact List.mem_append_right _ (List.mem_singleton.mpr rfl)
    refine ⟨?_, herr, hmem⟩
    rw [validateRules_isValid_eq]
    cases hx : (validateRules (l₁ ++ a :: l₂ ++ b :: l₃)).errors with
    | nil => rw [hx] at herr; exact absurd herr (List.not_mem_nil _)
    | cons y ys => rfl
  · intro rules hnd ds hmem
    have hdup : dupIdsOf rules = [] := dupScan_nil_of_nodup rules [] [] hnd (by simp)
    have herr : (validateRules rules).errors = rules.enum.foldl (fun acc (iv : Nat × FilterRule) =>
        let v := validateRule iv.2
        if v.isValid then acc else acc ++ [ruleLine iv.1 iv.2 v.errors]) [] := by
      show (rules.enum.foldl _ [] ++ if dupIdsOf rules ≠ [] then _ else _) = _
      rw [hdup]
      simp
    rw [herr] at hmem
    have hh := perRuleErrors_head rules [] (by simp) _ hmem
    rw [dupMessage_head] at hh
    simp at hh

/-- Witness for C8 at concrete rule sets: two rules sharing the id dup make
the set invalid with the duplicate named; two distinct ids draw no
duplicate-id error. -/
theorem c8_duplicate_ids_witness :
    (let mk := fun (i : String) =>
      ({ id := i, name := "n", action := .delete, target := .headers, matchMode := .exact,
         matchValue := "x", priority := 50, enabled := true, description := none,
         createdAt := "", updatedAt := "" } : FilterRule)
     (validateRules [mk "dup", mk "dup"]).isValid = false ∧
       dupMessage (dupIdsOf [mk "dup", mk "dup"]) ∈ (validateRules [mk "dup", mk "dup"]).errors ∧
       "dup" ∈ dupIdsOf [mk "dup", mk "dup"]) ∧
    (let mk := fun (i : String) =>
      ({ id := i, name := "n", action := .delete, target := .headers, matchMode := .exact,
         matchValue := "x", priority := 50, enabled := true, description := none,
         createdAt := "", updatedAt := "" } : FilterRule)
     ∀ ds : List String, dupMessage ds ∉ (validateRules [mk "a", mk "b"]).errors) := by
  constructor
  · exact c8_duplicate_ids.1 [] [] [] _ _ rfl
  · exact c8_duplicate_ids.2 _ (by decide)

/-- C9: the engine never emits an application-time warning: every
`applyFilters` result has an empty warnings list, whatever the context and
rule set (competing global rules included). -/
theorem c9_no_warnings (rules : List FilterRule) (ctx : FilterContext) :
    (applyFilters rules ctx).warnings = [] := rfl

/-! Stability lemmas for the engine's priority sort. -/

theorem insRule_mem (x : FilterRule) :
    ∀ (l : List FilterRule) (y : FilterRule), y ∈ insRule x l ↔ y = x ∨ y ∈ l := by
  intro l
  induction l with
  | nil => intro y; simp [insRule]
  | cons c t ih =>
    intro y
    simp only [insRule]
    split
    · rw [List.mem_cons, ih, List.mem_cons]
      tauto
    · simp [List.mem_cons]

theorem sortByPriorityDesc_mem (l : List FilterRule) (y : FilterRule) :
    y ∈ sortByPriorityDesc l ↔ y ∈ l := by
  induction l with
  | nil => simp [sortByPriorityDesc]
  | cons c t ih =>
    show y ∈ insRule c (sortByPriorityDesc t) ↔ _
    rw [insRule_mem, ih, List.mem_cons]

theorem insRule_pairwise (x : FilterRule) :
    ∀ (l : List FilterRule),
      l.Pairwise (fun a b => b.priority ≤ a.priority) →
      (insRule x l).Pairwise (fun a b => b.priority ≤ a.priority) := by
  intro l
  induction l with
  | nil => intro _; simp [insRule]
  | cons c t ih =>
    intro h
    rw [List.pairwise_cons] at h
    simp only [insRule]
    split
    · rw [List.pairwise_cons]
      refine ⟨?_, ih h.2⟩
      intro y hy
      rcases (insRule_mem x t y).mp hy with rfl | hy
      · omega
      · exact h.1 y hy
    · rw [List.pairwise_cons]
      refine ⟨?_, List.pairwise_cons.mpr h⟩
      intro y hy
      rcases List.mem_cons.mp hy with rfl | hy
      · omega
      · have := h.1 y hy
        omega

theorem sortByPriorityDesc_pairwise (l : List FilterRule) :
    (sortByPriorityDesc l).Pairwise (fun a b => b.priority ≤ a.priority) := by
  induction l with
  | nil => simp [sortByPriorityDesc]
  | cons c t ih => exact insRule_pairwise c _ ih

theorem insRule_split (x : FilterRule) :
    ∀ (m : List FilterRule), ∃ m₁ m₂, insRule x m = m₁ ++ x :: m₂ ∧ m = m₁ ++ m₂ := by
  intro m
  induction m with
  | nil => exact ⟨[], [], rfl, rfl⟩
  | cons c t ih =>
    simp only [insRule]
    split
    · obtain ⟨m₁, m₂, h1, h2⟩ := ih
      exact ⟨c :: m₁, m₂, by rw [List.cons_append]; exact congrArg _ h1,
        by rw [List.cons_append]; exact congrArg _ h2⟩
    · exact ⟨[], c :: t, rfl, rfl⟩

theorem insRule_mid_split (x : FilterRule) :
    ∀ (n₁ n₂ : List FilterRule) (r : FilterRule),
      (n₁ ++ r :: n₂).Pairwise (fun a b => b.priority ≤ a.priority) →
      ∃ m₁ m₂, insRule x (n₁ ++ r :: n₂) = m₁ ++ r :: m₂ ∧ insRule x (n₁ ++ n₂) = m₁ ++ m₂ := by
  intro n₁
  induction n₁ with
  | nil =>
    intro n₂ r hp
    have hp' : (r :: n₂).Pairwise (fun a b => b.priority ≤ a.priority) := hp
    rw [List.pairwise_cons] at hp'
    by_cases hlt : x.priority < r.priority
    · refine ⟨[], insRule x n₂, ?_, ?_⟩
      · show insRule x (r :: n₂) = r :: insRule x n₂
        simp only [insRule]
        rw [if_pos hlt]
      · rfl
    · refine ⟨[x], n₂, ?_, ?_⟩
      · show insRule x (r :: n₂) = x :: r :: n₂
        simp only [insRule]
        rw [if_neg hlt]
      · cases n₂ with
        | nil => rfl
        | cons d t =>
          have hd : d.priority ≤ r.priority := hp'.1 d (List.mem_cons_self d t)
          show insRule x (d :: t) = x :: d :: t
          simp only [insRule]
          rw [if_neg (by omega)]
  | cons c n₁ ih =>
    intro n₂ r hp
    have hp' : (c :: (n₁ ++ r :: n₂)).Pairwise (fun a b => b.priority ≤ a.priority) := hp
    rw [List.pairwise_cons] at hp'
    obtain ⟨m₁, m₂, h1, h2⟩ := ih n₂ r hp'.2
    by_cases hlt : x.priority < c.priority
    · refine ⟨c :: m₁, m₂, ?_, ?_⟩
      · show insRule x (c :: (n₁ ++ r :: n₂)) = c :: (m₁ ++ r :: m₂)
        simp only [insRule]
        rw [if_pos hlt, h1]
      · show insRule x (c :: (n₁ ++ n₂)) = c :: (m₁ ++ m₂)
        simp only [insRule]
        rw [if_pos hlt, h2]
    · refine ⟨x :: c :: n₁, n₂, ?_, ?_⟩
      · show insRule x (c :: (n₁ ++ r :: n₂)) = x :: c :: (n₁ ++ r :: n₂)
        simp only [insRule]
        rw [if_neg hlt]
      · show insRule x (c :: (n₁ ++ n₂)) = x :: c :: (n₁ ++ n₂)
        simp only [insRule]
        rw [if_neg hlt]

theorem sort_erase_split :
    ∀ (l₁ l₂ : List FilterRule) (r : FilterRule),
      ∃ n₁ n₂, sortByPriorityDesc (l₁ ++ r :: l₂) = n₁ ++ r :: n₂ ∧
        sortByPriorityDesc (l₁ ++ l₂) = n₁ ++ n₂ := by
  intro l₁
  induction l₁ with
  | nil =>
    intro l₂ r
    rw [List.nil_append, List.nil_append]
    show ∃ n₁ n₂, insRule r (sortByPriorityDesc l₂) = _ ∧ _
    obtain ⟨m₁, m₂, h1, h2⟩ := insRule_split r (sortByPriorityDesc l₂)
    exact ⟨m₁, m₂, h1, h2⟩
  | cons c l₁ ih =>
    intro l₂ r
    obtain ⟨n₁, n₂, h1, h2⟩ := ih l₂ r
    have hp : (n₁ ++ r :: n₂).Pairwise (fun a b => b.priority ≤ a.priority) := by
      rw [← h1]; exact sortByPriorityDesc_pairwise _
    obtain ⟨m₁, m₂, g1, g2⟩ := insRule_mid_split c n₁ n₂ r hp
    refine ⟨m₁, m₂, ?_, ?_⟩
    · show insRule c (sortByPriorityDesc (l₁ ++ r :: l₂)) = _
      rw [h1, g1]
    · show insRule c (sortByPriorityDesc (l₁ ++ l₂)) = _
      rw [h2, g2]

/-! Lemmas about rules that can never match. -/

theorem findMatchingKeys_nil (r : FilterRule)
    (hm : ∀ k : String, isMatch k r.matchValue r.matchMode = false) :
    ∀ keys : List String, findMatchingKeys keys r = [] := by
  intro keys
  unfold findMatchingKeys
  split
  · rfl
  · refine List.filter_eq_nil_iff.mpr ?_
    intro k _
    rw [hm k]
    simp

theorem isSpec_not_global (r : FilterRule) (h : isSpecificRule r = true) :
    isGlobalRule r = false := by
  cases hr : r.action <;> simp [isSpecificRule, isGlobalRule, hr] at h ⊢

theorem filter_middle (p : FilterRule → Bool) (m₁ m₂ : List FilterRule) (r : FilterRule)
    (hp : p r = false) : (m₁ ++ r :: m₂).filter p = (m₁ ++ m₂).filter p := by
  simp [List.filter_append, List.filter_cons, hp]

theorem filter_middle_keep (p : FilterRule → Bool) (m₁ m₂ : List FilterRule) (r : FilterRule)
    (hp : p r = true) : (m₁ ++ r :: m₂).filter p = m₁.filter p ++ r :: m₂.filter p := by
  simp [List.filter_append, List.filter_cons, hp]

theorem specificStep_skip (orig : List (String × String)) (r : FilterRule)
    (h : findMatchingKeys (orig.map (·.1)) r = []) (acc : List (String × String) × List String) :
    specificStep orig acc r = acc := by
  unfold specificStep
  rw [h]
  simp

theorem foldl_specific_middle (orig : List (String × String)) (s₁ s₂ : List FilterRule)
    (r : FilterRule) (init : List (String × String) × List String)
    (h : findMatchingKeys (orig.map (·.1)) r = []) :
    (s₁ ++ r :: s₂).foldl (specificStep orig) init = (s₁ ++ s₂).foldl (specificStep orig) init := by
  rw [List.foldl_append, List.foldl_append, List.foldl_cons, specificStep_skip orig r h]

theorem applyCollection_skip (orig : List (String × String)) (m₁ m₂ : List FilterRule)
    (r : FilterRule) (hs : isSpecificRule r = true)
    (hm : ∀ k : String, isMatch k r.matchValue r.matchMode = false) :
    applyCollectionRules orig (m₁ ++ r :: m₂) = applyCollectionRules orig (m₁ ++ m₂) := by
  unfold applyCollectionRules
  rw [filter_middle isGlobalRule m₁ m₂ r (isSpec_not_global r hs),
    filter_middle_keep isSpecificRule m₁ m₂ r hs,
    foldl_specific_middle _ _ _ _ _ (findMatchingKeys_nil r hm _)]
  simp [List.filter_append]

theorem jsonSpecificStep_skip (orig : Json) (r : FilterRule)
    (h : findMatchingKeys (jsObjectKeys orig) r = []) (acc : Json × List String) :
    jsonSpecificStep orig acc r = acc := by
  unfold jsonSpecificStep
  rw [h]
  simp

theorem foldl_json_middle (orig : Json) (s₁ s₂ : List FilterRule) (r : FilterRule)
    (init : Json × List String) (h : findMatchingKeys (jsObjectKeys orig) r = []) :
    (s₁ ++ r :: s₂).foldl (jsonSpecificStep orig) init =
      (s₁ ++ s₂).foldl (jsonSpecificStep orig) init := by
  rw [List.foldl_append, List.foldl_append, List.foldl_cons, jsonSpecificStep_skip orig r h]

theorem applyJson_skip (j : Json) (m₁ m₂ : List FilterRule) (r : FilterRule)
    (hs : isSpecificRule r = true)
    (hm : ∀ k : String, isMatch k r.matchValue r.matchMode = false) :
    applyJsonBodyRules j (m₁ ++ r :: m₂) = applyJsonBodyRules j (m₁ ++ m₂) := by
  unfold applyJsonBodyRules
  split
  · rfl
  · rw [filter_middle isGlobalRule m₁ m₂ r (isSpec_not_global r hs),
      filter_middle_keep isSpecificRule m₁ m₂ r hs,
      foldl_json_middle _ _ _ _ _ (findMatchingKeys_nil r hm _)]
    simp [List.filter_append]

theorem groupFor_erase (t : FilterTarget) (n₁ n₂ : List FilterRule) (r : FilterRule) :
    groupFor t (n₁ ++ r :: n₂) =
      if r.target = t then groupFor t n₁ ++ r :: groupFor t n₂ else groupFor t (n₁ ++ n₂) := by
  unfold groupFor
  by_cases h : r.target = t
  · rw [if_pos h, filter_middle_keep _ _ _ _ (by simp [h])]
  · rw [if_neg h, filter_middle _ _ _ _ (by simp [h])]

theorem applyFilters_erase (l₁ l₂ : List FilterRule) (r : FilterRule) (ctx : FilterContext)
    (hs : isSpecificRule r = true)
    (hm : ∀ k : String, isMatch k r.matchValue r.matchMode = false) :
    applyFilters (l₁ ++ r :: l₂) ctx = applyFilters (l₁ ++ l₂) ctx := by
  by_cases hen : r.enabled
  case neg =>
    have hes : enabledSorted (l₁ ++ r :: l₂) = enabledSorted (l₁ ++ l₂) := by
      unfold enabledSorted
      rw [filter_middle _ _ _ _ (by simp [hen])]
    unfold applyFilters
    rw [hes]
  case pos =>
    have hfe : (l₁ ++ r :: l₂).filter (·.enabled) =
        l₁.filter (·.enabled) ++ r :: l₂.filter (·.enabled) :=
      filter_middle_keep _ _ _ _ (by simp [hen])
    obtain ⟨n₁, n₂, h1, h2⟩ := sort_erase_split (l₁.filter (·.enabled)) (l₂.filter (·.enabled)) r
    have her : enabledSorted (l₁ ++ r :: l₂) = n₁ ++ r :: n₂ := by
      unfold enabledSorted; rw [hfe, h1]
    have her2 : enabledSorted (l₁ ++ l₂) = n₁ ++ n₂ := by
      unfold enabledSorted; rw [List.filter_append, h2]
    have hg : ∀ t, r.target ≠ t →
        groupFor t (enabledSorted (l₁ ++ r :: l₂)) = groupFor t (enabledSorted (l₁ ++ l₂)) := by
      intro t ht
      rw [her, her2, groupFor_erase, if_neg ht]
    have hgr : groupFor r.target (enabledSorted (l₁ ++ r :: l₂)) =
        groupFor r.target n₁ ++ r :: groupFor r.target n₂ := by
      rw [her, groupFor_erase, if_pos rfl]
    have hgr2 : groupFor r.target (enabledSorted (l₁ ++ l₂)) =
        groupFor r.target n₁ ++ groupFor r.target n₂ := by
      rw [her2]
      unfold groupFor
      rw [List.filter_append]
    have hcomp : ∀ t orig, applyCollectionRules orig (groupFor t (enabledSorted (l₁ ++ r :: l₂)))
        = applyCollectionRules orig (groupFor t (enabledSorted (l₁ ++ l₂))) := by
      intro t orig
      by_cases ht : r.target = t
      · subst ht
        rw [hgr, hgr2, applyCollection_skip _ _ _ _ hs hm]
      · rw [hg t ht]
    have hjson : ∀ j, applyJsonBodyRules j (groupFor .json_body (enabledSorted (l₁ ++ r :: l₂)))
        = applyJsonBodyRules j (groupFor .json_body (enabledSorted (l₁ ++ l₂))) := by
      intro j
      by_cases ht : r.target = .json_body
      · have g1 := hgr
        have g2 := hgr2
        rw [ht] at g1 g2
        rw [g1, g2, applyJson_skip _ _ _ _ hs hm]
      · rw [hg _ ht]
    simp only [applyFilters]
    rw [hcomp .headers ctx.headers, hcomp .query_params ctx.queryParams,
      hcomp .form_data ctx.formData, hjson]

/-! The applied-rules list only ever names rules of the set. -/

theorem foldl_specific_applied_sub (orig : List (String × String)) :
    ∀ (l : List FilterRule) (acc : List (String × String) × List String) (x : String),
      x ∈ (l.foldl (specificStep orig) acc).2 → x ∈ acc.2 ∨ ∃ r ∈ l, r.id = x := by
  intro l
  induction l with
  | nil => intro acc x h; exact Or.inl h
  | cons r t ih =>
    intro acc x h
    rw [List.foldl_cons] at h
    rcases ih _ x h with hacc | ⟨r2, hr2, hid⟩
    · simp only [specificStep] at hacc
      split at hacc
      · rcases List.mem_append.mp hacc with ha | hb
        · exact Or.inl ha
        · exact Or.inr ⟨r, List.mem_cons_self r t, (List.mem_singleton.mp hb).symm⟩
      · exact Or.inl hacc
    · exact Or.inr ⟨r2, List.mem_cons_of_mem r hr2, hid⟩

theorem globalPhase_snd_cons (orig : List (String × String)) (g : FilterRule)
    (gs : List FilterRule) : (globalPhase orig (g :: gs)).2 = [g.id] := by
  show (if (g.action == FilterAction.delete_all) = true then (([] : List (String × String)), [g.id])
        else (orig, [g.id])).2 = [g.id]
  split <;> rfl

theorem jsonGlobalPhase_snd_cons (j : Json) (g : FilterRule) (gs : List FilterRule) :
    (jsonGlobalPhase j (g :: gs)).2 = [g.id] := by
  show (if (g.action == FilterAction.delete_all) = true then (Json.obj [], [g.id])
        else (j, [g.id])).2 = [g.id]
  split <;> rfl

theorem applyCollection_applied_sub (orig : List (String × String)) (rules : List FilterRule)
    (x : String) : x ∈ (applyCollectionRules orig rules).2 → ∃ r ∈ rules, r.id = x := by
  unfold applyCollectionRules
  intro h
  rcases foldl_specific_applied_sub orig _ _ x h with hg | ⟨r, hr, hid⟩
  · rcases hfil : rules.filter isGlobalRule with _ | ⟨g, gs⟩
    · rw [hfil] at hg
      simp [globalPhase] at hg
    · rw [hfil] at hg
      have hx : x = g.id := by
        rw [globalPhase_snd_cons] at hg
        exact List.mem_singleton.mp hg
      refine ⟨g, ?_, hx.symm⟩
      have hgm : g ∈ rules.filter isGlobalRule := by rw [hfil]; exact List.mem_cons_self g gs
      exact List.mem_of_mem_filter hgm
  · exact ⟨r, List.mem_of_mem_filter hr, hid⟩

theorem foldl_json_applied_sub (orig : Json) :
    ∀ (l : List FilterRule) (acc : Json × List String) (x : String),
      x ∈ (l.foldl (jsonSpecificStep orig) acc).2 → x ∈ acc.2 ∨ ∃ r ∈ l, r.id = x := by
  intro l
  induction l with
  | nil => intro acc x h; exact Or.inl h
  | cons r t ih =>
    intro acc x h
    rw [List.foldl_cons] at h
    rcases ih _ x h with hacc | ⟨r2, hr2, hid⟩
    · simp only [jsonSpecificStep] at hacc
      split at hacc
      · rcases List.mem_append.mp hacc with ha | hb
        · exact Or.inl ha
        · exact Or.inr ⟨r, List.mem_cons_self r t, (List.mem_singleton.mp hb).symm⟩
      · exact Or.inl hacc
    · exact Or.inr ⟨r2, List.mem_cons_of_mem r hr2, hid⟩

theorem applyJson_applied_sub (j : Json) (rules : List FilterRule) (x : String) :
    x ∈ (applyJsonBodyRules j rules).2 → ∃ r ∈ rules, r.id = x := by
  unfold applyJsonBodyRules
  split
  · intro h
    simp at h
  · intro h
    rcases foldl_json_applied_sub _ _ _ x h with hg | ⟨r, hr, hid⟩
    · rcases hfil : rules.filter isGlobalRule with _ | ⟨g, gs⟩
      · rw [hfil] at hg
        simp [jsonGlobalPhase] at hg
      · rw [hfil] at hg
        have hx : x = g.id := by
          rw [jsonGlobalPhase_snd_cons] at hg
          exact List.mem_singleton.mp hg
        refine ⟨g, ?_, hx.symm⟩
        have hgm : g ∈ rules.filter isGlobalRule := by rw [hfil]; exact List.mem_cons_self g gs
        exact List.mem_of_mem_filter hgm
    · exact ⟨r, List.mem_of_mem_filter hr, hid⟩

theorem applyFilters_applied_sub (rules : List FilterRule) (ctx : FilterContext) (x : String) :
    x ∈ (applyFilters rules ctx).appliedRules → ∃ r ∈ rules, r.id = x := by
  intro h
  have hmem : ∀ t : FilterTarget, (∃ r ∈ groupFor t (enabledSorted rules), r.id = x) →
      ∃ r ∈ rules, r.id = x := by
    rintro t ⟨r, hr, hid⟩
    have h1 : r ∈ enabledSorted rules := List.mem_of_mem_filter hr
    have h2 : r ∈ rules.filter (·.enabled) := (sortByPriorityDesc_mem _ r).mp h1
    exact ⟨r, List.mem_of_mem_filter h2, hid⟩
  have h4 : x ∈ (applyCollectionRules ctx.headers (groupFor .headers (enabledSorted rules))).2 ++
      (applyCollectionRules ctx.queryParams (groupFor .query_params (enabledSorted rules))).2 ++
      (applyCollectionRules ctx.formData (groupFor .form_data (enabledSorted rules))).2 ++
      (applyJsonBodyRules (if jsTruthy ctx.jsonBody then jsonRoundTrip ctx.jsonBody else .null)
        (groupFor .json_body (enabledSorted rules))).2 := h
  rcases List.mem_append.mp h4 with h5 | h5
  · rcases List.mem_append.mp h5 with h6 | h6
    · rcases List.mem_append.mp h6 with h7 | h7
      · exact hmem .headers (applyCollection_applied_sub _ _ _ h7)
      · exact hmem .query_params (applyCollection_applied_sub _ _ _ h7)
    · exact hmem .form_data (applyCollection_applied_sub _ _ _ h6)
  · exact hmem .json_body (applyJson_applied_sub _ _ _ h5)

theorem validateRule_isValid_eq (r : FilterRule) :
    (validateRule r).isValid = (validateRule r).errors.isEmpty := rfl

theorem regexCompile_empty : regexCompile "" = some .eps := rfl

/-- C4: a rule whose regex pattern does not compile never matches any key at
filtering time — it never raises, and when it is a delete/keep rule its
presence changes nothing: the filter result equals the result without it and
(under distinct ids) its id never enters appliedRules — while the validator
reports the same pattern as an authoring-time error, making isValid false. -/
theorem c4_invalid_regex :
    ∀ r : FilterRule, r.matchMode = .regex → regexCompile r.matchValue = none →
      (∀ key : String, isMatch key r.matchValue r.matchMode = false) ∧
      (validateRule r).isValid = false ∧
      ((r.action = .delete ∨ r.action = .keep) →
        ∀ (l₁ l₂ : List FilterRule) (ctx : FilterContext),
          applyFilters (l₁ ++ r :: l₂) ctx = applyFilters (l₁ ++ l₂) ctx ∧
          ((∀ r2 ∈ l₁ ++ l₂, r2.id ≠ r.id) →
            r.id ∉ (applyFilters (l₁ ++ r :: l₂) ctx).appliedRules)) := by
  intro r hmode hcomp
  have hmatch : ∀ key : String, isMatch key r.matchValue r.matchMode = false := by
    intro key
    unfold isMatch
    rw [hmode]
    split
    · rfl
    · rw [hcomp]
  have hmv : r.matchValue ≠ "" := by
    intro h
    rw [h, regexCompile_empty] at hcomp
    exact Option.noConfusion hcomp
  refine ⟨hmatch, ?_, ?_⟩
  · rw [validateRule_isValid_eq]
    simp only [validateRule]
    simp [hmode, hmv, hcomp]
  · intro hact l₁ l₂ ctx
    have hs : isSpecificRule r = true := by
      rcases hact with h | h <;> simp [isSpecificRule, h]
    have heq := applyFilters_erase l₁ l₂ r ctx hs hmatch
    refine ⟨heq, ?_⟩
    intro hdist hmem
    rw [heq] at hmem
    obtain ⟨r2, hr2, hid⟩ := applyFilters_applied_sub _ _ _ hmem
    exact hdist r2 hr2 hid

/-- Witness for C4: the spec's own pattern, a bracket never closed, compiles
to nothing; a delete rule carrying it changes no result, is never recorded,
and fails validation. -/
theorem c4_invalid_regex_witness :
    (let r : FilterRule :=
      { id := "bad-re", name := "bad", action := .delete, target := .headers,
        matchMode := .regex, matchValue := "[invalid regex", priority := 50, enabled := true,
        description := none, createdAt := "", updatedAt := "" }
     let ctx : FilterContext :=
      { headers := [("authorization", "Bearer x")], queryParams := [], formData := [],
        jsonBody := .null, url := "https://api.example.com", method := "GET" }
     isMatch "authorization" r.matchValue r.matchMode = false ∧
       (validateRule r).isValid = false ∧
       applyFilters [r] ctx = applyFilters [] ctx ∧
       r.id ∉ (applyFilters [r] ctx).appliedRules) := by
  intro r ctx
  have h := c4_invalid_regex r rfl (by rfl)
  refine ⟨h.1 "authorization", h.2.1, ?_, ?_⟩
  · exact (h.2.2 (Or.inl rfl) [] [] ctx).1
  · exact (h.2.2 (Or.inl rfl) [] [] ctx).2 (by intro r2 hr2; simp at hr2)

/-- C3: per target the global phase runs before the specific phase regardless
of relative priorities: only the head of the sorted global rules acts —
delete_all empties the collection, keep_all changes nothing, either records
exactly its own id and no other global's — and the sorted enabled globals are
priority-descending, so that head is the highest-priority one; in the spec's
scenario (delete_all on headers at priority 10, keep on authorization at
priority 90) only authorization survives, restored from the pre-global-phase
snapshot, and both ids are recorded with the global's first. -/
theorem c3_global_before_specific :
    (∀ (orig : List (String × String)) (g : FilterRule) (gs : List FilterRule),
        (globalPhase orig (g :: gs)).1
            = (if g.action == FilterAction.delete_all then [] else orig) ∧
        (globalPhase orig (g :: gs)).2 = [g.id]) ∧
    (∀ (rules : List FilterRule) (g : FilterRule) (gs : List FilterRule),
        (enabledSorted rules).filter isGlobalRule = g :: gs →
        ∀ g2 ∈ gs, g2.priority ≤ g.priority) ∧
    (let gRule : FilterRule :=
      { id := "g", name := "clear", action := .delete_all, target := .headers,
        matchMode := .exact, matchValue := "", priority := 10, enabled := true,
        description := none, createdAt := "", updatedAt := "" }
     let kRule : FilterRule :=
      { id := "k", name := "keep auth", action := .keep, target := .headers,
        matchMode := .exact, matchValue := "authorization", priority := 90, enabled := true,
        description := none, createdAt := "", updatedAt := "" }
     let ctx : FilterContext :=
      { headers := [("user-agent", "curl/8"), ("authorization", "Bearer x"),
                    ("accept", "*/*")],
        queryParams := [], formData := [], jsonBody := .null,
        url := "https://api.example.com", method := "GET" }
     (applyFilters [gRule, kRule] ctx).headers = [("authorization", "Bearer x")] ∧
     (applyFilters [gRule, kRule] ctx).appliedRules = ["g", "k"]) := by
  refine ⟨?_, ?_, ?_⟩
  · intro orig g gs
    cases h : g.action == FilterAction.delete_all <;> simp [globalPhase, h]
  · intro rules g gs hfil g2 hg2
    have hp : ((enabledSorted rules).filter isGlobalRule).Pairwise
        (fun a b => b.priority ≤ a.priority) :=
      List.Pairwise.filter _ (sortByPriorityDesc_pairwise (rules.filter (·.enabled)))
    rw [hfil] at hp
    exact (List.pairwise_cons.mp hp).1 g2 hg2
  · intro gRule kRule ctx
    exact ⟨rfl, rfl⟩

/-- Witness for C3: with a delete_all at priority 10 and a keep_all at
priority 5 the sorted global list is exactly those two in that order and the
tail rule has no higher priority than the head. -/
theorem c3_global_before_specific_witness :
    (let g1 : FilterRule :=
      { id := "g", name := "clear", action := .delete_all, target := .headers,
        matchMode := .exact, matchValue := "", priority := 10, enabled := true,
        description := none, createdAt := "", updatedAt := "" }
     let g2 : FilterRule :=
      { id := "g2", name := "keepall", action := .keep_all, target := .headers,
        matchMode := .exact, matchValue := "", priority := 5, enabled := true,
        description := none, createdAt := "", updatedAt := "" }
     (enabledSorted [g1, g2]).filter isGlobalRule = g1 :: [g2] ∧
       g2.priority ≤ g1.priority) := by
  intro g1 g2
  refine ⟨rfl, ?_⟩
  exact c3_global_before_specific.2.1 [g1, g2] g1 [g2] rfl g2 (List.mem_singleton.mpr rfl)

/-! ### JSON round-trip facts for non-object values (claim C2) -/

theorem parseJStrAux_quote (fuel : Nat) (acc rest : List Char) :
    parseJStrAux (fuel + 1) acc ('"' :: rest) = some (acc.reverse, rest) := rfl

theorem parseJStrAux_plain_step (fuel : Nat) (acc rest : List Char) (c : Char)
    (h1 : c ≠ '"') (h2 : c ≠ '\\') (h3 : ¬ c.toNat < 0x20) :
    parseJStrAux (fuel + 1) acc (c :: rest) = parseJStrAux fuel (c :: acc) rest := by
  show (if c = '"' then some (acc.reverse, rest)
        else if c = '\\' then parseJStrEscape fuel acc rest
        else if c.toNat < 0x20 then none
        else parseJStrAux fuel (c :: acc) rest) = parseJStrAux fuel (c :: acc) rest
  rw [if_neg h1, if_neg h2, if_neg h3]

theorem hexVal_hexDigitLower (n : Nat) (h : n < 16) : hexVal? (hexDigitLower n) = some n := by
  interval_cases n <;> rfl

theorem parseJStrAux_u_step (fuel : Nat) (acc rest : List Char) (n : Nat) (hn : n < 0x20) :
    parseJStrAux (fuel + 3) acc
        ('\\' :: 'u' :: '0' :: '0' :: hexDigitLower (n / 16) :: hexDigitLower (n % 16) :: rest)
      = parseJStrAux fuel (Char.ofNat n :: acc) rest := by
  have h16 : n / 16 < 16 := by omega
  have hm : n % 16 < 16 := Nat.mod_lt _ (by norm_num)
  have hh : hex4 '0' '0' (hexDigitLower (n / 16)) (hexDigitLower (n % 16)) = some n := by
    have h0 : hexVal? '0' = some 0 := rfl
    simp only [hex4, h0, hexVal_hexDigitLower _ h16, hexVal_hexDigitLower _ hm,
      Option.bind_eq_bind, Option.some_bind, Option.pure_def]
    congr 1
    omega
  show (match hex4 '0' '0' (hexDigitLower (n / 16)) (hexDigitLower (n % 16)) with
        | none => none
        | some n2 =>
          if n2 < 0xD800 ∨ 0xE000 ≤ n2 then parseJStrAux fuel (Char.ofNat n2 :: acc) rest
          else if n2 < 0xDC00 then parseJStrLowSur fuel acc n2 rest
          else none) = parseJStrAux fuel (Char.ofNat n :: acc) rest
  rw [hh]
  show (if n < 0xD800 ∨ 0xE000 ≤ n then parseJStrAux fuel (Char.ofNat n :: acc) rest
        else if n < 0xDC00 then parseJStrLowSur fuel acc n rest
        else none) = parseJStrAux fuel (Char.ofNat n :: acc) rest
  rw [if_pos (Or.inl (by omega))]

theorem charOfNat_toNat (c : Char) (h : c.toNat < 0x20) : Char.ofNat c.toNat = c := by
  have hv : Nat.isValidChar c.toNat := Or.inl (by omega)
  apply Char.eq_of_val_eq
  show (Char.ofNat c.toNat).val = c.val
  unfold Char.ofNat
  rw [dif_pos hv]
  unfold Char.ofNatAux
  show (⟨BitVec.ofNatLt c.toNat (by omega)⟩ : UInt32) = c.val
  rcases c with ⟨⟨bv⟩, hvalid⟩
  congr 1

theorem parseJStrAux_esc_step (fuel : Nat) (acc rest : List Char) (e c2 : Char)
    (he : jsonEscChar? e = some c2) (hne : e ≠ 'u') :
    parseJStrAux (fuel + 2) acc ('\\' :: e :: rest) = parseJStrAux fuel (c2 :: acc) rest := by
  show (if e = 'u' then parseJStrUnicode fuel acc rest
        else match jsonEscChar? e with
          | some c3 => parseJStrAux fuel (c3 :: acc) rest
          | none => none) = parseJStrAux fuel (c2 :: acc) rest
  rw [if_neg hne, he]

theorem parseJStrAux_escList (s : List Char) : ∀ (fuel : Nat) (acc rest : List Char),
    (escList s).length < fuel →
    parseJStrAux fuel acc (escList s ++ '"' :: rest) = some (acc.reverse ++ s, rest) := by
  induction s with
  | nil =>
    intro fuel acc rest hf
    rcases fuel with _ | f
    · omega
    · show parseJStrAux (f + 1) acc ('"' :: rest) = _
      rw [parseJStrAux_quote]
      simp
  | cons c cs ih =>
    intro fuel acc rest hf
    rw [show escList (c :: cs) ++ '"' :: rest = escChar c ++ (escList cs ++ '"' :: rest) from by
      show (escChar c ++ escList cs) ++ '"' :: rest = _
      rw [List.append_assoc]]
    have hfl : (escChar c).length + (escList cs).length < fuel := by
      have hx : (escList (c :: cs)).length = (escChar c).length + (escList cs).length := by
        show (escChar c ++ escList cs).length = _
        simp
      omega
    by_cases h1 : c = '"'
    · subst h1
      have hcl : (escChar '"').length = 2 := rfl
      obtain ⟨f3, rfl⟩ : ∃ f3, fuel = f3 + 2 := ⟨fuel - 2, by omega⟩
      rw [show escChar '"' ++ (escList cs ++ '"' :: rest)
            = '\\' :: '"' :: (escList cs ++ '"' :: rest) from rfl]
      rw [parseJStrAux_esc_step f3 _ _ '"' '"' rfl (by decide), ih f3 _ rest (by omega)]
      simp
    · by_cases h2 : c = '\\'
      · subst h2
        have hcl : (escChar '\\').length = 2 := rfl
        obtain ⟨f3, rfl⟩ : ∃ f3, fuel = f3 + 2 := ⟨fuel - 2, by omega⟩
        rw [show escChar '\\' ++ (escList cs ++ '"' :: rest)
              = '\\' :: '\\' :: (escList cs ++ '"' :: rest) from rfl]
        rw [parseJStrAux_esc_step f3 _ _ '\\' '\\' rfl (by decide), ih f3 _ rest (by omega)]
        simp
      · by_cases h3 : c = '\x08'
        · subst h3
          have hcl : (escChar '\x08').length = 2 := rfl
          obtain ⟨f3, rfl⟩ : ∃ f3, fuel = f3 + 2 := ⟨fuel - 2, by omega⟩
          rw [show escChar '\x08' ++ (escList cs ++ '"' :: rest)
                = '\\' :: 'b' :: (escList cs ++ '"' :: rest) from rfl]
          rw [parseJStrAux_esc_step f3 _ _ 'b' '\x08' rfl (by decide), ih f3 _ rest (by omega)]
          simp
        · by_cases h4 : c = '\x0c'
          · subst h4
            have hcl : (escChar '\x0c').length = 2 := rfl
            obtain ⟨f3, rfl⟩ : ∃ f3, fuel = f3 + 2 := ⟨fuel - 2, by omega⟩
            rw [show escChar '\x0c' ++ (escList cs ++ '"' :: rest)
                  = '\\' :: 'f' :: (escList cs ++ '"' :: rest) from rfl]
            rw [parseJStrAux_esc_step f3 _ _ 'f' '\x0c' rfl (by decide),
               ih f3 _ rest (by omega)]
            simp
          · by_cases h5 : c = '\n'
            · subst h5
              have hcl : (escChar '\n').length = 2 := rfl
              obtain ⟨f3, rfl⟩ : ∃ f3, fuel = f3 + 2 := ⟨fuel - 2, by omega⟩
              rw [show escChar '\n' ++ (escList cs ++ '"' :: rest)
                    = '\\' :: 'n' :: (escList cs ++ '"' :: rest) from rfl]
              rw [parseJStrAux_esc_step f3 _ _ 'n' '\n' rfl (by decide),
                 ih f3 _ rest (by omega)]
              simp
            · by_cases h6 : c = '\r'
              · subst h6
                have hcl : (escChar '\r').length = 2 := rfl
                obtain ⟨f3, rfl⟩ : ∃ f3, fuel = f3 + 2 := ⟨fuel - 2, by omega⟩
                rw [show escChar '\r' ++ (escList cs ++ '"' :: rest)
                      = '\\' :: 'r' :: (escList cs ++ '"' :: rest) from rfl]
                rw [parseJStrAux_esc_step f3 _ _ 'r' '\r' rfl (by decide),
                   ih f3 _ rest (by omega)]
                simp
              · by_cases h7 : c = '\t'
                · subst h7
                  have hcl : (escChar '\t').length = 2 := rfl
                  obtain ⟨f3, rfl⟩ : ∃ f3, fuel = f3 + 2 := ⟨fuel - 2, by omega⟩
                  rw [show escChar '\t' ++ (escList cs ++ '"' :: rest)
                        = '\\' :: 't' :: (escList cs ++ '"' :: rest) from rfl]
                  rw [parseJStrAux_esc_step f3 _ _ 't' '\t' rfl (by decide),
                     ih f3 _ rest (by omega)]
                  simp
                · by_cases h8 : c.toNat < 0x20
                  · have hesc : escChar c = ['\\', 'u', '0', '0',
                        hexDigitLower (c.toNat / 16), hexDigitLower (c.toNat % 16)] := by
                      simp [escChar, h1, h2, h3, h4, h5, h6, h7, h8]
                    have hcl : (escChar c).length = 6 := by rw [hesc]; rfl
                    obtain ⟨f3, rfl⟩ : ∃ f3, fuel = f3 + 3 := ⟨fuel - 3, by omega⟩
                    rw [hesc]
                    rw [show ['\\', 'u', '0', '0', hexDigitLower (c.toNat / 16),
                          hexDigitLower (c.toNat % 16)] ++ (escList cs ++ '"' :: rest)
                          = '\\' :: 'u' :: '0' :: '0' :: hexDigitLower (c.toNat / 16)
                            :: hexDigitLower (c.toNat % 16) :: (escList cs ++ '"' :: rest)
                        from rfl]
                    rw [parseJStrAux_u_step f3 _ _ c.toNat h8, charOfNat_toNat c h8,
                       ih f3 _ rest (by omega)]
                    simp
                  · have hesc : escChar c = [c] := by
                      simp [escChar, h1, h2, h3, h4, h5, h6, h7, h8]
                    have hcl : (escChar c).length = 1 := by rw [hesc]; rfl
                    obtain ⟨f3, rfl⟩ : ∃ f3, fuel = f3 + 1 := ⟨fuel - 1, by omega⟩
                    rw [hesc]
                    rw [show [c] ++ (escList cs ++ '"' :: rest)
                          = c :: (escList cs ++ '"' :: rest) from rfl]
                    rw [parseJStrAux_plain_step f3 _ _ c h1 h2 h8, ih f3 _ rest (by omega)]
                    simp

theorem parseJVal_quote (fuel : Nat) (rest0 : List Char) :
    parseJVal (fuel + 1) ('"' :: rest0)
      = (parseJStrAux (rest0.length + 1) [] rest0).map
          (fun (content, r) => (Json.str ⟨content⟩, r)) := rfl

theorem jsonParseFull_str (s : String) :
    jsonParseFull (jsonStringify (.str s)) = some (.str s) := by
  have hdata : (jsonStringify (Json.str s)).data = '"' :: (escList s.data ++ ['"']) := rfl
  unfold jsonParseFull
  rw [hdata, parseJVal_quote]
  rw [parseJStrAux_escList s.data _ [] [] (by simp; omega)]
  simp [skipWsJ]

theorem jsonRoundTrip_str (s : String) : jsonRoundTrip (.str s) = .str s := by
  unfold jsonRoundTrip
  rw [jsonParseFull_str]
  rfl

theorem digit_toNat (c : Char) (h : c.isDigit = true) : 48 ≤ c.toNat ∧ c.toNat ≤ 57 := by
  simp [Char.isDigit] at h
  obtain ⟨h1, h2⟩ := h
  rw [UInt32.le_def] at h1 h2
  exact ⟨h1, h2⟩

theorem charOfNatBig (c : Char) (h : c.toNat < 0xD800) : Char.ofNat c.toNat = c := by
  have hv : Nat.isValidChar c.toNat := Or.inl h
  apply Char.eq_of_val_eq
  show (Char.ofNat c.toNat).val = c.val
  unfold Char.ofNat
  rw [dif_pos hv]
  unfold Char.ofNatAux
  show (⟨BitVec.ofNatLt c.toNat (by omega)⟩ : UInt32) = c.val
  rcases c with ⟨⟨bv⟩, hvalid⟩
  congr 1

theorem digit_enum (c : Char) (h : c.isDigit = true) :
    c = '0' ∨ c = '1' ∨ c = '2' ∨ c = '3' ∨ c = '4' ∨ c = '5' ∨ c = '6' ∨ c = '7' ∨
      c = '8' ∨ c = '9' := by
  obtain ⟨h1, h2⟩ := digit_toNat c h
  have hofn : Char.ofNat c.toNat = c := charOfNatBig c (by omega)
  have h10 : c.toNat = 48 ∨ c.toNat = 49 ∨ c.toNat = 50 ∨ c.toNat = 51 ∨ c.toNat = 52 ∨
      c.toNat = 53 ∨ c.toNat = 54 ∨ c.toNat = 55 ∨ c.toNat = 56 ∨ c.toNat = 57 := by omega
  rcases h10 with ht|ht|ht|ht|ht|ht|ht|ht|ht|ht <;> rw [← hofn, ht] <;> decide

theorem parseJVal_num (fuel : Nat) (c : Char) (rest : List Char)
    (hc : c = '-' ∨ c.isDigit = true) :
    parseJVal (fuel + 1) (c :: rest)
      = (parseNumLit (c :: rest)).map (fun (lit, r) => (.num ⟨lit⟩, r)) := by
  rcases hc with hc | hd
  · subst hc
    rfl
  · rcases digit_enum c hd with hc|hc|hc|hc|hc|hc|hc|hc|hc|hc <;> (subst hc; rfl)

theorem parseNumLit_cons_none (c : Char) (rest : List Char) (h1 : c ≠ '-')
    (h2 : c.isDigit = false) : parseNumLit (c :: rest) = none := by
  unfold parseNumLit
  split
  next sgn cs1 heq =>
    split at heq
    · next t heq2 => exact absurd (List.cons.inj heq2).1 h1
    · injection heq with ha hb
      subst ha
      subst hb
      split
      · next t heq2 =>
        have hc0 : c = '0' := (List.cons.inj heq2).1
        rw [hc0] at h2
        exact absurd h2 (by decide)
      · next c3 t3 hne0 heq2 =>
        have h3 : c3.isDigit = false := by rw [← (List.cons.inj heq2).1]; exact h2
        rw [h3]
        simp
      · next heq2 => exact List.noConfusion heq2
theorem parseNumLit_head (cs l r : List Char) (h : parseNumLit cs = some (l, r)) :
    ∃ c rest, cs = c :: rest ∧ (c = '-' ∨ c.isDigit = true) := by
  rcases cs with _ | ⟨c, rest⟩
  · rw [show parseNumLit [] = none from rfl] at h
    exact Option.noConfusion h
  · refine ⟨c, rest, rfl, ?_⟩
    by_cases h1 : c = '-'
    · exact Or.inl h1
    · right
      by_contra h2
      rw [Bool.not_eq_true] at h2
      rw [parseNumLit_cons_none c rest h1 h2] at h
      exact Option.noConfusion h

theorem jsonParseFull_num (lit : String) (h : numLitOK lit = true) :
    jsonParseFull (jsonStringify (.num lit)) = some (.num lit) := by
  unfold numLitOK at h
  split at h
  · next l r heq =>
    simp only [Bool.and_eq_true, beq_iff_eq, List.isEmpty_iff] at h
    obtain ⟨hl, hr⟩ := h
    subst hl
    subst hr
    obtain ⟨c, rest, hcs, hc⟩ := parseNumLit_head _ _ _ heq
    have hdata : (jsonStringify (Json.num lit)).data = lit.data := rfl
    unfold jsonParseFull
    rw [hdata]
    rw [show lit.data.length + 1 = lit.data.length + 1 from rfl]
    rw [hcs, parseJVal_num _ c rest hc, ← hcs, heq]
    simp [skipWsJ]
  · exact Bool.noConfusion h

theorem jsonRoundTrip_num (lit : String) (h : numLitOK lit = true) :
    jsonRoundTrip (.num lit) = .num lit := by
  unfold jsonRoundTrip
  rw [jsonParseFull_num lit h]
  rfl

theorem applyJson_not_object (j : Json) (rules : List FilterRule)
    (h : jsTypeofObject j = false) : applyJsonBodyRules j rules = (j, []) := by
  unfold applyJsonBodyRules
  rw [h]
  simp

theorem applyFilters_jsonBody_eq (rules : List FilterRule) (ctx : FilterContext) :
    (applyFilters rules ctx).jsonBody
      = (applyJsonBodyRules (if jsTruthy ctx.jsonBody then jsonRoundTrip ctx.jsonBody else .null)
          (groupFor .json_body (enabledSorted rules))).1 := rfl

theorem applyFilters_applied_eq (rules : List FilterRule) (ctx : FilterContext) :
    (applyFilters rules ctx).appliedRules
      = (applyCollectionRules ctx.headers (groupFor .headers (enabledSorted rules))).2 ++
        (applyCollectionRules ctx.queryParams (groupFor .query_params (enabledSorted rules))).2 ++
        (applyCollectionRules ctx.formData (groupFor .form_data (enabledSorted rules))).2 ++
        (applyJsonBodyRules (if jsTruthy ctx.jsonBody then jsonRoundTrip ctx.jsonBody else .null)
          (groupFor .json_body (enabledSorted rules))).2 := rfl

/-- C2 counterexample: an array body is NOT skipped by the JSON-body phase —
typeof [] is 'object' in JS, so the guard admits arrays: a delete_all rule on
json_body replaces the array body [1] by the empty object and its id is
recorded, contradicting the claim that array bodies are left untouched with
no json_body rule recorded. -/
theorem c2_array_not_skipped :
    (let r : FilterRule :=
      { id := "g", name := "clear body", action := .delete_all, target := .json_body,
        matchMode := .exact, matchValue := "", priority := 50, enabled := true,
        description := none, createdAt := "", updatedAt := "" }
     let ctx : FilterContext :=
      { headers := [], queryParams := [], formData := [],
        jsonBody := .arr [.num "1"], url := "https://api.example.com", method := "POST" }
     (applyFilters [r] ctx).jsonBody = Json.obj [] ∧
       (applyFilters [r] ctx).appliedRules = ["g"] ∧
       Json.obj [] ≠ Json.arr [Json.num "1"]) := by
  intro r ctx
  exact ⟨rfl, rfl, fun h => Json.noConfusion h⟩

/-- C2 (amended): the JSON-body phase runs when the copied body is truthy and
of JS object type, which includes arrays; truthy non-object bodies — strings
and (wellformed, non-zero) number literals — are left untouched and record no
json_body rule, while a falsy body (null, false, 0, empty string) is replaced
by null by the engine's initial copy, also recording no json_body rule. -/
theorem c2_json_body_guard :
    ∀ (rules : List FilterRule) (ctx : FilterContext),
      (∀ s : String, ctx.jsonBody = .str s → jsTruthy ctx.jsonBody = true →
        (applyFilters rules ctx).jsonBody = .str s ∧
        (applyFilters rules ctx).appliedRules =
          (applyCollectionRules ctx.headers (groupFor .headers (enabledSorted rules))).2 ++
          (applyCollectionRules ctx.queryParams (groupFor .query_params (enabledSorted rules))).2 ++
          (applyCollectionRules ctx.formData (groupFor .form_data (enabledSorted rules))).2) ∧
      (∀ lit : String, ctx.jsonBody = .num lit → jsTruthy ctx.jsonBody = true →
        numLitOK lit = true →
        (applyFilters rules ctx).jsonBody = .num lit ∧
        (applyFilters rules ctx).appliedRules =
          (applyCollectionRules ctx.headers (groupFor .headers (enabledSorted rules))).2 ++
          (applyCollectionRules ctx.queryParams (groupFor .query_params (enabledSorted rules))).2 ++
          (applyCollectionRules ctx.formData (groupFor .form_data (enabledSorted rules))).2) ∧
      (jsTruthy ctx.jsonBody = false →
        (applyFilters rules ctx).jsonBody = .null ∧
        (applyFilters rules ctx).appliedRules =
          (applyCollectionRules ctx.headers (groupFor .headers (enabledSorted rules))).2 ++
          (applyCollectionRules ctx.queryParams (groupFor .query_params (enabledSorted rules))).2 ++
          (applyCollectionRules ctx.formData (groupFor .form_data (enabledSorted rules))).2) := by
  intro rules ctx
  refine ⟨?_, ?_, ?_⟩
  · intro s hb ht
    have hrt : (if jsTruthy ctx.jsonBody then jsonRoundTrip ctx.jsonBody else .null)
        = Json.str s := by
      rw [if_pos ht, hb, jsonRoundTrip_str]
    have hj := applyJson_not_object (Json.str s)
        (groupFor .json_body (enabledSorted rules)) rfl
    constructor
    · rw [applyFilters_jsonBody_eq, hrt, hj]
    · rw [applyFilters_applied_eq, hrt, hj, List.append_nil]
  · intro lit hb ht hok
    have hrt : (if jsTruthy ctx.jsonBody then jsonRoundTrip ctx.jsonBody else .null)
        = Json.num lit := by
      rw [if_pos ht, hb, jsonRoundTrip_num lit hok]
    have hj := applyJson_not_object (Json.num lit)
        (groupFor .json_body (enabledSorted rules)) rfl
    constructor
    · rw [applyFilters_jsonBody_eq, hrt, hj]
    · rw [applyFilters_applied_eq, hrt, hj, List.append_nil]
  · intro hf
    have hrt : (if jsTruthy ctx.jsonBody then jsonRoundTrip ctx.jsonBody else .null)
        = Json.null := by
      rw [if_neg]
      rw [hf]
      exact Bool.false_ne_true
    have hj : applyJsonBodyRules Json.null (groupFor .json_body (enabledSorted rules))
        = (Json.null, []) := by
      unfold applyJsonBodyRules
      rfl
    constructor
    · rw [applyFilters_jsonBody_eq, hrt, hj]
    · rw [applyFilters_applied_eq, hrt, hj, List.append_nil]

/-- Witness for C2's amended theorem: a truthy string body "hello" and a
truthy number body 7 survive an enabled delete_all json_body rule unchanged,
and a falsy body becomes null. -/
theorem c2_json_body_guard_witness :
    (let r : FilterRule :=
      { id := "g", name := "clear body", action := .delete_all, target := .json_body,
        matchMode := .exact, matchValue := "", priority := 50, enabled := true,
        description := none, createdAt := "", updatedAt := "" }
     let ctx1 : FilterContext :=
      { headers := [], queryParams := [], formData := [],
        jsonBody := .str "hello", url := "https://api.example.com", method := "POST" }
     let ctx2 : FilterContext :=
      { headers := [], queryParams := [], formData := [],
        jsonBody := .num "7", url := "https://api.example.com", method := "POST" }
     let ctx3 : FilterContext :=
      { headers := [], queryParams := [], formData := [],
        jsonBody := .null, url := "https://api.example.com", method := "POST" }
     (applyFilters [r] ctx1).jsonBody = Json.str "hello" ∧
       (applyFilters [r] ctx2).jsonBody = Json.num "7" ∧
       (applyFilters [r] ctx3).jsonBody = Json.null) := by
  intro r ctx1 ctx2 ctx3
  refine ⟨?_, ?_, ?_⟩
  · exact ((c2_json_body_guard [r] ctx1).1 "hello" rfl rfl).1
  · exact ((c2_json_body_guard [r] ctx2).2.1 "7" rfl rfl rfl).1
  · exact ((c2_json_body_guard [r] ctx3).2.2 rfl).1

/-! ### Heap-prefix preservation (claim C5) -/

theorem take_hwrite (h : Heap) (r n : Nat) (c : HCell) (hn : n ≤ r) :
    (hwrite h r c).take n = h.take n := by
  unfold hwrite
  apply List.ext_getElem?
  intro i
  by_cases hi : i < n
  · rw [List.getElem?_take_of_lt hi, List.getElem?_take_of_lt hi,
      List.getElem?_set_ne (by omega)]
  · rw [List.getElem?_eq_none (le_trans (List.length_take_le _ _) (by omega)),
      List.getElem?_eq_none (le_trans (List.length_take_le _ _) (by omega))]

theorem take_halloc (h : Heap) (c : HCell) : ((halloc h c).1).take h.length = h :=
  List.take_left h [c]

theorem take_append_cell (h : Heap) (c : HCell) (n : Nat) (hn : n ≤ h.length) :
    (h ++ [c]).take n = h.take n :=
  List.take_append_of_le_length hn

theorem take_hwrite_foldl {α : Type} (ref n : Nat) (hn : n ≤ ref) (step : Heap → α → HCell) :
    ∀ (ks : List α) (hh : Heap),
      (ks.foldl (fun h2 k => hwrite h2 ref (step h2 k)) hh).take n = hh.take n := by
  intro ks
  induction ks with
  | nil => intro hh; rfl
  | cons k ks ih =>
    intro hh
    rw [List.foldl_cons, ih, take_hwrite _ _ _ _ hn]

theorem take_foldl_preserve {α : Type} (n : Nat) (f : Heap × List String → α → Heap × List String)
    (hf : ∀ acc a, ((f acc a).1).take n = acc.1.take n) :
    ∀ (l : List α) (acc : Heap × List String), ((l.foldl f acc).1).take n = acc.1.take n := by
  intro l
  induction l with
  | nil => intro acc; rfl
  | cons a l ih => intro acc; rw [List.foldl_cons, ih, hf]

theorem len_hwrite_foldl {α : Type} (ref : Nat) (step : Heap → α → HCell) :
    ∀ (ks : List α) (hh : Heap),
      (ks.foldl (fun h2 k => hwrite h2 ref (step h2 k)) hh).length = hh.length := by
  intro ks
  induction ks with
  | nil => intro hh; rfl
  | cons k ks ih =>
    intro hh
    rw [List.foldl_cons, ih]
    exact List.length_set _ _ _

theorem len_foldl_preserve {α : Type} (f : Heap × List String → α → Heap × List String)
    (hf : ∀ acc a, ((f acc a).1).length = acc.1.length) :
    ∀ (l : List α) (acc : Heap × List String), ((l.foldl f acc).1).length = acc.1.length := by
  intro l
  induction l with
  | nil => intro acc; rfl
  | cons a l ih => intro acc; rw [List.foldl_cons, ih, hf]

theorem take_heapSpecificFold (h : Heap) (ref : Nat) (orig : List (String × String))
    (rules : List FilterRule) (applied : List String) (n : Nat) (hn : n ≤ ref) :
    ((heapSpecificFold h ref orig rules applied).1).take n = h.take n := by
  unfold heapSpecificFold
  refine take_foldl_preserve n _ ?_ rules (h, applied)
  intro acc r
  rcases hact : (r.action == FilterAction.delete) with _ | _ <;>
    simp only [hact, reduceIte] <;> split <;>
    first
      | rfl
      | exact take_hwrite_foldl ref n hn _ _ _

theorem len_heapSpecificFold (h : Heap) (ref : Nat) (orig : List (String × String))
    (rules : List FilterRule) (applied : List String) :
    ((heapSpecificFold h ref orig rules applied).1).length = h.length := by
  unfold heapSpecificFold
  refine len_foldl_preserve _ ?_ rules (h, applied)
  intro acc r
  rcases hact : (r.action == FilterAction.delete) with _ | _ <;>
    simp only [hact, reduceIte] <;> split <;>
    first
      | rfl
      | exact len_hwrite_foldl ref _ _ _

theorem take_heapJsonSpecificFold (h : Heap) (ref : Nat) (orig : Json)
    (rules : List FilterRule) (applied : List String) (n : Nat) (hn : n ≤ ref) :
    ((heapJsonSpecificFold h ref orig rules applied).1).take n = h.take n := by
  unfold heapJsonSpecificFold
  refine take_foldl_preserve n _ ?_ rules (h, applied)
  intro acc r
  rcases hact : (r.action == FilterAction.delete) with _ | _ <;>
    simp only [hact, reduceIte] <;> split <;>
    first
      | rfl
      | exact take_hwrite_foldl ref n hn _ _ _

theorem take_applyCollectionRulesHeap (h : Heap) (ref : Nat) (rules : List FilterRule)
    (applied : List String) (n : Nat) (hn : n ≤ ref) (hn2 : n ≤ h.length) :
    ((applyCollectionRulesHeap h ref rules applied).1).take n = h.take n := by
  unfold applyCollectionRulesHeap
  split
  next h1 ref1 applied1 heq =>
    split at heq
    · injection heq with e1 erest
      injection erest with e2 e3
      subst e1
      subst e2
      exact take_heapSpecificFold _ _ _ _ _ _ hn
    · next g gs heq2 =>
      split at heq
      · rw [show (match halloc h (HCell.scell []) with
            | (ha, r2) => (ha, r2, applied ++ [g.id]))
            = (h ++ [HCell.scell []], h.length, applied ++ [g.id]) from rfl] at heq
        injection heq with e1 erest
        injection erest with e2 e3
        subst e1
        subst e2
        rw [take_heapSpecificFold _ _ _ _ _ _ hn2, take_append_cell _ _ _ hn2]
      · injection heq with e1 erest
        injection erest with e2 e3
        subst e1
        subst e2
        exact take_heapSpecificFold _ _ _ _ _ _ hn

theorem len_applyCollectionRulesHeap (h : Heap) (ref : Nat) (rules : List FilterRule)
    (applied : List String) :
    h.length ≤ ((applyCollectionRulesHeap h ref rules applied).1).length := by
  unfold applyCollectionRulesHeap
  split
  next h1 ref1 applied1 heq =>
    split at heq
    · injection heq with e1 erest
      injection erest with e2 e3
      subst e1
      subst e2
      rw [len_heapSpecificFold]
    · next g gs heq2 =>
      split at heq
      · rw [show (match halloc h (HCell.scell []) with
            | (ha, r2) => (ha, r2, applied ++ [g.id]))
            = (h ++ [HCell.scell []], h.length, applied ++ [g.id]) from rfl] at heq
        injection heq with e1 erest
        injection erest with e2 e3
        subst e1
        subst e2
        rw [len_heapSpecificFold]
        simp
      · injection heq with e1 erest
        injection erest with e2 e3
        subst e1
        subst e2
        rw [len_heapSpecificFold]

theorem heapDeepCopyBody_href (h : Heap) (v : HJVal) (r : Nat)
    (he : (heapDeepCopyBody h v).2 = .href r) : r = h.length := by
  unfold heapDeepCopyBody at he
  split at he
  · split at he <;> exact HJVal.noConfusion he
  · split at he
    · exact (HJVal.href.inj he).symm
    · exact (HJVal.href.inj he).symm
    · exact HJVal.noConfusion he

theorem take_heapDeepCopyBody (h : Heap) (v : HJVal) (n : Nat) (hn : n ≤ h.length) :
    ((heapDeepCopyBody h v).1).take n = h.take n := by
  unfold heapDeepCopyBody
  split
  · split <;> rfl
  · split
    · exact take_append_cell _ _ _ hn
    · exact take_append_cell _ _ _ hn
    · rfl

theorem len_heapDeepCopyBody (h : Heap) (v : HJVal) :
    h.length ≤ ((heapDeepCopyBody h v).1).length := by
  unfold heapDeepCopyBody
  split
  · split <;> simp
  · split <;> simp [halloc]

theorem take_applyJsonBodyRulesHeap (h : Heap) (v : HJVal) (rules : List FilterRule)
    (applied : List String) (n : Nat) (hv : ∀ r, v = .href r → n ≤ r) (hn2 : n ≤ h.length) :
    ((applyJsonBodyRulesHeap h v rules applied).1).take n = h.take n := by
  unfold applyJsonBodyRulesHeap
  split
  · rfl
  · next ref =>
    split
    next h1 ref1 applied1 heq =>
      split at heq
      · injection heq with e1 erest
        injection erest with e2 e3
        subst e1
        subst e2
        exact take_heapJsonSpecificFold _ _ _ _ _ _ (hv ref rfl)
      · next g gs heq2 =>
        split at heq
        · rw [show (match halloc h (HCell.jcell (Json.obj [])) with
              | (ha, r2) => (ha, r2, applied ++ [g.id]))
              = (h ++ [HCell.jcell (Json.obj [])], h.length, applied ++ [g.id]) from rfl] at heq
          injection heq with e1 erest
          injection erest with e2 e3
          subst e1
          subst e2
          rw [take_heapJsonSpecificFold _ _ _ _ _ _ hn2, take_append_cell _ _ _ hn2]
        · injection heq with e1 erest
          injection erest with e2 e3
          subst e1
          subst e2
          exact take_heapJsonSpecificFold _ _ _ _ _ _ (hv ref rfl)

theorem applyFiltersHeap_fst (rules : List FilterRule) (ctx : HeapCtx) (h : Heap) :
    (applyFiltersHeap rules ctx h).1 = (afhS4 rules ctx h).1 := rfl

theorem readS_of_take (h h2 : Heap) (r : Nat) (hr : r < h.length)
    (hp : h2.take h.length = h) : readS h2 r = readS h r := by
  have hge : h2[r]? = h[r]? := by
    conv_rhs => rw [← hp]
    rw [List.getElem?_take_of_lt hr]
  unfold readS
  rw [List.getD_eq_getElem?_getD, List.getD_eq_getElem?_getD, hge]

theorem readJ_of_take (h h2 : Heap) (r : Nat) (hr : r < h.length)
    (hp : h2.take h.length = h) : readJ h2 r = readJ h r := by
  have hge : h2[r]? = h[r]? := by
    conv_rhs => rw [← hp]
    rw [List.getElem?_take_of_lt hr]
  unfold readJ
  rw [List.getD_eq_getElem?_getD, List.getD_eq_getElem?_getD, hge]

theorem applyFiltersHeap_take (rules : List FilterRule) (ctx : HeapCtx) (h : Heap) :
    ((applyFiltersHeap rules ctx h).1).take h.length = h := by
  rw [applyFiltersHeap_fst]
  have l1 : h.length ≤ (afhA1 ctx h).1.length := by simp [afhA1, halloc]
  have l2 : (afhA1 ctx h).1.length ≤ (afhA2 ctx h).1.length := by simp [afhA2, halloc]
  have l3 : (afhA2 ctx h).1.length ≤ (afhA3 ctx h).1.length := by simp [afhA3, halloc]
  have l4 : (afhA3 ctx h).1.length ≤ (afhA4 ctx h).1.length := len_heapDeepCopyBody _ _
  have l5 : (afhA4 ctx h).1.length ≤ (afhS1 rules ctx h).1.length :=
    len_applyCollectionRulesHeap _ _ _ _
  have l6 : (afhS1 rules ctx h).1.length ≤ (afhS2 rules ctx h).1.length :=
    len_applyCollectionRulesHeap _ _ _ _
  have l7 : (afhS2 rules ctx h).1.length ≤ (afhS3 rules ctx h).1.length :=
    len_applyCollectionRulesHeap _ _ _ _
  have r1 : (afhA1 ctx h).2 = h.length := rfl
  have r2 : (afhA2 ctx h).2 = (afhA1 ctx h).1.length := rfl
  have r3 : (afhA3 ctx h).2 = (afhA2 ctx h).1.length := rfl
  have t8 : ((afhS4 rules ctx h).1).take h.length = ((afhS3 rules ctx h).1).take h.length := by
    refine take_applyJsonBodyRulesHeap _ _ _ _ _ ?_ (by omega)
    intro r hrr
    have := heapDeepCopyBody_href _ _ _ hrr
    omega
  have t7 : ((afhS3 rules ctx h).1).take h.length = ((afhS2 rules ctx h).1).take h.length :=
    take_applyCollectionRulesHeap _ _ _ _ _ (by omega) (by omega)
  have t6 : ((afhS2 rules ctx h).1).take h.length = ((afhS1 rules ctx h).1).take h.length :=
    take_applyCollectionRulesHeap _ _ _ _ _ (by omega) (by omega)
  have t5 : ((afhS1 rules ctx h).1).take h.length = ((afhA4 ctx h).1).take h.length :=
    take_applyCollectionRulesHeap _ _ _ _ _ (by omega) (by omega)
  have t4 : ((afhA4 ctx h).1).take h.length = ((afhA3 ctx h).1).take h.length :=
    take_heapDeepCopyBody _ _ _ (by omega)
  have t3 : ((afhA3 ctx h).1).take h.length = ((afhA2 ctx h).1).take h.length :=
    take_append_cell _ _ _ (by omega)
  have t2 : ((afhA2 ctx h).1).take h.length = ((afhA1 ctx h).1).take h.length :=
    take_append_cell _ _ _ (by omega)
  have t1 : ((afhA1 ctx h).1).take h.length = h := take_halloc h _
  rw [t8, t7, t6, t5, t4, t3, t2, t1]

/-- C5: the engine does not mutate the context it was given.  In the
heap-explicit embedding, where every JS mutation is a cell write and every
spread/deep copy is a fresh allocation, applyFiltersHeap only writes to cells
it allocated itself: the original heap survives as an unchanged prefix, so
every collection cell and JSON cell that existed before the call — the
context's headers, queryParams, formData and jsonBody among them — reads back
exactly as before. -/
theorem c5_context_not_mutated :
    ∀ (rules : List FilterRule) (ctx : HeapCtx) (h : Heap),
      ((applyFiltersHeap rules ctx h).1).take h.length = h ∧
      (∀ r : Nat, r < h.length →
        readS (applyFiltersHeap rules ctx h).1 r = readS h r ∧
        readJ (applyFiltersHeap rules ctx h).1 r = readJ h r) := by
  intro rules ctx h
  have hmain := applyFiltersHeap_take rules ctx h
  refine ⟨hmain, ?_⟩
  intro r hr
  exact ⟨readS_of_take h _ r hr hmain, readJ_of_take h _ r hr hmain⟩

/-- Witness for C5: a one-cell heap holding the headers record, a delete_all
rule on headers; after the run the original cell still reads back unchanged
even though the result's headers cell is empty. -/
theorem c5_context_not_mutated_witness :
    (let r : FilterRule :=
      { id := "g", name := "clear", action := .delete_all, target := .headers,
        matchMode := .exact, matchValue := "", priority := 50, enabled := true,
        description := none, createdAt := "", updatedAt := "" }
     let ctx : HeapCtx :=
      { headers := 0, queryParams := 1, formData := 2, jsonBody := .hprim .pnull,
        url := "https://api.example.com", method := "GET" }
     let h : Heap :=
      [.scell [("authorization", "Bearer x")], .scell [], .scell []]
     readS (applyFiltersHeap [r] ctx h).1 0 = [("authorization", "Bearer x")] ∧
       readS (applyFiltersHeap [r] ctx h).1 ((applyFiltersHeap [r] ctx h).2.headers) = []) := by
  intro r ctx h
  constructor
  · rw [((c5_context_not_mutated [r] ctx h).2 0 (by decide)).1]
    rfl
  · rfl

theorem walkTokens_url (ts : List (List Char)) (st : ParsedCurl) :
    (walkTokens ts st).url = urlScan ts st.url := by
  induction ts, st using walkTokens.induct with
  | case1 st => rfl
  | case2 rest st ih =>
    rcases rest with _ | ⟨m, rest2⟩
    · rfl
    · exact ih
  | case3 t st h1 h2 m rest2 ih => rcases h2 with h | h <;> subst h <;> exact ih
  | case4 t st h1 h2 => rcases h2 with h | h <;> subst h <;> rfl
  | case5 t st h1 h2 h3 m rest2 s i hfind hlt ih =>
    rcases h3 with h | h <;> subst h <;>
      (have hfind2 : List.findIdx? (fun x => decide (x = ':')) (stripEdgeQuotes m)
          = some i := hfind
       simp only [walkTokens, urlScan]
       simp only [hfind2]
       rw [if_pos hlt]
       try exact ih)
  | case6 t st h1 h2 h3 m rest2 s i hfind hlt ih =>
    rcases h3 with h | h <;> subst h <;>
      (have hfind2 : List.findIdx? (fun x => decide (x = ':')) (stripEdgeQuotes m)
          = some i := hfind
       simp only [walkTokens, urlScan]
       simp only [hfind2]
       rw [if_neg hlt]
       try exact ih)
  | case7 t st h1 h2 h3 m rest2 s hfind ih =>
    rcases h3 with h | h <;> subst h <;>
      (have hfind2 : List.findIdx? (fun x => decide (x = ':')) (stripEdgeQuotes m)
          = none := hfind
       simp only [walkTokens, urlScan]
       simp only [hfind2]
       try exact ih)
  | case8 t st h1 h2 h3 => rcases h3 with h | h <;> subst h <;> rfl
  | case9 t st h1 h2 h3 h4 m rest2 ih => rcases h4 with h | h | h <;> subst h <;> exact ih
  | case10 t st h1 h2 h3 h4 => rcases h4 with h | h | h <;> subst h <;> rfl
  | case11 t rest st h1 h2 h3 h4 h5 ih =>
    have h1' : ¬ t = ['c', 'u', 'r', 'l'] := h1
    have h2' : ¬ (t = ['-', 'X'] ∨ t = ['-', '-', 'r', 'e', 'q', 'u', 'e', 's', 't']) := h2
    have h3' : ¬ (t = ['-', 'H'] ∨ t = ['-', '-', 'h', 'e', 'a', 'd', 'e', 'r']) := h3
    have h4' : ¬ (t = ['-', 'd'] ∨ t = ['-', '-', 'd', 'a', 't', 'a'] ∨
        t = ['-', '-', 'd', 'a', 't', 'a', '-', 'r', 'a', 'w']) := h4
    have h7 : ¬ (t = ['-', 'X'] ∨ t = ['-', '-', 'r', 'e', 'q', 'u', 'e', 's', 't'] ∨
        t = ['-', 'H'] ∨ t = ['-', '-', 'h', 'e', 'a', 'd', 'e', 'r'] ∨ t = ['-', 'd'] ∨
        t = ['-', '-', 'd', 'a', 't', 'a'] ∨
        t = ['-', '-', 'd', 'a', 't', 'a', '-', 'r', 'a', 'w']) := by tauto
    rcases rest with _ | ⟨m2, rest2⟩ <;>
      (simp only [walkTokens, urlScan]
       rw [if_neg h1', if_neg h2', if_neg h3', if_neg h4', if_pos h5, if_neg h1', if_neg h7,
         if_pos h5]
       try exact ih)
  | case12 t st h1 h2 h3 h4 h5 h6 st1 m rest2 hnext ih =>
    have h1' : ¬ t = ['c', 'u', 'r', 'l'] := h1
    have h2' : ¬ (t = ['-', 'X'] ∨ t = ['-', '-', 'r', 'e', 'q', 'u', 'e', 's', 't']) := h2
    have h3' : ¬ (t = ['-', 'H'] ∨ t = ['-', '-', 'h', 'e', 'a', 'd', 'e', 'r']) := h3
    have h4' : ¬ (t = ['-', 'd'] ∨ t = ['-', '-', 'd', 'a', 't', 'a'] ∨
        t = ['-', '-', 'd', 'a', 't', 'a', '-', 'r', 'a', 'w']) := h4
    have h7 : ¬ (t = ['-', 'X'] ∨ t = ['-', '-', 'r', 'e', 'q', 'u', 'e', 's', 't'] ∨
        t = ['-', 'H'] ∨ t = ['-', '-', 'h', 'e', 'a', 'd', 'e', 'r'] ∨ t = ['-', 'd'] ∨
        t = ['-', '-', 'd', 'a', 't', 'a'] ∨
        t = ['-', '-', 'd', 'a', 't', 'a', '-', 'r', 'a', 'w']) := by tauto
    simp only [walkTokens, urlScan]
    rw [if_neg h1', if_neg h2', if_neg h3', if_neg h4', if_neg h5, if_pos h6, if_pos hnext,
      if_neg h1', if_neg h7, if_neg h5, if_pos h6, if_pos hnext]
    exact ih
  | case13 t st h1 h2 h3 h4 h5 h6 st1 m rest2 hnext ih =>
    have h1' : ¬ t = ['c', 'u', 'r', 'l'] := h1
    have h2' : ¬ (t = ['-', 'X'] ∨ t = ['-', '-', 'r', 'e', 'q', 'u', 'e', 's', 't']) := h2
    have h3' : ¬ (t = ['-', 'H'] ∨ t = ['-', '-', 'h', 'e', 'a', 'd', 'e', 'r']) := h3
    have h4' : ¬ (t = ['-', 'd'] ∨ t = ['-', '-', 'd', 'a', 't', 'a'] ∨
        t = ['-', '-', 'd', 'a', 't', 'a', '-', 'r', 'a', 'w']) := h4
    have h7 : ¬ (t = ['-', 'X'] ∨ t = ['-', '-', 'r', 'e', 'q', 'u', 'e', 's', 't'] ∨
        t = ['-', 'H'] ∨ t = ['-', '-', 'h', 'e', 'a', 'd', 'e', 'r'] ∨ t = ['-', 'd'] ∨
        t = ['-', '-', 'd', 'a', 't', 'a'] ∨
        t = ['-', '-', 'd', 'a', 't', 'a', '-', 'r', 'a', 'w']) := by tauto
    simp only [walkTokens, urlScan]
    rw [if_neg h1', if_neg h2', if_neg h3', if_neg h4', if_neg h5, if_pos h6, if_neg hnext,
      if_neg h1', if_neg h7, if_neg h5, if_pos h6, if_neg hnext]
    exact ih
  | case14 t st h1 h2 h3 h4 h5 h6 =>
    have h1' : ¬ t = ['c', 'u', 'r', 'l'] := h1
    have h2' : ¬ (t = ['-', 'X'] ∨ t = ['-', '-', 'r', 'e', 'q', 'u', 'e', 's', 't']) := h2
    have h3' : ¬ (t = ['-', 'H'] ∨ t = ['-', '-', 'h', 'e', 'a', 'd', 'e', 'r']) := h3
    have h4' : ¬ (t = ['-', 'd'] ∨ t = ['-', '-', 'd', 'a', 't', 'a'] ∨
        t = ['-', '-', 'd', 'a', 't', 'a', '-', 'r', 'a', 'w']) := h4
    have h7 : ¬ (t = ['-', 'X'] ∨ t = ['-', '-', 'r', 'e', 'q', 'u', 'e', 's', 't'] ∨
        t = ['-', 'H'] ∨ t = ['-', '-', 'h', 'e', 'a', 'd', 'e', 'r'] ∨ t = ['-', 'd'] ∨
        t = ['-', '-', 'd', 'a', 't', 'a'] ∨
        t = ['-', '-', 'd', 'a', 't', 'a', '-', 'r', 'a', 'w']) := by tauto
    simp only [walkTokens, urlScan]
    rw [if_neg h1', if_neg h2', if_neg h3', if_neg h4', if_neg h5, if_pos h6,
      if_neg h1', if_neg h7, if_neg h5, if_pos h6]
  | case15 t rest st h1 h2 h3 h4 h5 h6 hc ih =>
    have h1' : ¬ t = ['c', 'u', 'r', 'l'] := h1
    have h2' : ¬ (t = ['-', 'X'] ∨ t = ['-', '-', 'r', 'e', 'q', 'u', 'e', 's', 't']) := h2
    have h3' : ¬ (t = ['-', 'H'] ∨ t = ['-', '-', 'h', 'e', 'a', 'd', 'e', 'r']) := h3
    have h4' : ¬ (t = ['-', 'd'] ∨ t = ['-', '-', 'd', 'a', 't', 'a'] ∨
        t = ['-', '-', 'd', 'a', 't', 'a', '-', 'r', 'a', 'w']) := h4
    have h7 : ¬ (t = ['-', 'X'] ∨ t = ['-', '-', 'r', 'e', 'q', 'u', 'e', 's', 't'] ∨
        t = ['-', 'H'] ∨ t = ['-', '-', 'h', 'e', 'a', 'd', 'e', 'r'] ∨ t = ['-', 'd'] ∨
        t = ['-', '-', 'd', 'a', 't', 'a'] ∨
        t = ['-', '-', 'd', 'a', 't', 'a', '-', 'r', 'a', 'w']) := by tauto
    rcases rest with _ | ⟨m2, rest2⟩ <;>
      (simp only [walkTokens, urlScan]
       rw [if_neg h1', if_neg h2', if_neg h3', if_neg h4', if_neg h5, if_neg h6, if_pos hc,
         if_neg h1', if_neg h7, if_neg h5, if_neg h6, if_pos hc]
       try exact ih)
  | case16 t rest st h1 h2 h3 h4 h5 h6 hc ih =>
    have h1' : ¬ t = ['c', 'u', 'r', 'l'] := h1
    have h2' : ¬ (t = ['-', 'X'] ∨ t = ['-', '-', 'r', 'e', 'q', 'u', 'e', 's', 't']) := h2
    have h3' : ¬ (t = ['-', 'H'] ∨ t = ['-', '-', 'h', 'e', 'a', 'd', 'e', 'r']) := h3
    have h4' : ¬ (t = ['-', 'd'] ∨ t = ['-', '-', 'd', 'a', 't', 'a'] ∨
        t = ['-', '-', 'd', 'a', 't', 'a', '-', 'r', 'a', 'w']) := h4
    have h7 : ¬ (t = ['-', 'X'] ∨ t = ['-', '-', 'r', 'e', 'q', 'u', 'e', 's', 't'] ∨
        t = ['-', 'H'] ∨ t = ['-', '-', 'h', 'e', 'a', 'd', 'e', 'r'] ∨ t = ['-', 'd'] ∨
        t = ['-', '-', 'd', 'a', 't', 'a'] ∨
        t = ['-', '-', 'd', 'a', 't', 'a', '-', 'r', 'a', 'w']) := by tauto
    rcases rest with _ | ⟨m2, rest2⟩ <;>
      (simp only [walkTokens, urlScan]
       rw [if_neg h1', if_neg h2', if_neg h3', if_neg h4', if_neg h5, if_neg h6, if_neg hc,
         if_neg h1', if_neg h7, if_neg h5, if_neg h6, if_neg hc]
       try exact ih)

theorem parseCurl_url (s : String) (p : ParsedCurl) (h : parseCurl s = .ok p) :
    p.url = (walkOf s).url := by
  unfold parseCurl at h
  dsimp only [] at h
  iterate 12 (all_goals try split at h)
  all_goals first
    | exact Except.noConfusion h
    | (injection h with h2; subst h2; rfl)

/-- C6 counterexample: with two URL-shaped tokens the walk keeps the LAST,
not the first: `curl https://a.com https://b.com` parses with url
https://b.com, because each http(s) token overwrites the url field. -/
theorem c6_last_url_wins :
    (parseCurl "curl https://a.com https://b.com").map (fun p => p.url)
        = .ok "https://b.com" ∧
      "https://b.com" ≠ "https://a.com" := by
  exact ⟨rfl, by decide⟩

/-- C6 (amended): during token walking every token that begins with http:// or
https:// overwrites the URL — so the last such token wins, not the first —
while the fallback (an otherwise-unrecognized token containing a dot or slash,
quotes stripped) is taken only while the URL is still empty; `urlScan` states
this selection as a standalone scan, the walk realises it on every token list
and every start state, and parseCurl's later stages never change the url
field. -/
theorem c6_url_selection :
    (∀ (ts : List (List Char)) (st : ParsedCurl), (walkTokens ts st).url = urlScan ts st.url) ∧
    (∀ (s : String) (p : ParsedCurl), parseCurl s = .ok p →
        p.url = urlScan (tokenize s.data) "") := by
  refine ⟨walkTokens_url, ?_⟩
  intro s p h
  rw [parseCurl_url s p h]
  exact walkTokens_url (tokenize s.data) initParsed

/-- Witness for C6's amended theorem at the two-URL command. -/
theorem c6_url_selection_witness :
    (parseCurl "curl https://a.com https://b.com").map (fun p => p.url)
      = .ok (urlScan (tokenize ("curl https://a.com https://b.com").data) "") := by
  obtain ⟨p, hp⟩ : ∃ p, parseCurl "curl https://a.com https://b.com" = .ok p := ⟨_, rfl⟩
  rw [hp]
  show Except.ok p.url = _
  rw [c6_url_selection.2 "curl https://a.com https://b.com" p hp]

theorem parseCurl_error_msg (s : String) (msg : String) (h : parseCurl s = .error msg) :
    msg = "URIError: URI malformed" := by
  unfold parseCurl at h
  dsimp only [] at h
  iterate 12 (all_goals try split at h)
  all_goals first
    | exact Except.noConfusion h
    | (injection h with h2; exact h2.symm)

/-- C1 counterexample: `curl -d a=%` makes parseCurl throw.  The walk captures
the body a=%, the content-type autodetection falls through to form-data, and
parseFormData's unguarded decodeURIComponent raises a URIError on the
malformed percent sequence instead of degrading to a partial result. -/
theorem c1_parse_throws :
    parseCurl "curl -d a=%" = .error "URIError: URI malformed" ∧
      (walkOf "curl -d a=%").data = some "a=%" ∧
      parseFormDataE "a=%".data = none :=
  ⟨rfl, rfl, rfl⟩

/-- C1 (amended): parseCurl is soft except for one hole: for every input it
either returns a parse result, or it throws exactly the URIError that
parseFormData's unguarded decodeURIComponent raises on a malformed
percent-encoded body — no other exception can escape. -/
theorem c1_parse_soft :
    ∀ s : String,
      (∃ p, parseCurl s = .ok p) ∨ parseCurl s = .error "URIError: URI malformed" := by
  intro s
  cases e : parseCurl s with
  | ok p => exact Or.inl ⟨p, rfl⟩
  | error msg =>
    right
    rw [parseCurl_error_msg s msg e]

theorem bcfcBody_json (p : ParsedCurl)
    (h : (jsTruthy p.jsonBody && !(jsObjectKeys p.jsonBody).isEmpty) = true) :
    bcfcBody p = " -d '" ++ jsonStringify p.jsonBody ++ "'" := by
  unfold bcfcBody
  rw [if_pos h]

theorem bcfcBody_form (p : ParsedCurl)
    (h : (jsTruthy p.jsonBody && !(jsObjectKeys p.jsonBody).isEmpty) = false)
    (hf : p.formData ≠ []) :
    bcfcBody p = " -d \"" ++ formEncode p.formData ++ "\"" := by
  unfold bcfcBody
  rw [if_neg (by rw [h]; exact Bool.false_ne_true),
    if_pos (by simp [List.isEmpty_iff, hf])]

theorem bcfcBody_data (p : ParsedCurl) (d : String)
    (h : (jsTruthy p.jsonBody && !(jsObjectKeys p.jsonBody).isEmpty) = false)
    (hf : p.formData = []) (hd : p.data = some d) (hdne : d ≠ "") :
    bcfcBody p = " -d \"" ++ d ++ "\"" := by
  unfold bcfcBody
  rw [if_neg (by rw [h]; exact Bool.false_ne_true),
    if_neg (by rw [hf]; simp), hd]
  show (if d ≠ "" then " -d \"" ++ d ++ "\"" else "") = " -d \"" ++ d ++ "\""
  rw [if_pos hdne]

/-- C10: the rebuilt command's body flag is chosen in the order: a truthy JSON
body with at least one own key (stringified in single quotes), else a
non-empty form record, else the parser's preserved raw body string; in
particular when filtering leaves jsonBody an empty object and formData empty,
the original unfiltered raw body is emitted behind -d, as the end-to-end
pipeline run with a delete_all json_body rule shows. -/
theorem c10_body_emission :
    (∀ p : ParsedCurl,
        (jsTruthy p.jsonBody && !(jsObjectKeys p.jsonBody).isEmpty) = true →
        bcfcBody p = " -d '" ++ jsonStringify p.jsonBody ++ "'") ∧
    (∀ p : ParsedCurl,
        (jsTruthy p.jsonBody && !(jsObjectKeys p.jsonBody).isEmpty) = false →
        p.formData ≠ [] →
        bcfcBody p = " -d \"" ++ formEncode p.formData ++ "\"") ∧
    (∀ (p : ParsedCurl) (d : String),
        (jsTruthy p.jsonBody && !(jsObjectKeys p.jsonBody).isEmpty) = false →
        p.formData = [] → p.data = some d → d ≠ "" →
        bcfcBody p = " -d \"" ++ d ++ "\"") ∧
    (∀ (p : ParsedCurl) (d : String),
        p.jsonBody = Json.obj [] → p.formData = [] → p.data = some d → d ≠ "" →
        buildCurlFromContext p
          = bcfcHead p ++ " -d \"" ++ d ++ "\"" ++ " \"" ++ bcfcUrl p ++ "\"") ∧
    (let g : FilterRule :=
      { id := "g", name := "clear body", action := .delete_all, target := .json_body,
        matchMode := .exact, matchValue := "", priority := 50, enabled := true,
        description := none, createdAt := "", updatedAt := "" }
     pipelineFilter [g]
        "curl -H \"content-type: application/json\" -d '\x7b\"a\":1\x7d' https://x.com"
       = some "curl -H \"content-type: application/json\" -d \"\x7b\"a\":1\x7d\" \"https://x.com\"") := by
  refine ⟨bcfcBody_json, bcfcBody_form, bcfcBody_data, ?_, ?_⟩
  · intro p d hjb hf hd hdne
    have hcond : (jsTruthy p.jsonBody && !(jsObjectKeys p.jsonBody).isEmpty) = false := by
      rw [hjb]
      rfl
    unfold buildCurlFromContext
    rw [bcfcBody_data p d hcond hf hd hdne]
    simp [String.append_assoc]
  · intro g
    rfl

/-- Witness for C10: a one-key JSON body wins the body slot; an emptied JSON
body with no form data falls back to the preserved raw body. -/
theorem c10_body_emission_witness :
    (let p : ParsedCurl :=
      { url := "https://x.com", method := "GET", headers := [], queryParams := [],
        formData := [], jsonBody := .obj [("a", .num "1")], data := some "raw",
        otherOptions := [] }
     let q : ParsedCurl :=
      { url := "https://x.com", method := "GET", headers := [], queryParams := [],
        formData := [], jsonBody := .obj [], data := some "raw", otherOptions := [] }
     bcfcBody p = " -d '\x7b\"a\":1\x7d'" ∧ bcfcBody q = " -d \"raw\"") := by
  intro p q
  constructor
  · rw [c10_body_emission.1 p rfl]
    rfl
  · rw [c10_body_emission.2.2.1 q "raw" rfl rfl rfl (by decide)]
    rfl

/-! ### Round-trip support: preprocess is the identity on clean text (claim C7) -/

theorem trimL_id (cs : List Char)
    (h1 : ∀ c, cs.head? = some c → jsWs c = false)
    (h2 : ∀ c, cs.getLast? = some c → jsWs c = false) : trimL cs = cs := by
  unfold trimL
  have e1 : cs.dropWhile (jsWs ·) = cs := by
    cases cs with
    | nil => rfl
    | cons c t =>
      rw [List.dropWhile_cons_of_neg]
      simp [h1 c rfl]
  rw [e1]
  have e2 : cs.reverse.dropWhile (jsWs ·) = cs.reverse := by
    cases hr : cs.reverse with
    | nil => rfl
    | cons c t =>
      rw [List.dropWhile_cons_of_neg]
      have hlast : cs.getLast? = some c := by
        rw [← List.head?_reverse, hr]
        rfl
      simp [h2 c hlast]
  rw [e2, List.reverse_reverse]

theorem wsRunSplit_eq (cs : List Char) :
    cs = (wsRunSplit cs).1 ++ (wsRunSplit cs).2 := by
  induction cs with
  | nil => rfl
  | cons c t ih =>
    by_cases h : jsWs c = true
    · have e : wsRunSplit (c :: t) = (c :: (wsRunSplit t).1, (wsRunSplit t).2) := by
        show (if jsWs c = true then
            match wsRunSplit t with
            | (run, rest) => (c :: run, rest)
          else ([], c :: t)) = _
        rw [if_pos h]
      rw [e]
      show c :: t = c :: ((wsRunSplit t).1 ++ (wsRunSplit t).2)
      exact congrArg _ ih
    · have e : wsRunSplit (c :: t) = ([], c :: t) := by
        show (if jsWs c = true then
            match wsRunSplit t with
            | (run, rest) => (c :: run, rest)
          else ([], c :: t)) = _
        rw [if_neg h]
      rw [e]
      rfl

theorem lastNlSplit_none (run : List Char) (h : ∀ c ∈ run, c ≠ '\n') :
    lastNlSplit run = none := by
  induction run with
  | nil => rfl
  | cons c t ih =>
    unfold lastNlSplit
    rw [ih (fun c hc => h c (List.mem_cons_of_mem _ hc))]
    rw [if_neg (h c (List.mem_cons_self _ _))]

theorem replaceBNLAux_id (fuel : Nat) (cs : List Char) (h : ∀ c ∈ cs, c ≠ '\n') :
    replaceBNLAux fuel cs = cs := by
  induction fuel generalizing cs with
  | zero => rfl
  | succ f ih =>
    cases cs with
    | nil => rfl
    | cons c t =>
      unfold replaceBNLAux
      by_cases hc : c = '\\'
      · subst hc
        rw [if_pos rfl]
        rcases hsplit : wsRunSplit t with ⟨run, rest⟩
        have ht : t = run ++ rest := by
          have h0 := wsRunSplit_eq t
          rw [hsplit] at h0
          exact h0
        have hrun : ∀ d ∈ run, d ≠ '\n' := by
          intro d hd
          apply h d
          apply List.mem_cons_of_mem
          rw [ht]
          exact List.mem_append_left _ hd
        dsimp only []
        rw [lastNlSplit_none run hrun]
        dsimp only []
        rw [ih t (fun d hd => h d (List.mem_cons_of_mem _ hd))]
      · rw [if_neg hc, ih t (fun d hd => h d (List.mem_cons_of_mem _ hd))]

theorem replaceBNL_id (cs : List Char) (h : ∀ c ∈ cs, c ≠ '\n') :
    replaceBNL cs = cs := replaceBNLAux_id _ cs h

theorem spaceNormal_tail (c : Char) (t : List Char) (h : spaceNormal (c :: t) = true) :
    spaceNormal t = true := by
  rw [spaceNormal] at h
  simp only [Bool.and_eq_true] at h
  exact h.2

theorem collapse_id_aux : ∀ (n : Nat) (cs : List Char), cs.length ≤ n →
    spaceNormal cs = true →
    collapseWs cs = cs ∧
      ((∀ c, cs.head? = some c → jsWs c = false) → collapseAfterWs cs = cs) := by
  intro n
  induction n with
  | zero =>
    intro cs hlen hs
    have hnil : cs = [] := List.length_eq_zero.mp (Nat.le_zero.mp hlen)
    subst hnil
    exact ⟨rfl, fun _ => rfl⟩
  | succ n ih =>
    intro cs hlen hs
    cases cs with
    | nil => exact ⟨rfl, fun _ => rfl⟩
    | cons c t =>
      have hlent : t.length ≤ n := by simp at hlen; omega
      have htail : spaceNormal t = true := spaceNormal_tail c t hs
      constructor
      · unfold collapseWs
        by_cases hws : jsWs c = true
        · rw [if_pos hws]
          rw [spaceNormal] at hs
          simp only [Bool.and_eq_true] at hs
          obtain ⟨hok, -⟩ := hs
          unfold okPair at hok
          rw [if_pos hws] at hok
          simp only [Bool.and_eq_true, beq_iff_eq] at hok
          obtain ⟨hc, hnext⟩ := hok
          subst hc
          have hafter := (ih t hlent htail).2
          rw [hafter]
          intro d hd
          cases t with
          | nil => exact Option.noConfusion hd
          | cons d2 t2 =>
            injection hd with hd2
            subst hd2
            simpa using hnext
        · rw [if_neg hws]
          rw [(ih t hlent htail).1]
      · intro hhead
        unfold collapseAfterWs
        cases hcs : (c :: t) with
        | nil => exact List.noConfusion hcs
        | cons c2 t2 =>
          injection hcs with e1 e2
          subst e1
          subst e2
          rw [if_neg (by rw [hhead c rfl]; exact Bool.false_ne_true)]
          rw [(ih t hlent htail).1]

theorem preprocess_id (cs : List Char)
    (hnl : ∀ c ∈ cs, c ≠ '\n')
    (hsn : spaceNormal cs = true)
    (h1 : ∀ c, cs.head? = some c → jsWs c = false)
    (h2 : ∀ c, cs.getLast? = some c → jsWs c = false) : preprocess cs = cs := by
  unfold preprocess
  rw [replaceBNL_id cs hnl, (collapse_id_aux cs.length cs (le_refl _) hsn).1,
    trimL_id cs h1 h2]

/-! ### Tokenizer on clean chunk lists (claim C7) -/

theorem tokenizeAux_bare (w : List Char)
    (hw : ∀ c ∈ w, isQuote c = false ∧ c ≠ ' ') :
    ∀ (tail cur : List Char),
      tokenizeAux (w ++ tail) none cur = tokenizeAux tail none (cur ++ w) := by
  induction w with
  | nil => intro tail cur; rw [List.append_nil]; rfl
  | cons c t ih =>
    intro tail cur
    obtain ⟨hq, hsp⟩ := hw c (List.mem_cons_self _ _)
    show (if isQuote c = true then tokenizeAux (t ++ tail) (some c) (cur ++ [c])
          else if c = ' ' then
            if trimL cur = [] then tokenizeAux (t ++ tail) none cur
            else trimL cur :: tokenizeAux (t ++ tail) none []
          else tokenizeAux (t ++ tail) none (cur ++ [c])) = _
    rw [if_neg (by rw [hq]; exact Bool.false_ne_true), if_neg hsp,
      ih (fun d hd => hw d (List.mem_cons_of_mem _ hd)) tail (cur ++ [c])]
    rw [List.append_assoc]
    rfl

theorem tokenizeAux_inquote (inner : List Char) (q : Char)
    (hi : ∀ c ∈ inner, isQuote c = false) (hq : isQuote q = true) :
    ∀ (tail cur : List Char),
      tokenizeAux (inner ++ q :: tail) (some q) cur
        = tokenizeAux tail none (cur ++ inner ++ [q]) := by
  induction inner with
  | nil =>
    intro tail cur
    show (if q = q then tokenizeAux tail none (cur ++ [q])
          else tokenizeAux tail (some q) (cur ++ [q])) = _
    rw [if_pos rfl, List.append_nil]
  | cons c t ih =>
    intro tail cur
    have hcq : c ≠ q := by
      intro he
      rw [he] at hi
      rw [hi q (List.mem_cons_self _ _)] at hq
      exact Bool.noConfusion hq
    show (if c = q then tokenizeAux (t ++ q :: tail) none (cur ++ [c])
          else tokenizeAux (t ++ q :: tail) (some q) (cur ++ [c])) = _
    rw [if_neg hcq, ih (fun d hd => hi d (List.mem_cons_of_mem _ hd)) tail (cur ++ [c])]
    rw [show cur ++ [c] ++ t = cur ++ c :: t from by rw [List.append_assoc]; rfl]

theorem tokenizeAux_quoted (inner : List Char) (q : Char)
    (hi : ∀ c ∈ inner, isQuote c = false) (hq : isQuote q = true) :
    ∀ (tail cur : List Char),
      tokenizeAux ((q :: inner ++ [q]) ++ tail) none cur
        = tokenizeAux tail none (cur ++ q :: inner ++ [q]) := by
  intro tail cur
  show (if isQuote q = true then tokenizeAux (inner ++ [q] ++ tail) (some q) (cur ++ [q])
        else if q = ' ' then
          if trimL cur = [] then tokenizeAux (inner ++ [q] ++ tail) none cur
          else trimL cur :: tokenizeAux (inner ++ [q] ++ tail) none []
        else tokenizeAux (inner ++ [q] ++ tail) none (cur ++ [q])) = _
  rw [if_pos hq]
  rw [show inner ++ [q] ++ tail = inner ++ q :: tail from by rw [List.append_assoc]; rfl]
  rw [tokenizeAux_inquote inner q hi hq tail (cur ++ [q])]
  simp

theorem chunk_ne (w : List Char) (h : chunkP w) : w ≠ [] := by
  rcases h with ⟨hne, -⟩ | ⟨inner, he, -, -⟩
  · exact hne
  · rw [he]
    exact List.cons_ne_nil _ _

theorem isQuote_not_ws (c : Char) (h : isQuote c = true) : jsWs c = false := by
  unfold isQuote at h
  simp only [Bool.or_eq_true, beq_iff_eq] at h
  rcases h with h | h <;> subst h <;> rfl

theorem chunk_head_last (w : List Char) (h : chunkP w) :
    (∀ c, w.head? = some c → jsWs c = false) ∧
      (∀ c, w.getLast? = some c → jsWs c = false) := by
  rcases h with ⟨hne, hall⟩ | ⟨inner, he, -, -⟩
  · constructor
    · intro c hc
      exact (hall c (List.mem_of_mem_head? hc)).2.1
    · intro c hc
      exact (hall c (List.mem_of_mem_getLast? hc)).2.1
  · subst he
    constructor
    · intro c hc
      injection hc with hc
      subst hc
      rfl
    · intro c hc
      have : (quotedChunk inner).getLast? = some '"' := by
        show (('"' :: inner) ++ ['"']).getLast? = some '"'
        rw [List.getLast?_concat]
      rw [this] at hc
      injection hc with hc
      subst hc
      rfl

theorem chunk_trim (w : List Char) (h : chunkP w) : trimL w = w :=
  trimL_id w (chunk_head_last w h).1 (chunk_head_last w h).2

theorem tokenizeAux_chunk (w : List Char) (h : chunkP w) (tail cur : List Char) :
    tokenizeAux (w ++ tail) none cur = tokenizeAux tail none (cur ++ w) := by
  rcases h with ⟨-, hall⟩ | ⟨inner, he, -, hq⟩
  · exact tokenizeAux_bare w (fun c hc => ⟨(hall c hc).1, by
      intro hsp
      have := (hall c hc).2.1
      rw [hsp] at this
      exact Bool.noConfusion this⟩) tail cur
  · subst he
    unfold quotedChunk
    rw [← List.append_assoc cur ('"' :: inner) ['"']]
    exact tokenizeAux_quoted inner '"' (fun c hc => (hq c hc).1) rfl tail cur

theorem tok_end (cur : List Char) (hcur : trimL cur = cur) (hne : cur ≠ []) :
    tokenizeAux [] none cur = [cur] := by
  show (if trimL cur = [] then [] else [trimL cur]) = [cur]
  rw [hcur, if_neg hne]

theorem tok_space (rest cur : List Char) (hcur : trimL cur = cur) (hne : cur ≠ []) :
    tokenizeAux (' ' :: rest) none cur = cur :: tokenizeAux rest none [] := by
  show (if trimL cur = [] then tokenizeAux rest none cur
        else trimL cur :: tokenizeAux rest none []) = cur :: tokenizeAux rest none []
  rw [hcur, if_neg hne]

theorem tok_sepFlat : ∀ (ws : List (List Char)), (∀ u ∈ ws, chunkP u) →
    ∀ (cur : List Char), trimL cur = cur → cur ≠ [] →
      tokenizeAux (sepFlat ws) none cur = cur :: ws := by
  intro ws
  induction ws with
  | nil =>
    intro h cur hcur hne
    exact tok_end cur hcur hne
  | cons w ws ih =>
    intro h cur hcur hne
    have hw := h w (List.mem_cons_self _ _)
    show tokenizeAux (' ' :: (w ++ sepFlat ws)) none cur = cur :: w :: ws
    rw [tok_space _ cur hcur hne, tokenizeAux_chunk w hw _ []]
    rw [ih (fun u hu => h u (List.mem_cons_of_mem _ hu)) ([] ++ w)
      (by rw [List.nil_append]; exact chunk_trim w hw)
      (by rw [List.nil_append]; exact chunk_ne w hw)]
    rfl

theorem spaceNormal_cons_nws (c : Char) (cs : List Char) (h : jsWs c = false) :
    spaceNormal (c :: cs) = spaceNormal cs := by
  rw [spaceNormal]
  have hok : okPair c cs = true := by
    unfold okPair
    rw [if_neg (by rw [h]; exact Bool.false_ne_true)]
  rw [hok, Bool.true_and]

theorem spaceNormal_of_nws (cs : List Char) (h : ∀ c ∈ cs, jsWs c = false) :
    spaceNormal cs = true := by
  induction cs with
  | nil => rfl
  | cons c t ih =>
    rw [spaceNormal_cons_nws c t (h c (List.mem_cons_self _ _))]
    exact ih (fun d hd => h d (List.mem_cons_of_mem _ hd))

theorem spaceNormal_append_gen : ∀ (a b : List Char), spaceNormal a = true →
    spaceNormal b = true →
    (∀ c d, a.getLast? = some c → jsWs c = true → b.head? = some d → jsWs d = false) →
    spaceNormal (a ++ b) = true := by
  intro a
  induction a with
  | nil => intro b _ hb _; exact hb
  | cons c t ih =>
    intro b ha hb hbd
    show spaceNormal (c :: (t ++ b)) = true
    rw [spaceNormal]
    simp only [Bool.and_eq_true]
    have htail : spaceNormal t = true := spaceNormal_tail c t ha
    have hnextgen : ∀ c2 d, t.getLast? = some c2 → jsWs c2 = true → b.head? = some d →
        jsWs d = false := by
      intro c2 d hl hwsc hd
      cases t with
      | nil => exact Option.noConfusion hl
      | cons d2 t2 =>
        refine hbd c2 d ?_ hwsc hd
        rw [← hl]
        rfl
    refine ⟨?_, ih b htail hb hnextgen⟩
    unfold okPair
    by_cases hws : jsWs c = true
    · rw [if_pos hws]
      rw [spaceNormal] at ha
      simp only [Bool.and_eq_true] at ha
      obtain ⟨hok, -⟩ := ha
      unfold okPair at hok
      rw [if_pos hws] at hok
      simp only [Bool.and_eq_true, beq_iff_eq] at hok
      obtain ⟨hc, hnext⟩ := hok
      subst hc
      simp only [Bool.and_eq_true, beq_iff_eq]
      refine ⟨by simp, ?_⟩
      cases t with
      | nil =>
        cases hb2 : b with
        | nil => simp
        | cons d b2 =>
          have hd : jsWs d = false := hbd ' ' d rfl rfl (by rw [hb2]; rfl)
          simp [hd]
      | cons d t2 =>
        simp only [Bool.not_eq_true'] at hnext
        simp [hnext]
    · rw [if_neg hws]

theorem spaceNormal_quotedChunk (inner : List Char) (h : spaceNormal inner = true) :
    spaceNormal (quotedChunk inner) = true := by
  show spaceNormal ('"' :: (inner ++ ['"'])) = true
  rw [spaceNormal_cons_nws '"' (inner ++ ['"']) rfl]
  apply spaceNormal_append_gen inner ['"'] h rfl
  intro c d hl hws hd
  injection hd with hd
  subst hd
  rfl

theorem chunk_spaceNormal (w : List Char) (h : chunkP w) : spaceNormal w = true := by
  rcases h with ⟨-, hall⟩ | ⟨inner, he, hsn, -⟩
  · exact spaceNormal_of_nws w (fun c hc => (hall c hc).2.1)
  · subst he
    exact spaceNormal_quotedChunk inner hsn

theorem sepFlat_spaceNormal : ∀ (ws : List (List Char)), (∀ u ∈ ws, chunkP u) →
    spaceNormal (sepFlat ws) = true := by
  intro ws
  induction ws with
  | nil => intro _; rfl
  | cons w ws ih =>
    intro h
    have hw := h w (List.mem_cons_self _ _)
    show spaceNormal (' ' :: (w ++ sepFlat ws)) = true
    rw [spaceNormal]
    simp only [Bool.and_eq_true]
    constructor
    · unfold okPair
      rw [if_pos (show jsWs ' ' = true from rfl)]
      simp only [Bool.and_eq_true, beq_iff_eq]
      refine ⟨by simp, ?_⟩
      cases hw2 : w with
      | nil => exact absurd hw2 (chunk_ne w hw)
      | cons c w2 =>
        have hc : jsWs c = false := (chunk_head_last w hw).1 c (by rw [hw2]; rfl)
        simp [hc]
    · apply spaceNormal_append_gen w (sepFlat ws) (chunk_spaceNormal w hw)
        (ih (fun u hu => h u (List.mem_cons_of_mem _ hu)))
      intro c d hl hws hd
      exact absurd hws (by rw [(chunk_head_last w hw).2 c hl]; exact Bool.false_ne_true)

theorem sepFlat_noNl (ws : List (List Char))
    (h : ∀ u ∈ ws, ∀ c ∈ u, c ≠ '\n') : ∀ c ∈ sepFlat ws, c ≠ '\n' := by
  intro c hc
  unfold sepFlat at hc
  rw [List.mem_flatMap] at hc
  obtain ⟨u, hu, hcu⟩ := hc
  rcases List.mem_cons.mp hcu with he | hcu2
  · subst he
    decide
  · exact h u hu c hcu2

theorem chunk_noNl (w : List Char) (h : chunkP w) : ∀ c ∈ w, c ≠ '\n' := by
  rcases h with ⟨-, hall⟩ | ⟨inner, he, -, hq⟩
  · exact fun c hc => (hall c hc).2.2
  · subst he
    intro c hc
    rcases List.mem_cons.mp hc with he | hc2
    · subst he; decide
    · rcases List.mem_append.mp hc2 with h3 | h3
      · exact (hq c h3).2
      · rcases List.mem_singleton.mp h3 with rfl
        decide

/-! ### The walk over clean emitted chunks (claim C7) -/

theorem stripEdgeQuotes_quoted (inner : List Char) :
    stripEdgeQuotes (quotedChunk inner) = inner := by
  show (match (inner ++ ['"']).getLast? with
        | some c => if isQuote c = true then (inner ++ ['"']).dropLast else (inner ++ ['"'])
        | none => inner ++ ['"']) = inner
  rw [List.getLast?_concat]
  dsimp only []
  rw [if_pos (show isQuote '"' = true from rfl)]
  exact List.dropLast_concat

theorem stripAllQuotes_id (cs : List Char) (h : ∀ c ∈ cs, isQuote c = false) :
    stripAllQuotes cs = cs := by
  unfold stripAllQuotes
  rw [List.filter_eq_self.mpr]
  intro c hc
  rw [h c hc]
  rfl

theorem findIdx_colon (k : List Char) (h : ∀ c ∈ k, c ≠ ':') (rest : List Char) :
    List.findIdx? (fun x => decide (x = ':')) (k ++ ':' :: rest) = some k.length := by
  rw [List.findIdx?_append]
  have hk : List.findIdx? (fun x => decide (x = ':')) k = none := by
    rw [List.findIdx?_eq_none_iff]
    intro x hx
    simp [h x hx]
  rw [hk]
  simp

theorem trimL_cons_ws (c : Char) (cs : List Char) (h : jsWs c = true) :
    trimL (c :: cs) = trimL cs := by
  unfold trimL
  rw [List.dropWhile_cons_of_pos (by simpa using h)]

theorem walk_curl (rest : List (List Char)) (st : ParsedCurl) :
    walkTokens ("curl".data :: rest) st = walkTokens rest st := by
  cases rest with
  | nil => rfl
  | cons r rest2 => rfl

theorem walk_X (m : List Char) (rest : List (List Char)) (st : ParsedCurl)
    (h : ∀ c ∈ m, isQuote c = false) :
    walkTokens ("-X".data :: m :: rest) st
      = walkTokens rest { st with method := ⟨m⟩ } := by
  have he : walkTokens ("-X".data :: m :: rest) st
      = walkTokens rest { st with method := ⟨stripAllQuotes m⟩ } := rfl
  rw [he, stripAllQuotes_id m h]

theorem walk_d (d : List Char) (rest : List (List Char)) (st : ParsedCurl) :
    walkTokens ("-d".data :: quotedChunk d :: rest) st
      = walkTokens rest { st with data := some ⟨d⟩ } := by
  have he : walkTokens ("-d".data :: quotedChunk d :: rest) st
      = walkTokens rest { st with data := some ⟨stripEdgeQuotes (quotedChunk d)⟩ } := rfl
  rw [he, stripEdgeQuotes_quoted d]

theorem walk_H (k v : String) (rest : List (List Char)) (st : ParsedCurl)
    (hk : k.data ≠ []) (hkc : ∀ c ∈ k.data, c ≠ ':')
    (hktrim : trimL k.data = k.data) (hklc : lcToLower k.data = k.data)
    (hvtrim : trimL v.data = v.data) :
    walkTokens ("-H".data :: hdrChunk (k, v) :: rest) st
      = walkTokens rest { st with headers := setAssoc st.headers k v } := by
  have hinner : (hdrChunk (k, v) : List Char) = quotedChunk (k.data ++ ':' :: ' ' :: v.data) := by
    show quotedChunk (k.data ++ ": ".data ++ v.data) = _
    rw [List.append_assoc]
    rfl
  have he : walkTokens ("-H".data :: hdrChunk (k, v) :: rest) st
      = (match (stripEdgeQuotes (hdrChunk (k, v))).findIdx? (· = ':') with
         | some ci =>
           if 0 < ci then
             walkTokens rest
               { st with
                 headers := setAssoc st.headers
                   ⟨lcToLower (trimL ((stripEdgeQuotes (hdrChunk (k, v))).take ci))⟩
                   ⟨trimL ((stripEdgeQuotes (hdrChunk (k, v))).drop (ci + 1))⟩ }
           else walkTokens rest st
         | none => walkTokens rest st) := rfl
  rw [he, hinner, stripEdgeQuotes_quoted]
  rw [findIdx_colon k.data hkc (' ' :: v.data)]
  dsimp only []
  rw [if_pos (by cases hd : k.data with
    | nil => exact absurd hd hk
    | cons c t => simp [hd])]
  rw [List.take_left' rfl]
  rw [show (k.data ++ ':' :: ' ' :: v.data).drop (k.data.length + 1)
      = ' ' :: v.data from by
    rw [show k.data.length + 1 = (k.data ++ [':']).length from by simp]
    rw [show k.data ++ ':' :: ' ' :: v.data = (k.data ++ [':']) ++ ' ' :: v.data from by simp]
    exact List.drop_left _ _]
  rw [trimL_cons_ws ' ' v.data rfl, hvtrim, hktrim, hklc]

theorem walk_url (u : String) (st : ParsedCurl) (hurl : st.url = "")
    (hc : (u.data.contains '.' || u.data.contains '/') = true) :
    walkTokens [quotedChunk u.data] st = { st with url := u } := by
  have he : walkTokens [quotedChunk u.data] st
      = (if (decide (st.url = "")
            && ((quotedChunk u.data).contains '.' || (quotedChunk u.data).contains '/')) = true
         then ({ st with url := ⟨stripEdgeQuotes (quotedChunk u.data)⟩ } : ParsedCurl)
         else st) := rfl
  have hcq : ((quotedChunk u.data).contains '.' || (quotedChunk u.data).contains '/') = true := by
    have h1 : u.data.contains '.' = true ∨ u.data.contains '/' = true := by simpa using hc
    simp only [quotedChunk, Bool.or_eq_true, List.contains_iff_exists_mem_beq] at h1 ⊢
    rcases h1 with ⟨a, ha, hb⟩ | ⟨a, ha, hb⟩
    · exact Or.inl ⟨a, by simp [ha], hb⟩
    · exact Or.inr ⟨a, by simp [ha], hb⟩
  rw [he]
  rw [if_pos (by rw [hurl]; simpa using hcq)]
  rw [stripEdgeQuotes_quoted]

theorem setAssoc_fresh {α : Type} (m : List (String × α)) (k : String) (v : α)
    (h : ∀ kv ∈ m, kv.1 ≠ k) : setAssoc m k v = m ++ [(k, v)] := by
  unfold setAssoc
  rw [if_neg]
  intro ha
  simp only [List.any_eq_true, beq_iff_eq] at ha
  obtain ⟨kv, hkv, he⟩ := ha
  exact h kv hkv he

theorem foldl_setAssoc_fresh : ∀ (hs : List (String × String)) (m : List (String × String)),
    (∀ kv ∈ hs, ∀ kv2 ∈ m, kv2.1 ≠ kv.1) → strNodup (hs.map (·.1)) = true →
    hs.foldl (fun m2 kv => setAssoc m2 kv.1 kv.2) m = m ++ hs := by
  intro hs
  induction hs with
  | nil => intro m _ _; rw [List.foldl_nil, List.append_nil]
  | cons kv t ih =>
    intro m hfresh hnodup
    rw [List.foldl_cons, setAssoc_fresh m kv.1 kv.2 (fun kv2 h2 => hfresh kv (List.mem_cons_self _ _) kv2 h2)]
    rw [ih (m ++ [(kv.1, kv.2)]) ?_ ?_]
    · simp
    · intro kv2 h2 kv3 h3
      rcases List.mem_append.mp h3 with h4 | h4
      · exact hfresh kv2 (List.mem_cons_of_mem _ h2) kv3 h4
      · rcases List.mem_singleton.mp h4 with rfl
        show kv.1 ≠ kv2.1
        rw [List.map_cons, strNodup] at hnodup
        simp only [Bool.and_eq_true, Bool.not_eq_true'] at hnodup
        intro he
        have hm : kv2.1 ∈ t.map (·.1) := List.mem_map_of_mem _ h2
        rw [← he] at hm
        have hc := hnodup.1
        rw [show (List.map (fun x => x.1) t).contains kv.1
            = List.elem kv.1 (List.map (fun x => x.1) t) from rfl] at hc
        rw [List.elem_iff.mpr hm] at hc
        exact Bool.noConfusion hc
    · rw [List.map_cons, strNodup] at hnodup
      simp only [Bool.and_eq_true] at hnodup
      exact hnodup.2

theorem walk_hdrs : ∀ (hs : List (String × String)) (st : ParsedCurl)
    (rest : List (List Char)),
    (∀ kv ∈ hs, kv.1.data ≠ [] ∧ (∀ c ∈ kv.1.data, c ≠ ':') ∧ trimL kv.1.data = kv.1.data ∧
      lcToLower kv.1.data = kv.1.data ∧ trimL kv.2.data = kv.2.data) →
    walkTokens ((hs.flatMap fun kv => ["-H".data, hdrChunk kv]) ++ rest) st
      = walkTokens rest
          { st with headers := hs.foldl (fun m kv => setAssoc m kv.1 kv.2) st.headers } := by
  intro hs
  induction hs with
  | nil => intro st rest _; rfl
  | cons kv t ih =>
    intro st rest h
    obtain ⟨k, v⟩ := kv
    obtain ⟨h1, h2, h3, h4, h5⟩ := h (k, v) (List.mem_cons_self _ _)
    rw [List.flatMap_cons]
    rw [show (["-H".data, hdrChunk (k, v)] ++ (t.flatMap fun kv => ["-H".data, hdrChunk kv]))
          ++ rest
        = "-H".data :: hdrChunk (k, v) :: ((t.flatMap fun kv => ["-H".data, hdrChunk kv]) ++ rest)
      from by simp]
    rw [walk_H k v _ st h1 h2 h3 h4 h5]
    rw [ih _ rest (fun kv2 hkv2 => h kv2 (List.mem_cons_of_mem _ hkv2))]
    rfl

theorem buildFold_data : ∀ (hs : List (String × String)) (cmd0 : String),
    (hs.foldl (fun acc kv => acc ++ " -H \"" ++ kv.1 ++ ": " ++ kv.2 ++ "\"") cmd0).data
      = cmd0.data ++ sepFlat (hs.flatMap fun kv => ["-H".data, hdrChunk kv]) := by
  intro hs
  induction hs with
  | nil => intro cmd0; simp [sepFlat]
  | cons kv t ih =>
    intro cmd0
    rw [List.foldl_cons, ih]
    have e1 : (" -H \"" : String).data = [' ', '-', 'H', ' ', '"'] := rfl
    have e2 : (": " : String).data = [':', ' '] := rfl
    have e3 : ("\"" : String).data = ['"'] := rfl
    have e4 : ("-H" : String).data = ['-', 'H'] := rfl
    simp [sepFlat, hdrChunk, quotedChunk, e1, e2, e3, e4, String.data_append,
      List.append_assoc]

theorem build_data (p : ParsedCurl) (hopts : p.otherOptions = []) :
    (buildCurl p p.headers).data = "curl".data ++ sepFlat (chunkTail p) := by
  unfold buildCurl chunkTail
  rw [hopts]
  dsimp only []
  rw [if_neg (show ¬((List.filter _ []) ≠ ([] : List String)) from by simp)]
  by_cases hm : p.method = "GET"
  · rw [if_neg (by simpa using hm), if_pos hm]
    cases hd : p.data with
    | none =>
      dsimp only []
      simp only [String.data_append]
      rw [buildFold_data]
      have e5 : (" \"" : String).data = [' ', '"'] := rfl
      simp [sepFlat, quotedChunk, e5, String.data_append, List.append_assoc]
    | some d =>
      dsimp only []
      by_cases hde : d = ""
      · rw [if_neg (by simpa using hde), if_pos hde]
        simp only [String.data_append]
        rw [buildFold_data]
        have e5 : (" \"" : String).data = [' ', '"'] := rfl
        simp [sepFlat, quotedChunk, e5, String.data_append, List.append_assoc]
      · rw [if_pos hde, if_neg hde]
        simp only [String.data_append]
        rw [buildFold_data]
        have e5 : (" \"" : String).data = [' ', '"'] := rfl
        have e6 : (" -d \"" : String).data = [' ', '-', 'd', ' ', '"'] := rfl
        have e7 : ("-d" : String).data = ['-', 'd'] := rfl
        simp [sepFlat, quotedChunk, e5, e6, e7, String.data_append, List.append_assoc]
  · rw [if_pos (by simpa using hm), if_neg hm]
    cases hd : p.data with
    | none =>
      dsimp only []
      simp only [String.data_append]
      rw [buildFold_data]
      have e5 : (" \"" : String).data = [' ', '"'] := rfl
      have e8 : (" -X " : String).data = [' ', '-', 'X', ' '] := rfl
      have e9 : ("-X" : String).data = ['-', 'X'] := rfl
      simp [sepFlat, quotedChunk, e5, e8, e9, String.data_append, List.append_assoc]
    | some d =>
      dsimp only []
      by_cases hde : d = ""
      · rw [if_neg (by simpa using hde), if_pos hde]
        simp only [String.data_append]
        rw [buildFold_data]
        have e5 : (" \"" : String).data = [' ', '"'] := rfl
        have e8 : (" -X " : String).data = [' ', '-', 'X', ' '] := rfl
        have e9 : ("-X" : String).data = ['-', 'X'] := rfl
        simp [sepFlat, quotedChunk, e5, e8, e9, String.data_append, List.append_assoc]
      · rw [if_pos hde, if_neg hde]
        simp only [String.data_append]
        rw [buildFold_data]
        have e5 : (" \"" : String).data = [' ', '"'] := rfl
        have e6 : (" -d \"" : String).data = [' ', '-', 'd', ' ', '"'] := rfl
        have e7 : ("-d" : String).data = ['-', 'd'] := rfl
        have e8 : (" -X " : String).data = [' ', '-', 'X', ' '] := rfl
        have e9 : ("-X" : String).data = ['-', 'X'] := rfl
        simp [sepFlat, quotedChunk, e5, e6, e7, e8, e9, String.data_append, List.append_assoc]

theorem quotable_parts (cs : List Char) (h : quotable cs = true) :
    quoteFree cs = true ∧ spaceNormal cs = true ∧
      (∀ c, cs.head? = some c → jsWs c = false) ∧
      (∀ c, cs.getLast? = some c → jsWs c = false) := by
  unfold quotable at h
  simp only [Bool.and_eq_true] at h
  obtain ⟨⟨⟨hqf, hsn⟩, hh⟩, hl⟩ := h
  refine ⟨hqf, hsn, ?_, ?_⟩
  · intro c hc
    cases cs with
    | nil => exact Option.noConfusion hc
    | cons d t =>
      have hh2 : Bool.not (jsWs d) = true := hh
      injection hc with hc
      rw [← hc]
      simpa using hh2
  · intro c hc
    rw [hc] at hl
    have hl2 : Bool.not (jsWs c) = true := hl
    simpa using hl2

theorem quoteFree_all (cs : List Char) (h : quoteFree cs = true) :
    ∀ c ∈ cs, isQuote c = false := by
  intro c hc
  unfold quoteFree at h
  rw [List.all_eq_true] at h
  simpa using h c hc

theorem spaceNormal_noNl (cs : List Char) : spaceNormal cs = true → ∀ c ∈ cs, c ≠ '\n' := by
  induction cs with
  | nil => intro _ c hc; exact absurd hc (List.not_mem_nil c)
  | cons d t ih =>
    intro h c hc
    rw [spaceNormal, Bool.and_eq_true] at h
    obtain ⟨hok, hsn⟩ := h
    rcases List.mem_cons.mp hc with rfl | hc2
    · intro he
      subst he
      unfold okPair at hok
      rw [if_pos (show jsWs '\n' = true from rfl), Bool.and_eq_true] at hok
      exact absurd hok.1 (by decide)
    · exact ih hsn c hc2

theorem quotable_trim (cs : List Char) (h : quotable cs = true) : trimL cs = cs := by
  obtain ⟨-, -, h1, h2⟩ := quotable_parts cs h
  exact trimL_id cs h1 h2

theorem chunkP_bare (w : List Char) (hne : w ≠ [])
    (h : ∀ c ∈ w, jsWs c = false ∧ isQuote c = false) : chunkP w := by
  refine Or.inl ⟨hne, fun c hc => ⟨(h c hc).2, (h c hc).1, ?_⟩⟩
  intro he
  subst he
  exact absurd (h '\n' hc).1 (by decide)

theorem chunkP_quoted (inner : List Char) (h : quotable inner = true) :
    chunkP (quotedChunk inner) := by
  obtain ⟨hqf, hsn, -, -⟩ := quotable_parts inner h
  exact Or.inr ⟨inner, rfl, hsn, fun c hc =>
    ⟨quoteFree_all inner hqf c hc, spaceNormal_noNl inner hsn c hc⟩⟩

theorem hdr_inner_spaceNormal (k v : List Char) (hk : quotable k = true)
    (hv : quotable v = true) : spaceNormal (k ++ ':' :: ' ' :: v) = true := by
  obtain ⟨-, hksn, -, hkl⟩ := quotable_parts k hk
  obtain ⟨-, hvsn, hvh, -⟩ := quotable_parts v hv
  apply spaceNormal_append_gen k (':' :: ' ' :: v) hksn ?_ ?_
  · rw [spaceNormal_cons_nws ':' _ rfl]
    rw [spaceNormal, Bool.and_eq_true]
    refine ⟨?_, hvsn⟩
    unfold okPair
    rw [if_pos (show jsWs ' ' = true from rfl)]
    simp only [Bool.and_eq_true, beq_iff_eq]
    refine ⟨trivial, ?_⟩
    cases hv2 : v with
    | nil => simp
    | cons c t =>
      have hc : jsWs c = false := hvh c (by rw [hv2]; rfl)
      simp [hc]
  · intro c d hlast hws _
    exact absurd hws (by rw [hkl c hlast]; exact Bool.false_ne_true)

theorem chunkP_hdr (kv : String × String) (hk : quotable kv.1.data = true)
    (hv : quotable kv.2.data = true) : chunkP (hdrChunk kv) := by
  have hinner : hdrChunk kv = quotedChunk (kv.1.data ++ ':' :: ' ' :: kv.2.data) := by
    show quotedChunk (kv.1.data ++ ": ".data ++ kv.2.data) = _
    rw [List.append_assoc]
    rfl
  rw [hinner]
  have hsn := hdr_inner_spaceNormal kv.1.data kv.2.data hk hv
  refine Or.inr ⟨_, rfl, hsn, ?_⟩
  intro c hc
  refine ⟨?_, spaceNormal_noNl _ hsn c hc⟩
  rcases List.mem_append.mp hc with h1 | h1
  · exact quoteFree_all _ (quotable_parts _ hk).1 c h1
  · rcases List.mem_cons.mp h1 with rfl | h2
    · rfl
    · rcases List.mem_cons.mp h2 with rfl | h3
      · rfl
      · exact quoteFree_all _ (quotable_parts _ hv).1 c h3

theorem cleanParsed_parts (p : ParsedCurl) (h : cleanParsed p = true) :
    (p.method = "GET" ∨ tokenish p.method.data = true) ∧
    (∀ kv ∈ p.headers, kv.1.data ≠ [] ∧ quotable kv.1.data = true ∧
      (∀ c ∈ kv.1.data, c ≠ ':') ∧ lcToLower kv.1.data = kv.1.data ∧
      quotable kv.2.data = true) ∧
    (∀ d, p.data = some d → d.data ≠ [] ∧ quotable d.data = true) ∧
    quotable p.url.data = true ∧
    (p.url.data.contains '.' || p.url.data.contains '/') = true ∧
    p.otherOptions = [] ∧
    strNodup (p.headers.map (·.1)) = true := by
  unfold cleanParsed at h
  simp only [Bool.and_eq_true] at h
  obtain ⟨⟨⟨⟨⟨⟨h1, h2⟩, h3⟩, h4⟩, h5⟩, h6⟩, h7⟩ := h
  refine ⟨?_, ?_, ?_, h4, h5, by simpa using h6, h7⟩
  · rcases Bool.or_eq_true _ _ ▸ h1 with h1a | h1b
    · exact Or.inl (by simpa using h1a)
    · exact Or.inr h1b
  · intro kv hkv
    rw [List.all_eq_true] at h2
    have h2a := h2 kv hkv
    simp only [Bool.and_eq_true] at h2a
    obtain ⟨⟨⟨⟨hne, hq1⟩, hcol⟩, hlc⟩, hq2⟩ := h2a
    refine ⟨?_, hq1, ?_, by simpa using hlc, hq2⟩
    · intro he
      rw [he] at hne
      exact absurd hne (by decide)
    · intro c hc he
      subst he
      have : kv.1.data.contains ':' = true := by
        show List.elem ':' kv.1.data = true
        exact List.elem_iff.mpr hc
      rw [this] at hcol
      exact absurd hcol (by decide)
  · intro d hd
    rw [hd] at h3
    have h3a : (!d.data.isEmpty && quotable d.data) = true := h3
    simp only [Bool.and_eq_true] at h3a
    refine ⟨?_, h3a.2⟩
    intro he
    rw [he] at h3a
    exact absurd h3a.1 (by decide)

theorem tokenish_parts (cs : List Char) (h : tokenish cs = true) :
    cs ≠ [] ∧ ∀ c ∈ cs, jsWs c = false ∧ isQuote c = false := by
  unfold tokenish at h
  simp only [Bool.and_eq_true, List.all_eq_true] at h
  obtain ⟨hne, hall⟩ := h
  constructor
  · intro he
    rw [he] at hne
    exact absurd hne (by decide)
  · intro c hc
    have := hall c hc
    simp only [Bool.and_eq_true, Bool.not_eq_true'] at this
    exact this

theorem chunkTail_chunks (p : ParsedCurl) (h : cleanParsed p = true) :
    ∀ u ∈ chunkTail p, chunkP u := by
  obtain ⟨h1, h2, h3, h4, -, -, -⟩ := cleanParsed_parts p h
  intro u hu
  unfold chunkTail at hu
  rcases List.mem_append.mp hu with hu1 | hu1
  · rcases List.mem_append.mp hu1 with hu2 | hu2
    · rcases List.mem_append.mp hu2 with hu3 | hu3
      · by_cases hm : p.method = "GET"
        · rw [if_pos hm] at hu3
          exact absurd hu3 (List.not_mem_nil u)
        · rw [if_neg hm] at hu3
          have htok := tokenish_parts _ (h1.resolve_left hm)
          rcases List.mem_cons.mp hu3 with rfl | hu4
          · exact chunkP_bare _ (by decide) (by decide)
          · rcases List.mem_cons.mp hu4 with rfl | hu5
            · exact chunkP_bare _ htok.1 htok.2
            · exact absurd hu5 (List.not_mem_nil u)
      · rw [List.mem_flatMap] at hu3
        obtain ⟨kv, hkv, hu4⟩ := hu3
        obtain ⟨-, hk2, -, -, hk5⟩ := h2 kv hkv
        rcases List.mem_cons.mp hu4 with rfl | hu5
        · exact chunkP_bare _ (by decide) (by decide)
        · rcases List.mem_cons.mp hu5 with rfl | hu6
          · exact chunkP_hdr kv hk2 hk5
          · exact absurd hu6 (List.not_mem_nil u)
    · cases hd : p.data with
      | none =>
        rw [hd] at hu2
        exact absurd (show u ∈ ([] : List (List Char)) from hu2) (List.not_mem_nil u)
      | some d =>
        rw [hd] at hu2
        obtain ⟨hdne, hdq⟩ := h3 d hd
        have hde : d ≠ "" := by
          intro he
          rw [he] at hdne
          exact hdne rfl
        have hu2b : u ∈ (if d = "" then [] else ["-d".data, quotedChunk d.data]) := hu2
        rw [if_neg hde] at hu2b
        rcases List.mem_cons.mp hu2b with rfl | hu3
        · exact chunkP_bare _ (by decide) (by decide)
        · rcases List.mem_cons.mp hu3 with rfl | hu4
          · exact chunkP_quoted d.data hdq
          · exact absurd hu4 (List.not_mem_nil u)
  · rcases List.mem_cons.mp hu1 with rfl | hu2
    · exact chunkP_quoted p.url.data h4
    · exact absurd hu2 (List.not_mem_nil u)


theorem sepFlat_append (a b : List (List Char)) :
    sepFlat (a ++ b) = sepFlat a ++ sepFlat b := by
  unfold sepFlat
  rw [List.flatMap_append]

theorem buildFlat_last (p : ParsedCurl) :
    ∃ l, "curl".data ++ sepFlat (chunkTail p) = l ++ ['"'] := by
  refine ⟨"curl".data ++ sepFlat ((if p.method = "GET" then [] else ["-X".data, p.method.data]) ++
      (p.headers.flatMap fun kv => ["-H".data, hdrChunk kv]) ++
      (match p.data with
       | some d => if d = "" then [] else ["-d".data, quotedChunk d.data]
       | none => [])) ++ (' ' :: '"' :: p.url.data), ?_⟩
  unfold chunkTail
  rw [sepFlat_append]
  simp [sepFlat, quotedChunk]

theorem curl_chunkP : chunkP "curl".data :=
  chunkP_bare _ (by decide) (by decide)

theorem tokenize_build (p : ParsedCurl) (h : cleanParsed p = true)
    (hopts : p.otherOptions = []) :
    tokenize (buildCurl p p.headers).data = "curl".data :: chunkTail p := by
  have hch := chunkTail_chunks p h
  have hnl : ∀ c ∈ "curl".data ++ sepFlat (chunkTail p), c ≠ '\n' := by
    intro c hc
    rcases List.mem_append.mp hc with h1 | h1
    · have hcu : ∀ c ∈ "curl".data, c ≠ '\n' := by decide
      exact hcu c h1
    · exact sepFlat_noNl _ (fun u hu => chunk_noNl u (hch u hu)) c h1
  have hsn : spaceNormal ("curl".data ++ sepFlat (chunkTail p)) = true := by
    apply spaceNormal_append_gen _ _ (by decide) (sepFlat_spaceNormal _ hch)
    intro c d hl hws _
    have hl2 : ("curl".data : List Char).getLast? = some 'l' := rfl
    rw [hl2] at hl
    injection hl with hl
    rw [← hl] at hws
    exact absurd hws (by decide)
  have hhd : ∀ c, ("curl".data ++ sepFlat (chunkTail p)).head? = some c → jsWs c = false := by
    intro c hc
    have he : ("curl".data ++ sepFlat (chunkTail p)).head? = some 'c' := rfl
    rw [he] at hc
    injection hc with hc
    rw [← hc]
    rfl
  have hlast : ∀ c, ("curl".data ++ sepFlat (chunkTail p)).getLast? = some c →
      jsWs c = false := by
    intro c hc
    obtain ⟨l, hl⟩ := buildFlat_last p
    rw [hl, List.getLast?_concat] at hc
    injection hc with hc
    rw [← hc]
    rfl
  unfold tokenize
  rw [build_data p hopts, preprocess_id _ hnl hsn hhd hlast]
  rw [tokenizeAux_chunk "curl".data curl_chunkP _ [],
    tok_sepFlat (chunkTail p) hch ([] ++ "curl".data) (by decide) (by decide)]
  rfl


theorem walk_hdrs_nil (hs : List (String × String)) (st : ParsedCurl)
    (rest : List (List Char))
    (hhyp : ∀ kv ∈ hs, kv.1.data ≠ [] ∧ (∀ c ∈ kv.1.data, c ≠ ':') ∧
      trimL kv.1.data = kv.1.data ∧ lcToLower kv.1.data = kv.1.data ∧
      trimL kv.2.data = kv.2.data)
    (hst : st.headers = []) (hnodup : strNodup (hs.map (·.1)) = true) :
    walkTokens ((hs.flatMap fun kv => ["-H".data, hdrChunk kv]) ++ rest) st
      = walkTokens rest { st with headers := hs } := by
  rw [walk_hdrs hs st rest hhyp, hst,
    foldl_setAssoc_fresh hs [] (fun kv _ kv2 h2b => absurd h2b (List.not_mem_nil kv2)) hnodup,
    List.nil_append]

theorem walk_chunkTail (p : ParsedCurl) (h : cleanParsed p = true) :
    walkTokens ("curl".data :: chunkTail p) initParsed
      = { initParsed with
          method := p.method, headers := p.headers, data := p.data, url := p.url } := by
  obtain ⟨h1, h2, h3, h4, h5, -, h7⟩ := cleanParsed_parts p h
  have hhyp : ∀ kv ∈ p.headers, kv.1.data ≠ [] ∧ (∀ c ∈ kv.1.data, c ≠ ':') ∧
      trimL kv.1.data = kv.1.data ∧ lcToLower kv.1.data = kv.1.data ∧
      trimL kv.2.data = kv.2.data := by
    intro kv hkv
    obtain ⟨hk1, hk2, hk3, hk4, hk5⟩ := h2 kv hkv
    exact ⟨hk1, hk3, quotable_trim _ hk2, hk4, quotable_trim _ hk5⟩
  rw [walk_curl]
  unfold chunkTail
  by_cases hm : p.method = "GET"
  · rw [if_pos hm, hm]
    cases hd : p.data with
    | none =>
      dsimp only []
      simp only [List.nil_append, List.append_nil]
      rw [walk_hdrs_nil p.headers initParsed [quotedChunk p.url.data] hhyp rfl h7]
      rw [walk_url p.url _ rfl h5]
      try rfl
    | some d =>
      obtain ⟨hdne, -⟩ := h3 d hd
      have hde : d ≠ "" := fun he => hdne (by rw [he])
      dsimp only []
      rw [if_neg hde]
      simp only [List.nil_append, List.append_assoc]
      rw [walk_hdrs_nil p.headers initParsed _ hhyp rfl h7]
      show walkTokens ("-d".data :: quotedChunk d.data :: [quotedChunk p.url.data]) _ = _
      rw [walk_d d.data [quotedChunk p.url.data] _]
      rw [walk_url p.url _ rfl h5]
      try rfl
  · have htok := tokenish_parts _ (h1.resolve_left hm)
    rw [if_neg hm]
    cases hd : p.data with
    | none =>
      dsimp only []
      simp only [List.append_nil, List.append_assoc]
      show walkTokens ("-X".data :: p.method.data
          :: ((p.headers.flatMap fun kv => ["-H".data, hdrChunk kv])
            ++ [quotedChunk p.url.data])) _ = _
      rw [walk_X p.method.data _ initParsed (fun c hc => (htok.2 c hc).2)]
      rw [walk_hdrs_nil p.headers _ [quotedChunk p.url.data] hhyp rfl h7]
      rw [walk_url p.url _ rfl h5]
      try rfl
    | some d =>
      obtain ⟨hdne, -⟩ := h3 d hd
      have hde : d ≠ "" := fun he => hdne (by rw [he])
      dsimp only []
      rw [if_neg hde]
      simp only [List.append_assoc]
      show walkTokens ("-X".data :: p.method.data
          :: ((p.headers.flatMap fun kv => ["-H".data, hdrChunk kv])
            ++ ("-d".data :: quotedChunk d.data :: [quotedChunk p.url.data]))) _ = _
      rw [walk_X p.method.data _ initParsed (fun c hc => (htok.2 c hc).2)]
      rw [walk_hdrs_nil p.headers _ _ hhyp rfl h7]
      show walkTokens ("-d".data :: quotedChunk d.data :: [quotedChunk p.url.data]) _ = _
      rw [walk_d d.data [quotedChunk p.url.data] _]
      rw [walk_url p.url _ rfl h5]
      try rfl


theorem parseCurl_fields (s : String) (p : ParsedCurl) (h : parseCurl s = .ok p) :
    p.method = (walkOf s).method ∧ p.headers = (walkOf s).headers ∧
      p.url = (walkOf s).url ∧ p.data = (walkOf s).data ∧
      p.otherOptions = (walkOf s).otherOptions := by
  unfold parseCurl at h
  dsimp only [] at h
  iterate 12 (all_goals try split at h)
  all_goals first
    | exact Except.noConfusion h
    | (injection h with h2; subst h2; exact ⟨rfl, rfl, rfl, rfl, rfl⟩)

theorem clean_roundtrip (p : ParsedCurl) (h : cleanParsed p = true)
    (hopts : p.otherOptions = []) :
    walkOf (buildCurl p p.headers)
      = { initParsed with
          method := p.method, headers := p.headers, data := p.data, url := p.url } := by
  unfold walkOf
  rw [tokenize_build p h hopts, walk_chunkTail p h]

theorem buildCurl_congr (a b : ParsedCurl) (hs : List (String × String))
    (hm : a.method = b.method) (hd : a.data = b.data)
    (ho : a.otherOptions = b.otherOptions) (hu : a.url = b.url) :
    buildCurl a hs = buildCurl b hs := by
  unfold buildCurl
  rw [hm, hd, ho, hu]

/-- C7 (amended): for a CLEAN parse record — no extra options, a bare-word
method (or GET), quote-free collapsed headers with lowercase colon-free keys,
a nonempty quote-free collapsed body or none, and a quote-free collapsed URL
containing a dot or slash — build, tokenize and walk reproduce every captured
field verbatim, and any successful re-parse of the built command agrees with
the original on method, headers, URL, body and options, so re-building yields
the identical command.  (The unqualified round-trip statement of the spec is
false: see the counterexample, where a built command's quoted URL is swallowed
by a preceding unrecognized flag on re-parse.) -/
theorem c7_clean_roundtrip (p : ParsedCurl) (h : cleanParsed p = true)
    (hopts : p.otherOptions = []) :
    walkOf (buildCurl p p.headers)
        = { initParsed with
            method := p.method, headers := p.headers, data := p.data, url := p.url } ∧
      ∀ p2, parseCurl (buildCurl p p.headers) = .ok p2 →
        p2.method = p.method ∧ p2.headers = p.headers ∧ p2.url = p.url ∧
          p2.data = p.data ∧ p2.otherOptions = [] ∧
          buildCurl p2 p2.headers = buildCurl p p.headers := by
  have hw := clean_roundtrip p h hopts
  refine ⟨hw, ?_⟩
  intro p2 h2
  obtain ⟨hm, hh, hu, hd, ho⟩ := parseCurl_fields _ p2 h2
  rw [hw] at hm hh hu hd ho
  have hm2 : p2.method = p.method := hm
  have hh2 : p2.headers = p.headers := hh
  have hu2 : p2.url = p.url := hu
  have hd2 : p2.data = p.data := hd
  have ho2 : p2.otherOptions = [] := ho
  refine ⟨hm2, hh2, hu2, hd2, ho2, ?_⟩
  rw [hh2]
  exact buildCurl_congr p2 p p.headers hm2 hd2 (by rw [ho2, hopts]) hu2

/-- Witness for C7's amended theorem: the concrete clean POST parse above
round trips through build, tokenize and walk verbatim. -/
theorem c7_clean_roundtrip_witness :
    cleanParsed c7p = true ∧
      walkOf (buildCurl c7p c7p.headers)
        = { initParsed with
            method := c7p.method, headers := c7p.headers, data := c7p.data,
            url := c7p.url } :=
  ⟨by decide, (c7_clean_roundtrip c7p (by decide) rfl).1⟩

/-- C7 counterexample: the spec's unconditional round trip fails on
`curl -L https://x.com`, a command that begins with curl.  Its parse holds url
https://x.com and the unrecognized option -L, so build emits
`curl -L "https://x.com"`; on re-parse the -L branch swallows the following
quoted URL token (it starts with a quote, not with - or http), the URL comes
back empty, and the second build emits `curl -L "https://x.com" ""` — a
different command, with a different URL field. -/
theorem c7_roundtrip_fails :
    lcStartsWith "curl -L https://x.com".data "curl".data = true ∧
    (parseCurl "curl -L https://x.com").map (fun p => buildCurl p p.headers)
        = .ok "curl -L \"https://x.com\"" ∧
    (parseCurl "curl -L https://x.com").map (fun p => p.url) = .ok "https://x.com" ∧
    (parseCurl "curl -L \"https://x.com\"").map (fun p => p.url) = .ok "" ∧
    (parseCurl "curl -L \"https://x.com\"").map (fun p => buildCurl p p.headers)
        = .ok "curl -L \"https://x.com\" \"\"" ∧
    ("curl -L \"https://x.com\" \"\"" : String) ≠ "curl -L \"https://x.com\"" :=
  ⟨rfl, rfl, rfl, rfl, rfl, by decide⟩


end CurlFilter
